import Mathlib

/-!
# Verification of the ELF Identical Code Folding pass (`ELF/ICF.cpp`)

This file gives a shallow embedding of the ICF pass of the linker
(`src/ELF/ICF.cpp`) and proves the specified properties about it.

Modelling conventions:
* A section object (`InputSectionBase` and the concrete `InputSection`) is a
  record `Sec`; the global section table of the link (`Symtab<ELFT>::X->Sections`)
  is the list `Env.secs`, and a "section pointer" is an index into that list.
  Pointer identity is index equality.
* A `SymbolBody` is either `definedRegular value sec` (with `sec = none` for an
  absolute symbol, i.e. a null `Section` pointer) or `other` (any non-regular
  kind).  The global symbol table is `Env.syms`; `getRelocTargetSym` is modelled
  by storing the resolved global symbol index in each relocation.
* Machine integers (`uint32_t` group ids, `size_t` indices) are `Nat` with the
  modulus written out where wrap-around matters (only the `I < E - 1` loop
  guard of `ICF::run`'s range-construction scan).
* The two `GroupId` slots of a section are a pair `Nat × Nat` held in the map
  `GidMap : Nat → Nat × Nat`, indexed by the global section index.  The `Repl`
  indirection slot is a map `Nat → Nat`.
* Mutation becomes explicit state passing: `IcfState` carries the `Sections`
  vector (`sections`), the group-id store, the `Ranges` vector, `NextId` and
  `Cnt`.  `std::stable_partition` over `[Begin+1, End)` is
  `filter p ++ filter (not p)` of that slice, which is exactly the stable
  partition of a list.
* The parallel `foreach` is modelled sequentially (`std::for_each` branch);
  the `Config->Threads` flag is kept because it also selects which `GroupId`
  slot `variableEq` reads (the single-thread fast path).
-/

namespace Icf

/-- A relocation, as ICF observes it: offset, (decoded) type, explicit addend
(meaningful only in `SHT_RELA` form) and the resolved target symbol
(`getRelocTargetSym`), as an index into the global symbol table.
The `Config->Mips64EL` flag only affects how `getType` decodes `r_info`; we
store the decoded type directly. -/
structure Reloc where
  r_offset : Nat
  r_type : Nat
  r_addend : Int
  symIdx : Nat
deriving DecidableEq

/-- A symbol body, restricted to the projections ICF observes:
`DefinedRegular` with its `Value` and its `Section` (a global section index;
`none` models a null section pointer, i.e. an absolute symbol), or any
other symbol kind. -/
inductive SymbolBody where
  | definedRegular (value : Nat) (sec : Option Nat)
  | other
deriving DecidableEq

/-- The static (never mutated by ICF) data of one section object.
`isInput` records whether `dyn_cast<InputSection<ELFT>>` succeeds on it,
`size` is `getSize()`, `relocs.length` is `NumRelocations`. -/
structure Sec where
  name : String
  flags : Nat
  size : Nat
  data : List Nat
  alignment : Nat
  live : Bool
  isInput : Bool
  areRelocsRela : Bool
  relocs : List Reloc
deriving DecidableEq

instance : Inhabited Sec := ⟨⟨"", 0, 0, [], 0, false, false, false, []⟩⟩

/-- The immutable environment of one run: the global section table and the
global symbol table. -/
structure Env where
  secs : List Sec
  syms : List SymbolBody

/-- Dereference a section pointer. -/
def secOf (env : Env) (i : Nat) : Sec := env.secs.getD i default

/-- Dereference a symbol pointer. -/
def symOf (env : Env) (i : Nat) : SymbolBody := env.syms.getD i .other

/-- `llvm::ELF::SHF_WRITE`. -/
def SHF_WRITE : Nat := 1
/-- `llvm::ELF::SHF_ALLOC`. -/
def SHF_ALLOC : Nat := 2

/-- `isEligible` (ICF.cpp:114): live, allocatable, non-writable, and not
`.init`/`.fini`. -/
def isEligible (S : Sec) : Bool :=
  S.live && (S.flags &&& SHF_ALLOC != 0) && (S.flags &&& SHF_WRITE == 0) &&
    S.name != ".init" && S.name != ".fini"

/-- Modelled from the spec: `llvm::hash_combine` is not part of this
repository; the spec only requires a 32-bit value computed from the triple
`(flags, size, relocation_count)` ("Compute a 32-bit value from the triple").
We fix one concrete 32-bit mixing function of the triple. -/
def hash_combine (flags size nrel : Nat) : Nat :=
  (flags * 2654435761 + size * 2246822519 + nrel * 3266489917 + 374761393) % 2 ^ 32

/-- `getHash` (ICF.cpp:109): hash of flags, size and relocation count. -/
def getHash (S : Sec) : Nat := hash_combine S.flags S.size S.relocs.length

/-- `getAddend<ELFT>`: the explicit addend of an `Elf_Rela`; reads as `0` for
an `Elf_Rel` (implicit addends live in the section bytes). -/
def getAddend (rela : Bool) (r : Reloc) : Int := if rela then r.r_addend else 0

/-- Pairwise comparison of two equal-length lists (`std::equal` with the first
range's length; the `false` on a short second list is unreachable in ICF
because callers compare relocation counts first). -/
def all2 (f : α → α → Bool) : List α → List α → Bool
  | [], _ => true
  | _ :: _, [] => false
  | a :: as, b :: bs => f a b && all2 f as bs

/-- The `Eq` lambda of `ICF::constantEq` (ICF.cpp:188): equal offset, type and
addend.  `RelTy` is chosen from section `A`'s `AreRelocsRela`, hence the single
`rela` flag for both sides. -/
def relConstEq (rela : Bool) (ra rb : Reloc) : Bool :=
  ra.r_offset == rb.r_offset && ra.r_type == rb.r_type &&
    getAddend rela ra == getAddend rela rb

/-- `ICF::constantEq` (ICF.cpp:187): equal sizes and pointwise `relConstEq`. -/
def constantEq (rela : Bool) (relsA relsB : List Reloc) : Bool :=
  relsA.length == relsB.length && all2 (relConstEq rela) relsA relsB

/-- `ICF::equalsConstant` (ICF.cpp:201): equal relocation counts, flags, size
and bytes, then `constantEq` on the relocations (the `AreRelocsRela` dispatch
only selects `RelTy`). -/
def equalsConstant (env : Env) (a b : Nat) : Bool :=
  let A := secOf env a
  let B := secOf env b
  if A.relocs.length != B.relocs.length || A.flags != B.flags ||
      A.size != B.size || A.data != B.data then false
  else constantEq A.areRelocsRela A.relocs B.relocs

/-- The two `GroupId` slots of every section, by global section index. -/
abbrev GidMap := Nat → Nat × Nat

/-- Read `GroupId[c % 2]`. -/
def slotGet (g : GidMap) (c : Nat) (s : Nat) : Nat :=
  if c % 2 = 0 then (g s).1 else (g s).2

/-- Write `GroupId[c % 2]`. -/
def slotSet (g : GidMap) (c : Nat) (s : Nat) (v : Nat) : GidMap :=
  fun t =>
    if t = s then (if c % 2 = 0 then (v, (g s).2) else ((g s).1, v)) else g t

/-- The `Eq` lambda of `ICF::variableEq` (ICF.cpp:218).  `repl` is the `Repl`
indirection that `DefinedRegular::Section` reads through (Symbols.h:241-251
binds the reference to `Section->Repl`); it is the identity throughout the
refinement because `replace` only runs after the loop converged. -/
def relVarEq (env : Env) (threads : Bool) (cnt : Nat) (repl : Nat → Nat)
    (g : GidMap) (ra rb : Reloc) : Bool :=
  -- &SA == &SB
  if ra.symIdx = rb.symIdx then true
  else
    match symOf env ra.symIdx, symOf env rb.symIdx with
    | .definedRegular va sa, .definedRegular vb sb =>
      if va != vb then false
      else
        match sa, sb with
        | some xa, some yb =>
          -- X = dyn_cast<InputSection>(DA->Section), DA->Section = origin->Repl
          let x := repl xa
          let y := repl yb
          if !(secOf env x).isInput || !(secOf env y).isInput then false
          else if slotGet g cnt x = 0 then false
          else
            -- single-thread fast path: read the next-iteration slot
            let idx := if threads then cnt else cnt + 1
            slotGet g idx x == slotGet g idx y
        | _, _ => false
    | _, _ => false

/-- `ICF::equalsVariable` / `ICF::variableEq` (ICF.cpp:216-259): pointwise
`relVarEq` over the two relocation lists.  The `AreRelocsRela` dispatch only
selects `RelTy`; target resolution is identical for both forms. -/
def equalsVariable (env : Env) (threads : Bool) (cnt : Nat) (repl : Nat → Nat)
    (g : GidMap) (a b : Nat) : Bool :=
  all2 (relVarEq env threads cnt repl g) (secOf env a).relocs (secOf env b).relocs

/-- A half-open index interval `[bgn, fin)` into the `Sections` vector
(`struct Range` of ICF.cpp). -/
structure Range where
  bgn : Nat
  fin : Nat
deriving DecidableEq

/-- `slice l b e` is the sub-vector `l[b], ..., l[e-1]`. -/
def slice (l : List Nat) (b e : Nat) : List Nat := (l.drop b).take (e - b)

/-- Overwrite the sub-vector starting at `b` with `s`. -/
def setSlice (l : List Nat) (b : Nat) (s : List Nat) : List Nat :=
  l.take b ++ s ++ l.drop (b + s.length)

/-- Write value `v` into slot `w % 2` of every section in `xs`
(the `for (size_t I = Mid; I < End; ++I)` loop of `ICF::segregate`). -/
def writeIds (g : GidMap) (w : Nat) (xs : List Nat) (v : Nat) : GidMap :=
  xs.foldl (fun g s => slotSet g w s v) g

/-- An equality predicate as `segregate` consumes it: it may read the group-id
store (as `equalsVariable` does). -/
abbrev Pred := GidMap → Nat → Nat → Bool

/-- Result of one `ICF::segregate` call: the rearranged `Sections` vector, the
group-id store, the bumped `NextId`, the final `End` of the range the call was
given (`keptEnd`, since `R->End = Mid` shrinks it at each split), and the list
of ranges pushed onto `Ranges` (each later truncated by the splits that
followed it, exactly as the `R = NewRange` continuation does). -/
structure SegOut where
  sections : List Nat
  gid : GidMap
  nextId : Nat
  keptEnd : Nat
  news : List Range

/-- `ICF::segregate` (ICF.cpp:124): repeatedly stable-partition `[b+1, e)`
against the pivot `sections[b]`; on a split, push `{mid, e}`, assign a fresh
serial id to slot `w % 2` of the sections now in `[mid, e)`, shrink the
current range to `[b, mid)` and continue with the new range (`R = NewRange`).
`filter p ++ filter (fun s => !p s)` is `std::stable_partition`. -/
def segGo (p : Pred) (w : Nat) (sections : List Nat) (g : GidMap)
    (nid b e : Nat) : SegOut :=
  if h1 : e ≤ b + 1 then ⟨sections, g, nid, e, []⟩
  else
    let pivot := sections.getD b 0
    let rest := slice sections (b + 1) e
    let eqs := rest.filter (fun s => p g pivot s)
    let neqs := rest.filter (fun s => !(p g pivot s))
    let sections' := setSlice sections (b + 1) (eqs ++ neqs)
    let mid := b + 1 + eqs.length
    if h2 : mid = e then ⟨sections', g, nid, e, []⟩
    else
      let g' := writeIds g w (slice sections' mid e) nid
      let out := segGo p w sections' g' (nid + 1) mid e
      ⟨out.sections, out.gid, out.nextId, mid, ⟨mid, out.keptEnd⟩ :: out.news⟩
termination_by e - b
decreasing_by omega

/-- The mutable state of `ICF<ELFT>`: the `Sections` vector (global section
indices), the group-id slots, the `Ranges` vector, `NextId` and `Cnt`. -/
structure IcfState where
  sections : List Nat
  gid : GidMap
  ranges : List Range
  nextId : Nat
  cnt : Nat

/-- `equalsConstant` lifted to a (state-independent) `Pred`. -/
def constPred (env : Env) : Pred := fun _ a b => equalsConstant env a b

/-- `equalsVariable` as a `Pred`; `Repl` is the identity during refinement. -/
def varPred (env : Env) (threads : Bool) (cnt : Nat) : Pred :=
  fun g a b => equalsVariable env threads cnt (fun s => s) g a b

/-- One `segregate(&R, ...)` call on the `i`-th range: the range's `End`
becomes `keptEnd` (via the `R->End = Mid` writes) and the pushed ranges are
appended to `Ranges`. -/
def sweepStep (p : Pred) (w : Nat) (st : IcfState) (i : Nat) : IcfState :=
  let r := st.ranges.getD i ⟨0, 0⟩
  let out := segGo p w st.sections st.gid st.nextId r.bgn r.fin
  ⟨out.sections, out.gid, (st.ranges.set i ⟨r.bgn, out.keptEnd⟩) ++ out.news,
    out.nextId, st.cnt⟩

/-- `foreach(Ranges.begin(), End, segregate)`: the ranges that exist at the
start of the sweep are processed (sequentially; the parallel variant is out of
scope of the state model), the appended ones are not. -/
def sweep (p : Pred) (w : Nat) (st : IcfState) : IcfState :=
  (List.range st.ranges.length).foldl (sweepStep p w) st

/-- The `Copy` lambda (ICF.cpp:313): promote the write slot into the read slot
for every section of one range. -/
def copyOne (cnt : Nat) (sections : List Nat) (g : GidMap) (r : Range) : GidMap :=
  (slice sections r.bgn r.fin).foldl
    (fun g s => slotSet g cnt s (slotGet g (cnt + 1) s)) g

/-- `foreach(End, Ranges.end(), Copy)`: run `Copy` on the ranges appended
during the sweep (index `k` onward). -/
def copyNews (k : Nat) (st : IcfState) : IcfState :=
  { st with gid := (st.ranges.drop k).foldl (copyOne st.cnt st.sections) st.gid }

/-- One full pass of `ICF::run`'s driver: segregate every pre-existing range,
copy new ids for the appended ranges, `++Cnt`. -/
def icfPass (env : Env) (threads : Bool) (constant : Bool) (st : IcfState) :
    IcfState :=
  let k := st.ranges.length
  let p := if constant then constPred env else varPred env threads st.cnt
  let st' := sweep p (st.cnt + 1) st
  let st'' := copyNews k st'
  { st'' with cnt := st''.cnt + 1 }

/-- The `for (;;)` loop of `ICF::run` (ICF.cpp:325): run a variable pass,
stop when it appended no range (`End == Ranges.end()`).  The loop always
terminates within `|sections| + 1` passes (proved below), which is the fuel
`run` passes in. -/
def icfLoop (env : Env) (threads : Bool) : Nat → IcfState → IcfState
  | 0, st => st
  | fuel + 1, st =>
    let k := st.ranges.length
    let st' := icfPass env threads false st
    if st'.ranges.length = k then st' else icfLoop env threads fuel st'

/-- The collection loop of `ICF::run` (ICF.cpp:272): every global section that
is a concrete `InputSection` (`dyn_cast`) and `isEligible`, in table order. -/
def eligList (env : Env) : List Nat :=
  (List.range env.secs.length).filter
    (fun i => (secOf env i).isInput && isEligible (secOf env i))

/-- The initial group-id store.  Sections never touched by ICF keep their
construction-time value, modelled from the spec: "zero means ineligible / not
folded" (`InputSection`'s constructor is not part of src/).  Every collected
section gets `getHash(S) | (1 << 31)` in both slots (ICF.cpp:280-282). -/
def initialGid (env : Env) (elig : List Nat) : GidMap :=
  elig.foldl
    (fun g s => fun t =>
      if t = s then (getHash (secOf env s) ||| 2 ^ 31, getHash (secOf env s) ||| 2 ^ 31)
      else g t)
    (fun _ => (0, 0))

/-- The strict comparator of the `std::stable_sort` call (ICF.cpp:286-293):
by `GroupId[0]` ascending, ties by alignment descending. -/
def sortLt (env : Env) (g : GidMap) (a b : Nat) : Bool :=
  if (g a).1 != (g b).1 then (g a).1 < (g b).1
  else decide ((secOf env b).alignment < (secOf env a).alignment)

/-- `size_t` modulus. -/
def usizeMod : Nat := 2 ^ 64

/-- The inner `while (J < E && Sections[I]->GroupId[0] == Sections[J]->GroupId[0])`
of the range-construction scan (ICF.cpp:303).  Every performed element access
is bounds-checked; an out-of-bounds access would surface as `none`. -/
def scanInner (g0 : Nat → Nat) (l : List Nat) (i : Nat) (j : Nat) : Option Nat :=
  if _h : j < l.length then
    if _hi : i < l.length then
      if g0 (l.getD i 0) = g0 (l.getD j 0) then scanInner g0 l i (j + 1)
      else some j
    else none
  else some j
termination_by l.length - j

theorem scanInner_ge (g0 : Nat → Nat) (l : List Nat) (i : Nat) :
    ∀ j j', scanInner g0 l i j = some j' → j ≤ j' := by
  have main : ∀ n j, l.length - j ≤ n → ∀ j', scanInner g0 l i j = some j' → j ≤ j' := by
    intro n
    induction n with
    | zero =>
      intro j hj j' h
      rw [scanInner] at h
      split at h
      next hlt => omega
      next => exact Nat.le_of_eq (Option.some_inj.mp h)
    | succ n ih =>
      intro j hj j' h
      rw [scanInner] at h
      split at h
      next hlt =>
        split at h
        next =>
          split at h
          next =>
            have := ih (j + 1) (by omega) j' h
            omega
          next => exact Nat.le_of_eq (Option.some_inj.mp h)
        next => simp at h
      next => exact Nat.le_of_eq (Option.some_inj.mp h)
  exact fun j => main (l.length - j) j (Nat.le_refl _)

/-- The outer `for (size_t I = 0, E = Sections.size(); I < E - 1;)` scan of
`ICF::run` (ICF.cpp:300-308).  `E - 1` is `size_t` arithmetic: for `E = 0` it
wraps around to `2^64 - 1` (`usizeMod - 1`), so the loop body still runs; the
body performs no element access then because `J < E` short-circuits the inner
condition.  A range `{I, J}` is pushed when the run has length `> 1`. -/
def scanOuter (g0 : Nat → Nat) (l : List Nat) (i : Nat) : Option (List Range) :=
  if h : i < (l.length + usizeMod - 1) % usizeMod then
    match hs : scanInner g0 l i (i + 1) with
    | none => none
    | some j =>
      match scanOuter g0 l j with
      | none => none
      | some rs => some (if j - i > 1 then ⟨i, j⟩ :: rs else rs)
  else some []
termination_by (l.length + usizeMod - 1) % usizeMod - i
decreasing_by
  have := scanInner_ge g0 l i (i + 1) j hs
  omega

/-- The range-construction scan of `ICF::run`, from `I = 0`. -/
def scanRanges (g0 : Nat → Nat) (l : List Nat) : Option (List Range) :=
  scanOuter g0 l 0

/-- Modelled from the spec: `InputSection::replace` is not part of src/; the
spec says "for every other member `M` in the range, set
`M.replaceable := representative`; the representative itself is unchanged.
No other mutation of section state occurs" (§4.8, §8 P5/P6). -/
def replaceSec (repl : Nat → Nat) (rep m : Nat) : Nat → Nat :=
  Function.update repl m rep

/-- The merge loop of `ICF::run` (ICF.cpp:338-347): for every range of size
at least 2, redirect each non-first member to the representative
`Sections[R.Begin]`. -/
def mergeRanges (sections : List Nat) (ranges : List Range)
    (repl : Nat → Nat) : Nat → Nat :=
  ranges.foldl
    (fun repl r =>
      if r.fin - r.bgn = 1 then repl
      else
        (slice sections (r.bgn + 1) r.fin).foldl
          (fun repl m => replaceSec repl (sections.getD r.bgn 0) m) repl)
    repl

/-- The result of `ICF::run`: the final state of the refinement and the
`Repl` map after the merge loop. -/
structure IcfResult where
  state : IcfState
  repl : Nat → Nat

instance : Inhabited Reloc := ⟨⟨0, 0, 0, 0⟩⟩

/-- Two sections (by global index) are in the same class of a state: they are
the same section, or members of the slice of one common range. -/
def sameClassIn (st : IcfState) (x y : Nat) : Prop :=
  x = y ∨ ∃ r ∈ st.ranges,
    x ∈ slice st.sections r.bgn r.fin ∧ y ∈ slice st.sections r.bgn r.fin

/-- `coversFrom m rs e`: the ranges `rs` are consecutive non-empty intervals
tiling `[m, e)` in order. This is the shape of the ranges a single
`segregate` call pushes (each later truncated by the following split). -/
def coversFrom : Nat → List Range → Nat → Prop
  | m, [], e => m = e
  | m, r :: rs, e => r.bgn = m ∧ m < r.fin ∧ coversFrom r.fin rs e

/-- What one `ICF::segregate` call does to the state, relative to its range
`[b, e)`: everything outside the range is untouched, the range content is
permuted, the kept prefix `[b, keptEnd)` and the pushed ranges tile `[b, e)`,
exactly `news.length` fresh serial ids are consumed, only slot `w % 2` of
sections inside the range is written, the `m`-th pushed range's members all
get id `nid + m`, and the kept prefix's members keep their old group ids. -/
structure SegFacts (p : Pred) (w : Nat) (sections : List Nat) (g : GidMap)
    (nid b e : Nat) (out : SegOut) : Prop where
  len : out.sections.length = sections.length
  outside : ∀ q, q < b ∨ e ≤ q → out.sections.getD q 0 = sections.getD q 0
  permSlice : (slice out.sections b e).Perm (slice sections b e)
  keptLo : b < out.keptEnd
  keptHi : out.keptEnd ≤ e
  chain : coversFrom out.keptEnd out.news e
  nextIdEq : out.nextId = nid + out.news.length
  gidFrame : ∀ t, t ∉ slice sections b e → out.gid t = g t
  gidRead : ∀ c t, c % 2 ≠ w % 2 → slotGet out.gid c t = slotGet g c t
  newsIds : ∀ m, (hm : m < out.news.length) → ∀ t,
    t ∈ slice out.sections (out.news.get ⟨m, hm⟩).bgn (out.news.get ⟨m, hm⟩).fin →
    slotGet out.gid w t = nid + m
  keptGid : ∀ t, t ∈ slice out.sections b out.keptEnd → out.gid t = g t
  pivotFixed : out.sections.getD b 0 = sections.getD b 0

/-- The property `relVarEq` decides, spelled out: the targets are the
identical symbol, or both `DefinedRegular` with equal `Value`, both sections
concrete input sections, sharing the same non-zero current class id. -/
def relPairOk (env : Env) (g : GidMap) (cnt : Nat) (ra rb : Reloc) : Prop :=
  ra.symIdx = rb.symIdx ∨
    ∃ v xa yb,
      symOf env ra.symIdx = .definedRegular v (some xa) ∧
      symOf env rb.symIdx = .definedRegular v (some yb) ∧
      (secOf env xa).isInput = true ∧ (secOf env yb).isInput = true ∧
      slotGet g cnt xa ≠ 0 ∧ slotGet g cnt xa = slotGet g cnt yb

/-- `ICF::run` (ICF.cpp:270): collect eligible sections, seed hash ids,
stable-sort, build initial ranges, one constant pass, variable passes to
convergence, then merge.  `std::stable_sort` with the strict comparator
`sortLt` is `mergeSort` with the matching total preorder.  The loop fuel
`|sections| + 1` is enough for the `for (;;)` loop to hit its `break`
(theorem `icfLoop_converges` below). -/
def run (env : Env) (threads : Bool) : IcfResult :=
  let collected := eligList env
  let g0 := initialGid env collected
  let sorted := collected.mergeSort (fun a b => !(sortLt env g0 b a))
  let ranges0 := (scanRanges (fun s => (g0 s).1) sorted).getD []
  let st0 : IcfState := ⟨sorted, g0, ranges0, 1, 0⟩
  let st1 := icfPass env threads true st0
  let stF := icfLoop env threads (sorted.length + 1) st1
  ⟨stF, mergeRanges stF.sections stF.ranges (fun s => s)⟩

/-! ## Slice and slot algebra -/

theorem slice_nil (b e : Nat) : slice [] b e = [] := by
  simp [slice]

theorem slice_zero (l : List Nat) (e : Nat) : slice l 0 e = l.take e := by
  simp [slice]

theorem setSlice_zero (l : List Nat) (s : List Nat) :
    setSlice l 0 s = s ++ l.drop s.length := by
  simp [setSlice]

theorem slice_cons_succ (x : Nat) (xs : List Nat) (b e : Nat) :
    slice (x :: xs) (b + 1) e = slice xs b (e - 1) := by
  show (List.drop b xs).take (e - (b + 1)) = (List.drop b xs).take (e - 1 - b)
  congr 1
  omega

theorem setSlice_cons_succ (x : Nat) (xs : List Nat) (b : Nat) (s : List Nat) :
    setSlice (x :: xs) (b + 1) s = x :: setSlice xs b s := by
  simp only [setSlice, List.take_succ_cons, List.cons_append]
  have h : b + 1 + s.length = b + s.length + 1 := by omega
  rw [h, List.drop_succ_cons]

theorem length_slice (l : List Nat) (b e : Nat) (he : e ≤ l.length) (hb : b ≤ e) :
    (slice l b e).length = e - b := by
  simp [slice]
  omega

theorem slice_sublist (l : List Nat) (b e : Nat) : (slice l b e).Sublist l :=
  ((List.take_sublist _ _).trans (List.drop_sublist _ _))

theorem mem_of_mem_slice {x : Nat} {l : List Nat} {b e : Nat}
    (h : x ∈ slice l b e) : x ∈ l :=
  (slice_sublist l b e).mem h

theorem setSlice_slice (l : List Nat) (b e : Nat) :
    setSlice l b (slice l b e) = l := by
  induction l generalizing b e with
  | nil => simp [slice, setSlice]
  | cons x xs ih =>
    cases b with
    | zero =>
      rw [slice_zero, setSlice_zero, List.length_take]
      rcases Nat.le_total e (x :: xs).length with h | h
      · rw [Nat.min_eq_left h, List.take_append_drop]
      · rw [Nat.min_eq_right h, List.take_of_length_le h, List.drop_length,
          List.append_nil]
    | succ b =>
      rw [slice_cons_succ, setSlice_cons_succ, ih]

theorem length_setSlice (l : List Nat) (b : Nat) (s : List Nat)
    (h : b + s.length ≤ l.length) : (setSlice l b s).length = l.length := by
  simp [setSlice]
  omega

theorem getElem_slice (l : List Nat) (b e p : Nat) (hp : p < (slice l b e).length) :
    (slice l b e)[p] = l.get ⟨b + p, by
      simp [slice] at hp
      omega⟩ := by
  rw [List.get_eq_getElem]
  simp only [slice] at hp ⊢
  rw [List.getElem_take, List.getElem_drop]

theorem getD_slice (l : List Nat) (b e p : Nat) (hp : b + p < e) (he : e ≤ l.length) :
    (slice l b e).getD p 0 = l.getD (b + p) 0 := by
  have hlen : p < (slice l b e).length := by
    simp [slice]
    omega
  rw [List.getD_eq_getElem _ _ hlen, List.getD_eq_getElem _ _ (by omega),
    getElem_slice, List.get_eq_getElem]

theorem mem_slice_iff {x : Nat} {l : List Nat} {b e : Nat} (he : e ≤ l.length) :
    x ∈ slice l b e ↔ ∃ p, b ≤ p ∧ p < e ∧ l.getD p 0 = x := by
  constructor
  · intro h
    obtain ⟨p, hp, hx⟩ := List.mem_iff_getElem.mp h
    refine ⟨b + p, Nat.le_add_right _ _, ?_, ?_⟩
    · simp [slice] at hp
      omega
    · rw [List.getD_eq_getElem _ _ (by
        simp [slice] at hp
        omega)]
      rw [getElem_slice] at hx
      exact hx
  · rintro ⟨p, hbp, hpe, hx⟩
    have hlen : p - b < (slice l b e).length := by
      simp [slice]
      omega
    have hval : (slice l b e).getD (p - b) 0 = x := by
      rw [getD_slice l b e (p - b) (by omega) he]
      have hpb : b + (p - b) = p := by omega
      rw [hpb]
      exact hx
    rw [List.getD_eq_getElem _ _ hlen] at hval
    exact hval ▸ List.getElem_mem hlen

theorem slice_add (l : List Nat) (b k e : Nat) :
    slice l (b + k) e = (slice l b e).drop k := by
  simp only [slice]
  rw [List.drop_take, List.drop_drop]
  congr 1
  omega

theorem slice_take (l : List Nat) (b k e : Nat) (hk : k ≤ e - b) :
    slice l b (b + k) = (slice l b e).take k := by
  simp only [slice]
  rw [List.take_take]
  congr 1
  omega

theorem getD_setSlice_before (l : List Nat) (b : Nat) (s : List Nat) (p : Nat)
    (hp : p < b) (hb : b ≤ l.length) :
    (setSlice l b s).getD p 0 = l.getD p 0 := by
  have htb : (l.take b).length = b := by
    rw [List.length_take]
    omega
  simp only [setSlice, List.getD_eq_getElem?_getD, List.append_assoc]
  rw [List.getElem?_append_left (by omega), List.getElem?_take_of_lt hp]

theorem getD_setSlice_after (l : List Nat) (b : Nat) (s : List Nat) (p : Nat)
    (hp : b + s.length ≤ p) (hb : b + s.length ≤ l.length) :
    (setSlice l b s).getD p 0 = l.getD p 0 := by
  have htb : (l.take b).length = b := by
    rw [List.length_take]
    omega
  rcases Nat.lt_or_ge p l.length with hpl | hpl
  · simp only [setSlice, List.getD_eq_getElem?_getD, List.append_assoc]
    rw [List.getElem?_append_right (by omega), htb,
      List.getElem?_append_right (by omega), List.getElem?_drop]
    have harith : b + s.length + (p - b - s.length) = p := by omega
    rw [harith]
  · simp only [setSlice, List.getD_eq_getElem?_getD]
    rw [List.getElem?_eq_none (by
        simp only [List.length_append, List.length_take, List.length_drop]
        omega),
      List.getElem?_eq_none (by omega)]

theorem slice_setSlice_self (l : List Nat) (b : Nat) (s : List Nat)
    (h : b + s.length ≤ l.length) :
    slice (setSlice l b s) b (b + s.length) = s := by
  have htb : (l.take b).length = b := by
    rw [List.length_take]
    omega
  simp only [setSlice, slice, List.append_assoc]
  rw [show b + s.length - b = s.length from by omega]
  rw [List.drop_append_of_le_length (by omega), List.drop_of_length_le (by omega),
    List.nil_append, List.take_append_of_le_length (by omega), List.take_of_length_le (by omega)]

theorem slice_eq_cons (l : List Nat) (b e : Nat) (hbe : b < e) (he : e ≤ l.length) :
    slice l b e = l.getD b 0 :: slice l (b + 1) e := by
  simp only [slice]
  rw [List.drop_eq_getElem_cons (by omega : b < l.length)]
  rw [show e - b = (e - (b + 1)) + 1 from by omega, List.take_succ_cons]
  rw [List.getD_eq_getElem _ _ (by omega : b < l.length)]

theorem slice_split (l : List Nat) (b m e : Nat) (hbm : b ≤ m) (hme : m ≤ e) :
    slice l b e = slice l b m ++ slice l m e := by
  have h1 : slice l b m = (slice l b e).take (m - b) := by
    rw [← slice_take l b (m - b) e (by omega)]
    congr 1
    omega
  have h2 : slice l m e = (slice l b e).drop (m - b) := by
    rw [← slice_add l b (m - b) e]
    congr 1
    omega
  rw [h1, h2, List.take_append_drop]

theorem slice_eq_of_getD (l l' : List Nat) (b e : Nat)
    (hlen : l.length = l'.length)
    (h : ∀ q, b ≤ q → q < e → l.getD q 0 = l'.getD q 0) :
    slice l b e = slice l' b e := by
  apply List.ext_getElem
  · simp [slice, hlen]
  · intro n h1 h2
    rw [getElem_slice, getElem_slice]
    have hb : b + n < l.length := by
      simp [slice] at h1
      omega
    have := h (b + n) (by omega) (by
      simp [slice] at h1
      omega)
    rw [List.getD_eq_getElem _ _ hb, List.getD_eq_getElem _ _ (by omega)] at this
    exact this

/-! ## Slot algebra -/

theorem slotGet_slotSet_same (g : GidMap) (c c' : Nat) (s : Nat) (v : Nat)
    (hc : c % 2 = c' % 2) : slotGet (slotSet g c s v) c' s = v := by
  simp only [slotGet, slotSet, if_pos rfl]
  rcases Nat.mod_two_eq_zero_or_one c with h | h <;> simp [h, ← hc]

theorem slotSet_other (g : GidMap) (c : Nat) (s : Nat) (v : Nat) (t : Nat)
    (ht : t ≠ s) : slotSet g c s v t = g t := by
  simp [slotSet, ht]

theorem slotGet_slotSet_other_slot (g : GidMap) (c c' : Nat) (s t : Nat) (v : Nat)
    (hc : c % 2 ≠ c' % 2) : slotGet (slotSet g c s v) c' t = slotGet g c' t := by
  rcases Nat.mod_two_eq_zero_or_one c with h | h <;>
    rcases Nat.mod_two_eq_zero_or_one c' with h' | h' <;>
    simp [slotGet, slotSet, h, h', hc] at hc ⊢ <;>
    by_cases hts : t = s <;>
    simp [hts]

theorem slotGet_congr {g g' : GidMap} (t : Nat) (h : g t = g' t) (c : Nat) :
    slotGet g c t = slotGet g' c t := by
  unfold slotGet
  rw [h]

theorem writeIds_eq (g : GidMap) (w : Nat) (xs : List Nat) (v : Nat) (t : Nat) :
    writeIds g w xs v t =
      if t ∈ xs then (if w % 2 = 0 then (v, (writeIds g w xs v t).2)
        else ((writeIds g w xs v t).1, v)) else g t := by
  induction xs generalizing g with
  | nil => simp [writeIds]
  | cons x xs ih =>
    simp only [writeIds, List.foldl_cons] at ih ⊢
    rw [ih]
    by_cases hmem : t ∈ xs
    · simp only [hmem, if_true, List.mem_cons, or_true]
      rcases Nat.mod_two_eq_zero_or_one w with h | h <;> simp [h]
    · by_cases htx : t = x
      · subst htx
        simp [hmem, slotSet]
        rcases Nat.mod_two_eq_zero_or_one w with h | h <;> simp [h]
      · simp [hmem, htx, slotSet_other g w x v t htx]

/-- Pointwise description of `writeIds` on the written slot. -/
theorem slotGet_writeIds_mem (g : GidMap) (w w' : Nat) (xs : List Nat) (v : Nat)
    (t : Nat) (ht : t ∈ xs) (hw : w % 2 = w' % 2) :
    slotGet (writeIds g w xs v) w' t = v := by
  rw [slotGet]
  rw [writeIds_eq]
  rcases Nat.mod_two_eq_zero_or_one w with h | h <;>
    simp [ht, h, ← hw]

theorem writeIds_not_mem (g : GidMap) (w : Nat) (xs : List Nat) (v : Nat)
    (t : Nat) (ht : t ∉ xs) : writeIds g w xs v t = g t := by
  rw [writeIds_eq]
  simp [ht]

theorem writeIds_fst (g : GidMap) (w : Nat) (xs : List Nat) (v : Nat) (t : Nat)
    (hw : w % 2 = 1) : (writeIds g w xs v t).1 = (g t).1 := by
  induction xs generalizing g with
  | nil => rfl
  | cons x xs ih =>
    simp only [writeIds, List.foldl_cons] at ih ⊢
    rw [ih]
    by_cases htx : t = x
    · subst htx
      simp [slotSet, hw]
    · rw [slotSet_other g w x v t htx]

theorem writeIds_snd (g : GidMap) (w : Nat) (xs : List Nat) (v : Nat) (t : Nat)
    (hw : w % 2 = 0) : (writeIds g w xs v t).2 = (g t).2 := by
  induction xs generalizing g with
  | nil => rfl
  | cons x xs ih =>
    simp only [writeIds, List.foldl_cons] at ih ⊢
    rw [ih]
    by_cases htx : t = x
    · subst htx
      simp [slotSet, hw]
    · rw [slotSet_other g w x v t htx]

/-- `writeIds` never changes the other slot. -/
theorem slotGet_writeIds_other_slot (g : GidMap) (w w' : Nat) (xs : List Nat)
    (v : Nat) (t : Nat) (hw : w % 2 ≠ w' % 2) :
    slotGet (writeIds g w xs v) w' t = slotGet g w' t := by
  rcases Nat.mod_two_eq_zero_or_one w with h | h <;>
    rcases Nat.mod_two_eq_zero_or_one w' with h' | h' <;>
    rw [h] at hw <;> rw [h'] at hw <;> try omega
  · simp only [slotGet, h', if_neg (by omega : ¬ (1 : Nat) = 0)]
    exact writeIds_snd g w xs v t h
  · simp only [slotGet, h', if_pos rfl]
    exact writeIds_fst g w xs v t h

/-! ## `all2` -/

theorem all2_iff_getD {f : Reloc → Reloc → Bool} :
    ∀ {as bs : List Reloc}, as.length = bs.length →
      (all2 f as bs = true ↔
        ∀ k, k < as.length → f (as.getD k default) (bs.getD k default) = true) := by
  intro as
  induction as with
  | nil =>
    intro bs h
    cases bs with
    | nil => simp [all2]
    | cons b bs => simp at h
  | cons a as ih =>
    intro bs hlen
    cases bs with
    | nil => simp at hlen
    | cons b bs =>
      simp only [all2, Bool.and_eq_true, List.length_cons]
      rw [ih (by simpa using hlen)]
      constructor
      · rintro ⟨hf, hrest⟩ k hk
        cases k with
        | zero => simpa using hf
        | succ k =>
          simp only [List.getD_cons_succ]
          exact hrest k (by omega)
      · intro h
        refine ⟨by simpa using h 0 (by omega), fun k hk => ?_⟩
        have := h (k + 1) (by omega)
        simpa using this

/-! ## Anatomy of one `segregate` round (names for the subterms of `segGo`) -/

/-- The sections of `[b+1, e)` equal to the pivot (`std::stable_partition`'s
first block). -/
def segEqs (p : Pred) (g : GidMap) (l : List Nat) (b e : Nat) : List Nat :=
  (slice l (b + 1) e).filter (fun s => p g (l.getD b 0) s)

/-- The sections of `[b+1, e)` unequal to the pivot (the second block). -/
def segNeqs (p : Pred) (g : GidMap) (l : List Nat) (b e : Nat) : List Nat :=
  (slice l (b + 1) e).filter (fun s => !(p g (l.getD b 0) s))

/-- `Mid`, the start index of the second block. -/
def segMid (p : Pred) (g : GidMap) (l : List Nat) (b e : Nat) : Nat :=
  b + 1 + (segEqs p g l b e).length

/-- The `Sections` vector after one `stable_partition` round. -/
def segPart (p : Pred) (g : GidMap) (l : List Nat) (b e : Nat) : List Nat :=
  setSlice l (b + 1) (segEqs p g l b e ++ segNeqs p g l b e)

theorem segGo_eq_base (p : Pred) (w : Nat) (l : List Nat) (g : GidMap)
    (nid b e : Nat) (h : e ≤ b + 1) :
    segGo p w l g nid b e = ⟨l, g, nid, e, []⟩ := by
  rw [segGo, dif_pos h]

theorem segGo_eq_nosplit (p : Pred) (w : Nat) (l : List Nat) (g : GidMap)
    (nid b e : Nat) (h1 : ¬ e ≤ b + 1) (h2 : segMid p g l b e = e) :
    segGo p w l g nid b e = ⟨segPart p g l b e, g, nid, e, []⟩ := by
  rw [segGo, dif_neg h1]
  simp only [segMid, segEqs, segNeqs, segPart] at h2 ⊢
  rw [dif_pos h2]

theorem segGo_eq_split (p : Pred) (w : Nat) (l : List Nat) (g : GidMap)
    (nid b e : Nat) (h1 : ¬ e ≤ b + 1) (h2 : ¬ segMid p g l b e = e) :
    segGo p w l g nid b e =
      (let out := segGo p w (segPart p g l b e)
        (writeIds g w (slice (segPart p g l b e) (segMid p g l b e) e) nid)
        (nid + 1) (segMid p g l b e) e
      ⟨out.sections, out.gid, out.nextId, segMid p g l b e,
        ⟨segMid p g l b e, out.keptEnd⟩ :: out.news⟩) := by
  rw [segGo, dif_neg h1]
  simp only [segMid, segEqs, segNeqs, segPart] at h2 ⊢
  rw [dif_neg h2]

theorem segEqs_append_segNeqs_perm (p : Pred) (g : GidMap) (l : List Nat)
    (b e : Nat) :
    (segEqs p g l b e ++ segNeqs p g l b e).Perm (slice l (b + 1) e) :=
  List.filter_append_perm _ _

theorem segEqs_append_length (p : Pred) (g : GidMap) (l : List Nat) (b e : Nat) :
    (segEqs p g l b e ++ segNeqs p g l b e).length = (slice l (b + 1) e).length :=
  (segEqs_append_segNeqs_perm p g l b e).length_eq

theorem segMid_le (p : Pred) (g : GidMap) (l : List Nat) (b e : Nat)
    (hbe : b < e) (he : e ≤ l.length) : segMid p g l b e ≤ e := by
  have h1 := List.length_filter_le (fun s => p g (l.getD b 0) s) (slice l (b + 1) e)
  have h2 : (slice l (b + 1) e).length = e - (b + 1) := by
    rcases le_or_lt (b + 1) e with h | h
    · exact length_slice l (b + 1) e he h
    · simp [slice, show e - (b + 1) = 0 from by omega]
  simp only [segMid, segEqs]
  omega

theorem length_segPart (p : Pred) (g : GidMap) (l : List Nat) (b e : Nat)
    (hbe : b < e) (he : e ≤ l.length) :
    (segPart p g l b e).length = l.length := by
  apply length_setSlice
  rw [segEqs_append_length]
  rcases le_or_lt (b + 1) e with h | h
  · rw [length_slice l (b + 1) e he h]
    omega
  · simp [slice, show e - (b + 1) = 0 from by omega]
    omega

theorem segPart_getD_before (p : Pred) (g : GidMap) (l : List Nat) (b e : Nat)
    (q : Nat) (hq : q < b + 1) (hb : b + 1 ≤ l.length) :
    (segPart p g l b e).getD q 0 = l.getD q 0 :=
  getD_setSlice_before l (b + 1) _ q hq hb

theorem segPart_getD_after (p : Pred) (g : GidMap) (l : List Nat) (b e : Nat)
    (q : Nat) (hbe : b < e) (he : e ≤ l.length) (hq : e ≤ q) :
    (segPart p g l b e).getD q 0 = l.getD q 0 := by
  apply getD_setSlice_after
  · rw [segEqs_append_length, length_slice l (b + 1) e he (by omega)]
    omega
  · rw [segEqs_append_length, length_slice l (b + 1) e he (by omega)]
    omega

/-- After the partition, `[b+1, e)` holds the two blocks in order. -/
theorem segPart_slice_all (p : Pred) (g : GidMap) (l : List Nat) (b e : Nat)
    (hbe : b < e) (he : e ≤ l.length) :
    slice (segPart p g l b e) (b + 1) e = segEqs p g l b e ++ segNeqs p g l b e := by
  have hslen : (slice l (b + 1) e).length = e - (b + 1) :=
    length_slice l (b + 1) e he (by omega)
  have hlen : b + 1 + (segEqs p g l b e ++ segNeqs p g l b e).length ≤ l.length := by
    rw [segEqs_append_length, hslen]
    omega
  have h := slice_setSlice_self l (b + 1) (segEqs p g l b e ++ segNeqs p g l b e) hlen
  have he2 : (b + 1) + (segEqs p g l b e ++ segNeqs p g l b e).length = e := by
    rw [segEqs_append_length, hslen]
    omega
  rw [he2] at h
  exact h

/-- After the partition, `[b+1, mid)` holds exactly the pivot-equal block. -/
theorem segPart_slice_eqs (p : Pred) (g : GidMap) (l : List Nat) (b e : Nat)
    (hbe : b < e) (he : e ≤ l.length) :
    slice (segPart p g l b e) (b + 1) (segMid p g l b e) = segEqs p g l b e := by
  have hslen : (slice l (b + 1) e).length = e - (b + 1) :=
    length_slice l (b + 1) e he (by omega)
  have h2 : segMid p g l b e = (b + 1) + (segEqs p g l b e).length := rfl
  have hk : (segEqs p g l b e).length ≤ e - (b + 1) := by
    have := List.length_filter_le (fun s => p g (l.getD b 0) s) (slice l (b + 1) e)
    simp only [segEqs]
    omega
  rw [h2, slice_take _ _ _ e hk, segPart_slice_all p g l b e hbe he, List.take_left]

/-- After the partition, `[mid, e)` holds exactly the pivot-unequal block. -/
theorem segPart_slice_neqs (p : Pred) (g : GidMap) (l : List Nat) (b e : Nat)
    (hbe : b < e) (he : e ≤ l.length) :
    slice (segPart p g l b e) (segMid p g l b e) e = segNeqs p g l b e := by
  have h2 : segMid p g l b e = (b + 1) + (segEqs p g l b e).length := rfl
  rw [h2, slice_add, segPart_slice_all p g l b e hbe he, List.drop_left]

theorem coversFrom_nil_iff (m e : Nat) : coversFrom m [] e ↔ m = e := Iff.rfl

theorem coversFrom_le (m : Nat) (rs : List Range) (e : Nat) :
    coversFrom m rs e → m ≤ e := by
  induction rs generalizing m with
  | nil => intro h; exact Nat.le_of_eq h
  | cons r rs ih =>
    rintro ⟨hb, hm, hrest⟩
    have := ih r.fin hrest
    omega

theorem coversFrom_mem (m : Nat) (rs : List Range) (e : Nat)
    (h : coversFrom m rs e) :
    ∀ r ∈ rs, m ≤ r.bgn ∧ r.bgn < r.fin ∧ r.fin ≤ e := by
  induction rs generalizing m with
  | nil => intro r hr; simp at hr
  | cons r0 rs ih =>
    obtain ⟨hb, hm, hrest⟩ := h
    intro r hr
    rcases List.mem_cons.mp hr with rfl | hr
    · refine ⟨Nat.le_of_eq hb.symm, hb ▸ hm, coversFrom_le _ _ _ hrest⟩
    · have := ih r0.fin hrest r hr
      omega

/-- The master description of one `segregate` call. -/
theorem segGo_facts (p : Pred) (w : Nat) (n : Nat) :
    ∀ (sections : List Nat) (g : GidMap) (nid b e : Nat),
      e - b ≤ n → b < e → e ≤ sections.length → (slice sections b e).Nodup →
      SegFacts p w sections g nid b e (segGo p w sections g nid b e) := by
  induction n with
  | zero => intro sections g nid b e hn hbe; omega
  | succ n ih =>
    intro sections g nid b e hn hbe hlen hnd
    by_cases h1 : e ≤ b + 1
    · rw [segGo_eq_base p w sections g nid b e h1]
      exact {
        len := rfl
        outside := fun q _ => rfl
        permSlice := List.Perm.refl _
        keptLo := hbe
        keptHi := Nat.le_refl e
        chain := rfl
        nextIdEq := rfl
        gidFrame := fun t _ => rfl
        gidRead := fun c t _ => rfl
        newsIds := fun m hm => absurd hm (by simp)
        keptGid := fun t _ => rfl
        pivotFixed := rfl }
    · have hbe1 : b + 1 < e := by omega
      have hrest : (slice sections (b + 1) e).length = e - (b + 1) :=
        length_slice sections (b + 1) e hlen (by omega)
      have hcons : slice sections b e = sections.getD b 0 :: slice sections (b + 1) e :=
        slice_eq_cons sections b e hbe hlen
      have hmidle : segMid p g sections b e ≤ e := segMid_le p g sections b e hbe hlen
      have hpartlen := length_segPart p g sections b e hbe hlen
      have hperm0 : (slice (segPart p g sections b e) b e).Perm (slice sections b e) := by
        have h1' : slice (segPart p g sections b e) b e =
            sections.getD b 0 :: (segEqs p g sections b e ++ segNeqs p g sections b e) := by
          rw [slice_eq_cons _ b e hbe (by omega), segPart_slice_all p g sections b e hbe hlen,
            segPart_getD_before p g sections b e b (by omega) (by omega)]
        rw [h1', hcons]
        exact (segEqs_append_segNeqs_perm p g sections b e).cons _
      by_cases h2 : segMid p g sections b e = e
      · -- Mid == End: everything equals the pivot, no split
        rw [segGo_eq_nosplit p w sections g nid b e h1 h2]
        have hneq : segNeqs p g sections b e = [] := by
          have := segEqs_append_length p g sections b e
          rw [List.length_append, hrest] at this
          have h3 : (segEqs p g sections b e).length = e - (b + 1) := by
            simp only [segMid] at h2
            omega
          have : (segNeqs p g sections b e).length = 0 := by omega
          exact List.length_eq_zero.mp this
        have heqs : segEqs p g sections b e = slice sections (b + 1) e := by
          apply List.Sublist.eq_of_length (List.filter_sublist _)
          show (segEqs p g sections b e).length = (slice sections (b + 1) e).length
          have hlenq := segEqs_append_length p g sections b e
          rw [List.length_append, hneq, List.length_nil] at hlenq
          omega
        have hsame : segPart p g sections b e = sections := by
          rw [segPart, hneq, List.append_nil, heqs, setSlice_slice]
        rw [hsame]
        exact {
          len := rfl
          outside := fun q _ => rfl
          permSlice := List.Perm.refl _
          keptLo := hbe
          keptHi := Nat.le_refl e
          chain := rfl
          nextIdEq := rfl
          gidFrame := fun t _ => rfl
          gidRead := fun c t _ => rfl
          newsIds := fun m hm => absurd hm (by simp)
          keptGid := fun t _ => rfl
          pivotFixed := rfl }
      · -- a split happens
        rw [segGo_eq_split p w sections g nid b e h1 h2]
        simp only []
        set mid := segMid p g sections b e with hmid
        set sections' := segPart p g sections b e with hsec'
        set g' := writeIds g w (slice sections' mid e) nid with hg'
        have hmidlo : b + 1 ≤ mid := by
          simp only [hmid, segMid]
          omega
        have hmidlt : mid < e := by omega
        have hsliceneqs : slice sections' mid e = segNeqs p g sections b e :=
          segPart_slice_neqs p g sections b e hbe hlen
        have hndneqs : (slice sections' mid e).Nodup := by
          rw [hsliceneqs]
          exact ((List.filter_sublist _).nodup
            ((hcons ▸ hnd).sublist (List.sublist_cons_self _ _)))
        have hout := ih sections' g' (nid + 1) mid e (by omega) hmidlt (by omega) hndneqs
        set out := segGo p w sections' g' (nid + 1) mid e with hout_def
        -- the kept prefix [b, mid) of sections' is pivot :: eqs, untouched by out
        have houtslice_bmid : slice out.sections b mid = slice sections' b mid := by
          apply slice_eq_of_getD _ _ b mid (by rw [hout.len])
          intro q hq1 hq2
          exact hout.outside q (Or.inl hq2)
        have hsec'_bmid : slice sections' b mid =
            sections.getD b 0 :: segEqs p g sections b e := by
          rw [slice_eq_cons _ b mid (by omega) (by omega),
            segPart_slice_eqs p g sections b e hbe hlen,
            segPart_getD_before p g sections b e b (by omega) (by omega)]
        -- membership transfers
        have hmem_neqs_sub : ∀ t, t ∈ segNeqs p g sections b e → t ∈ slice sections b e := by
          intro t ht
          rw [hcons]
          exact List.mem_cons_of_mem _ (List.mem_of_mem_filter ht)
        have hmem_kept_sub : ∀ t, t ∈ slice out.sections b mid →
            t ∈ slice sections b e ∧ t ∉ segNeqs p g sections b e := by
          intro t ht
          rw [houtslice_bmid, hsec'_bmid] at ht
          have hnd' := hcons ▸ hnd
          rcases List.mem_cons.mp ht with rfl | ht
          · constructor
            · rw [hcons]; exact List.mem_cons_self _ _
            · intro hmem
              exact (List.nodup_cons.mp hnd').1 (List.mem_of_mem_filter hmem)
          · constructor
            · rw [hcons]
              exact List.mem_cons_of_mem _ (List.mem_of_mem_filter ht)
            · intro hmem
              have h1' := List.of_mem_filter ht
              have h2' := List.of_mem_filter hmem
              simp only [Bool.not_eq_true'] at h2'
              rw [h1'] at h2'
              exact Bool.noConfusion h2'
        -- out's slice [mid, e) members are in segNeqs
        have hmem_out_mide : ∀ t, t ∈ slice out.sections mid e →
            t ∈ segNeqs p g sections b e := by
          intro t ht
          rw [← hsliceneqs]
          exact hout.permSlice.mem_iff.mp ht
        refine {
          len := by rw [hout.len, hpartlen]
          outside := ?_
          permSlice := ?_
          keptLo := by
            show b < mid
            omega
          keptHi := by
            show mid ≤ e
            omega
          chain := by
            show coversFrom mid (⟨mid, out.keptEnd⟩ :: out.news) e
            exact ⟨rfl, hout.keptLo, hout.chain⟩
          nextIdEq := by
            show out.nextId = nid + (⟨mid, out.keptEnd⟩ :: out.news).length
            rw [hout.nextIdEq, List.length_cons]
            omega
          gidFrame := ?_
          gidRead := ?_
          newsIds := ?_
          keptGid := ?_
          pivotFixed := ?_ }
        · -- outside
          intro q hq
          rw [hout.outside q (by omega)]
          rcases hq with hq | hq
          · exact segPart_getD_before p g sections b e q (by omega) (by omega)
          · exact segPart_getD_after p g sections b e q hbe hlen hq
        · -- permSlice
          have hsplit_out : slice out.sections b e =
              slice out.sections b mid ++ slice out.sections mid e :=
            slice_split _ b mid e (by omega) (by omega)
          rw [hsplit_out, houtslice_bmid, hsec'_bmid, hcons]
          refine List.Perm.cons _ ?_
          have hmide_perm : (slice out.sections mid e).Perm (segNeqs p g sections b e) := by
            rw [← hsliceneqs]
            exact hout.permSlice
          exact (List.Perm.append_left _ hmide_perm).trans
            (segEqs_append_segNeqs_perm p g sections b e)
        · -- gidFrame
          intro t ht
          have htn : t ∉ segNeqs p g sections b e := fun hmem => ht (hmem_neqs_sub t hmem)
          rw [hout.gidFrame t (by rw [hsliceneqs]; exact htn)]
          exact writeIds_not_mem g w _ nid t (by rw [hsliceneqs]; exact htn)
        · -- gidRead
          intro c t hc
          rw [hout.gidRead c t hc]
          exact slotGet_writeIds_other_slot g w c _ nid t (fun h => hc h.symm)
        · -- newsIds
          intro m hm t ht
          cases m with
          | zero =>
            -- the first pushed range is out's kept range [mid, out.keptEnd)
            simp only [List.get] at ht ⊢
            have htk : t ∈ slice out.sections mid out.keptEnd := ht
            have htmem : t ∈ slice out.sections mid e := by
              rw [slice_split _ mid out.keptEnd e hout.keptLo.le hout.keptHi]
              exact List.mem_append_left _ htk
            rw [slotGet_congr t (hout.keptGid t htk) w, hg',
              slotGet_writeIds_mem g w w _ nid t (hout.permSlice.mem_iff.mp htmem) rfl]
            omega
          | succ m =>
            have hm' : m < out.news.length := by simpa using hm
            have := hout.newsIds m hm' t (by simpa using ht)
            rw [this]
            omega
        · -- keptGid
          intro t ht
          obtain ⟨htin, htn⟩ := hmem_kept_sub t ht
          rw [hout.gidFrame t (by rw [hsliceneqs]; exact htn)]
          exact writeIds_not_mem g w _ nid t (by rw [hsliceneqs]; exact htn)
        · -- pivotFixed
          show out.sections.getD b 0 = sections.getD b 0
          rw [hout.outside b (Or.inl (by omega))]
          exact segPart_getD_before p g sections b e b (by omega) (by omega)

theorem slice_mem_mono (l : List Nat) (b x y e t : Nat) (hbx : b ≤ x)
    (hye : y ≤ e) (ht : t ∈ slice l x y) : t ∈ slice l b e := by
  rcases le_or_lt x y with hxy | hxy
  · rw [slice_split l b x e hbx (by omega), slice_split l x y e hxy hye]
    exact List.mem_append_right _ (List.mem_append_left _ ht)
  · rw [slice, show y - x = 0 from by omega] at ht
    simp at ht

/-- A `segregate` call that pushed no range did not change the state, and --
when the range has at least two sections -- certifies that every non-pivot
member equals the pivot. -/
theorem segGo_nosplit (p : Pred) (w : Nat) (sections : List Nat) (g : GidMap)
    (nid b e : Nat) (hbe : b < e) (hlen : e ≤ sections.length)
    (hnil : (segGo p w sections g nid b e).news = []) :
    segGo p w sections g nid b e = ⟨sections, g, nid, e, []⟩ ∧
      ∀ x ∈ slice sections (b + 1) e, p g (sections.getD b 0) x = true := by
  by_cases h1 : e ≤ b + 1
  · refine ⟨segGo_eq_base p w sections g nid b e h1, fun x hx => ?_⟩
    rw [slice, show e - (b + 1) = 0 from by omega] at hx
    simp at hx
  · by_cases h2 : segMid p g sections b e = e
    · have heq := segGo_eq_nosplit p w sections g nid b e h1 h2
      have hrest : (slice sections (b + 1) e).length = e - (b + 1) :=
        length_slice sections (b + 1) e hlen (by omega)
      have hneq : segNeqs p g sections b e = [] := by
        have hl := segEqs_append_length p g sections b e
        rw [List.length_append, hrest] at hl
        have h3 : (segEqs p g sections b e).length = e - (b + 1) := by
          simp only [segMid] at h2
          omega
        exact List.length_eq_zero.mp (by omega)
      have hpnone := List.filter_eq_nil_iff.mp hneq
      have heqs : segEqs p g sections b e = slice sections (b + 1) e := by
        apply List.Sublist.eq_of_length (List.filter_sublist _)
        show (segEqs p g sections b e).length = (slice sections (b + 1) e).length
        have hlenq := segEqs_append_length p g sections b e
        rw [List.length_append, hneq, List.length_nil] at hlenq
        omega
      have hsame : segPart p g sections b e = sections := by
        rw [segPart, hneq, List.append_nil, heqs, setSlice_slice]
      refine ⟨by rw [heq, hsame], fun x hx => ?_⟩
      have := hpnone x hx
      simp only [Bool.not_eq_true'] at this
      simpa using this
    · exfalso
      rw [segGo_eq_split p w sections g nid b e h1 h2] at hnil
      simp at hnil

/-- A predicate that only reads group-id slots of the other parity than
`w % 2` (`equalsConstant` reads no group ids at all; `equalsVariable` with
`Threads == true` reads only the current slot while `segregate` writes the
next one). -/
def PredStable (p : Pred) (w : Nat) : Prop :=
  ∀ g g', (∀ c t, c % 2 ≠ w % 2 → slotGet g c t = slotGet g' c t) →
    ∀ a b', p g a b' = p g' a b'

/-- Piecewise preservation of an ordering relation: each range `segregate`
leaves behind (the kept `[b, keptEnd)` and every pushed range) is pairwise
`R`-related if the input range was.  This is the stability of
`std::stable_partition`: each block is a subsequence of the input. -/
theorem segGo_pieces_pairwise (p : Pred) (w : Nat) (R : Nat → Nat → Prop) (n : Nat) :
    ∀ (sections : List Nat) (g : GidMap) (nid b e : Nat),
      e - b ≤ n → b < e → e ≤ sections.length → (slice sections b e).Nodup →
      (slice sections b e).Pairwise R →
      ((slice (segGo p w sections g nid b e).sections b
          (segGo p w sections g nid b e).keptEnd).Pairwise R ∧
        ∀ m, (hm : m < (segGo p w sections g nid b e).news.length) →
          (slice (segGo p w sections g nid b e).sections
            ((segGo p w sections g nid b e).news.get ⟨m, hm⟩).bgn
            ((segGo p w sections g nid b e).news.get ⟨m, hm⟩).fin).Pairwise R) := by
  induction n with
  | zero => intro sections g nid b e hn hbe; omega
  | succ n ih =>
    intro sections g nid b e hn hbe hlen hnd hR
    by_cases h1 : e ≤ b + 1
    · rw [segGo_eq_base p w sections g nid b e h1]
      exact ⟨hR, fun m hm => absurd hm (by simp)⟩
    · have hbe1 : b + 1 < e := by omega
      have hcons : slice sections b e = sections.getD b 0 :: slice sections (b + 1) e :=
        slice_eq_cons sections b e hbe hlen
      by_cases h2 : segMid p g sections b e = e
      · rw [segGo_eq_nosplit p w sections g nid b e h1 h2]
        have hrest : (slice sections (b + 1) e).length = e - (b + 1) :=
          length_slice sections (b + 1) e hlen (by omega)
        have hneq : segNeqs p g sections b e = [] := by
          have hl := segEqs_append_length p g sections b e
          rw [List.length_append, hrest] at hl
          have h3 : (segEqs p g sections b e).length = e - (b + 1) := by
            simp only [segMid] at h2
            omega
          exact List.length_eq_zero.mp (by omega)
        have heqs : segEqs p g sections b e = slice sections (b + 1) e := by
          apply List.Sublist.eq_of_length (List.filter_sublist _)
          show (segEqs p g sections b e).length = (slice sections (b + 1) e).length
          have hlenq := segEqs_append_length p g sections b e
          rw [List.length_append, hneq, List.length_nil] at hlenq
          omega
        have hsame : segPart p g sections b e = sections := by
          rw [segPart, hneq, List.append_nil, heqs, setSlice_slice]
        rw [hsame]
        exact ⟨hR, fun m hm => absurd hm (by simp)⟩
      · rw [segGo_eq_split p w sections g nid b e h1 h2]
        simp only []
        set mid := segMid p g sections b e with hmid
        set sections' := segPart p g sections b e with hsec'
        set g' := writeIds g w (slice sections' mid e) nid with hg'
        have hmidle : mid ≤ e := segMid_le p g sections b e hbe hlen
        have hmidlo : b + 1 ≤ mid := by
          simp only [hmid, segMid]
          omega
        have hmidlt : mid < e := by omega
        have hpartlen := length_segPart p g sections b e hbe hlen
        rw [← hsec'] at hpartlen
        have hsliceneqs : slice sections' mid e = segNeqs p g sections b e :=
          segPart_slice_neqs p g sections b e hbe hlen
        have hndneqs : (slice sections' mid e).Nodup := by
          rw [hsliceneqs]
          exact ((List.filter_sublist _).nodup
            ((hcons ▸ hnd).sublist (List.sublist_cons_self _ _)))
        -- Pairwise facts about the two blocks
        have hRrest : (slice sections (b + 1) e).Pairwise R := by
          have := hcons ▸ hR
          exact this.sublist (List.sublist_cons_self _ _)
        have hRpiv : ∀ x ∈ slice sections (b + 1) e, R (sections.getD b 0) x := by
          have hx := hcons ▸ hR
          exact (List.pairwise_cons.mp hx).1
        have hRneqs : (segNeqs p g sections b e).Pairwise R :=
          hRrest.sublist (List.filter_sublist _)
        have hout := ih sections' g' (nid + 1) mid e (by omega) hmidlt (by omega)
          hndneqs (by rw [hsliceneqs]; exact hRneqs)
        set out := segGo p w sections' g' (nid + 1) mid e with hout_def
        have houtfacts := segGo_facts p w n sections' g' (nid + 1) mid e (by omega)
          hmidlt (by omega) hndneqs
        rw [← hout_def] at houtfacts
        have houtslice_bmid : slice out.sections b mid = slice sections' b mid := by
          apply slice_eq_of_getD _ _ b mid (by rw [houtfacts.len])
          intro q hq1 hq2
          exact houtfacts.outside q (Or.inl hq2)
        have hsec'_bmid : slice sections' b mid =
            sections.getD b 0 :: segEqs p g sections b e := by
          rw [hsec', hmid]
          rw [slice_eq_cons _ b (segMid p g sections b e) (by omega) (by
            rw [length_segPart p g sections b e hbe hlen]
            omega)]
          rw [segPart_slice_eqs p g sections b e hbe hlen,
            segPart_getD_before p g sections b e b (by omega) (by omega)]
        refine ⟨?_, ?_⟩
        · -- the kept piece [b, mid) is pivot :: eqs
          show (slice out.sections b mid).Pairwise R
          rw [houtslice_bmid, hsec'_bmid]
          refine List.pairwise_cons.mpr ⟨?_, hRrest.sublist (List.filter_sublist _)⟩
          intro x hx
          exact hRpiv x (List.mem_of_mem_filter hx)
        · intro m hm
          cases m with
          | zero =>
            simp only [List.get]
            exact hout.1
          | succ m =>
            simp only [List.get]
            exact hout.2 m (by simpa using hm)

/-! ## Support lemmas for the sweep -/

theorem perm_of_outside_slice (l l' : List Nat) (b e : Nat)
    (hlen : l'.length = l.length) (hbe : b ≤ e) (he : e ≤ l.length)
    (hout : ∀ q, q < b ∨ e ≤ q → l'.getD q 0 = l.getD q 0)
    (hperm : (slice l' b e).Perm (slice l b e)) : l'.Perm l := by
  have hwhole : ∀ (m : List Nat), m.length = l.length → slice m 0 m.length = m := by
    intro m hm
    simp [slice, List.take_of_length_le]
  have hdec : ∀ (m : List Nat), m.length = l.length →
      m = slice m 0 b ++ slice m b e ++ slice m e l.length := by
    intro m hm
    rw [← slice_split m 0 b e (by omega) (by omega),
      ← slice_split m 0 e l.length (by omega) (by omega), ← hm, hwhole m hm]
  rw [hdec l rfl, hdec l' hlen]
  have h1 : slice l' 0 b = slice l 0 b :=
    slice_eq_of_getD l' l 0 b (by omega) (fun q _ hq => hout q (Or.inl hq))
  have h2 : slice l' e l.length = slice l e l.length :=
    slice_eq_of_getD l' l e l.length (by omega) (fun q hq _ => hout q (Or.inr hq))
  rw [h1, h2]
  exact List.Perm.append (List.Perm.append (List.Perm.refl _) hperm) (List.Perm.refl _)

/-- Every member of `[m, e)` lies in one of the tiles. -/
theorem chain_tiling (l : List Nat) (rs : List Range) (e : Nat) :
    ∀ m, coversFrom m rs e → ∀ t, t ∈ slice l m e →
      ∃ j, ∃ (hj : j < rs.length),
        t ∈ slice l (rs.get ⟨j, hj⟩).bgn (rs.get ⟨j, hj⟩).fin := by
  induction rs with
  | nil =>
    intro m hc t ht
    rw [hc, slice, Nat.sub_self] at ht
    simp at ht
  | cons r rs ih =>
    intro m hc t ht
    obtain ⟨hb, hm, hrest⟩ := hc
    have hfe : r.fin ≤ e := coversFrom_le _ _ _ hrest
    rw [slice_split l m r.fin e (by omega) hfe] at ht
    rcases List.mem_append.mp ht with ht | ht
    · exact ⟨0, by simp, by simpa [hb] using ht⟩
    · obtain ⟨j, hj, htj⟩ := ih r.fin hrest t ht
      exact ⟨j + 1, by simpa using hj, htj⟩

/-- A value cannot lie in two disjoint slices of a duplicate-free vector. -/
theorem slice_disjoint_value (l : List Nat) (hnd : l.Nodup) (b1 e1 b2 e2 : Nat)
    (hdisj : e1 ≤ b2 ∨ e2 ≤ b1) (he1 : e1 ≤ l.length) (he2 : e2 ≤ l.length)
    (t : Nat) (h1 : t ∈ slice l b1 e1) (h2 : t ∈ slice l b2 e2) : False := by
  obtain ⟨p, hp1, hp2, hp3⟩ := (mem_slice_iff he1).mp h1
  obtain ⟨q, hq1, hq2, hq3⟩ := (mem_slice_iff he2).mp h2
  have hpq : p = q := by
    have hpl : p < l.length := by omega
    have hql : q < l.length := by omega
    rw [List.getD_eq_getElem _ _ hpl] at hp3
    rw [List.getD_eq_getElem _ _ hql] at hq3
    exact (List.Nodup.getElem_inj_iff hnd).mp (hp3.trans hq3.symm)
  omega

theorem pairwise_set_weaken {R : Range → Range → Prop} (rs : List Range)
    (i : Nat) (v : Range) (hp : rs.Pairwise R) (hi : i < rs.length)
    (h1 : ∀ x, R (rs.get ⟨i, hi⟩) x → R v x)
    (h2 : ∀ x, R x (rs.get ⟨i, hi⟩) → R x v) :
    (rs.set i v).Pairwise R := by
  rw [List.pairwise_iff_getElem] at hp ⊢
  intro a c ha hc hac
  rw [List.length_set] at ha hc
  rw [List.getElem_set, List.getElem_set]
  by_cases hia : i = a
  · subst hia
    rw [if_pos rfl, if_neg (by omega)]
    exact h1 _ (hp i c ha hc hac)
  · rw [if_neg hia]
    by_cases hic : i = c
    · subst hic
      rw [if_pos rfl]
      exact h2 _ (hp a i ha hc hac)
    · rw [if_neg hic]
      exact hp a c ha hc hac

theorem coversFrom_ordered (rs : List Range) (e : Nat) :
    ∀ m, coversFrom m rs e → rs.Pairwise (fun r r' => r.fin ≤ r'.bgn) := by
  induction rs with
  | nil => intro m _; exact List.Pairwise.nil
  | cons r rs ih =>
    intro m hc
    obtain ⟨hb, hm, hrest⟩ := hc
    refine List.Pairwise.cons ?_ (ih r.fin hrest)
    intro r' hr'
    exact (coversFrom_mem r.fin rs e hrest r' hr').1

theorem set_getD_self (rs : List Range) (i : Nat) (hi : i < rs.length) :
    rs.set i (rs.getD i ⟨0, 0⟩) = rs := by
  apply List.ext_getElem (by simp)
  intro n h1 h2
  rw [List.getElem_set]
  by_cases hin : i = n
  · subst hin
    rw [if_pos rfl, List.getD_eq_getElem _ _ hi]
  · rw [if_neg hin]

/-- Pairwise-disjoint non-empty index intervals bounded by `n`: there are at
most `n` of them (used both for termination and for the id-space bound). -/
theorem ranges_count_le (rs : List Range) (n : Nat)
    (hwf : ∀ r ∈ rs, r.bgn < r.fin ∧ r.fin ≤ n)
    (hdisj : rs.Pairwise (fun r r' => r.fin ≤ r'.bgn ∨ r'.fin ≤ r.bgn)) :
    rs.length ≤ n := by
  have hnd : (rs.map Range.bgn).Nodup := by
    show (rs.map Range.bgn).Pairwise (fun a b => a ≠ b)
    rw [List.pairwise_map, List.pairwise_iff_getElem]
    rw [List.pairwise_iff_getElem] at hdisj
    intro a c ha hc hac
    have h1 := hwf rs[a] (List.getElem_mem ha)
    have h2 := hwf rs[c] (List.getElem_mem hc)
    have h3 := hdisj a c ha hc hac
    intro heq
    omega
  have hsub : (rs.map Range.bgn).toFinset ⊆ Finset.range n := by
    intro x hx
    rw [List.mem_toFinset] at hx
    obtain ⟨r, hr, rfl⟩ := List.mem_map.mp hx
    have := hwf r hr
    rw [Finset.mem_range]
    omega
  calc rs.length = (rs.map Range.bgn).length := by simp
    _ = (rs.map Range.bgn).toFinset.card := (List.toFinset_card_of_nodup hnd).symm
    _ ≤ (Finset.range n).card := Finset.card_le_card hsub
    _ = n := Finset.card_range n

theorem slotGet_parity (g : GidMap) (c c' t : Nat) (h : c % 2 = c' % 2) :
    slotGet g c t = slotGet g c' t := by
  unfold slotGet
  rw [h]

theorem ranges_nodup (rs : List Range) (hwf : ∀ r ∈ rs, r.bgn < r.fin)
    (hdisj : rs.Pairwise (fun r r' => r.fin ≤ r'.bgn ∨ r'.fin ≤ r.bgn)) :
    rs.Nodup := by
  show rs.Pairwise (fun a b => a ≠ b)
  rw [List.pairwise_iff_getElem] at hdisj ⊢
  intro a c ha hc hac
  have h1 := hwf rs[a] (List.getElem_mem ha)
  have h2 := hwf rs[c] (List.getElem_mem hc)
  have h3 := hdisj a c ha hc hac
  intro heq
  rcases h3 with h3 | h3 <;> rw [heq] at h3 <;> omega

theorem mem_set_of_ne (rs : List Range) (i : Nat) (v : Range) (j : Nat)
    (hj : j < rs.length) (hne : j ≠ i) : rs[j] ∈ rs.set i v := by
  rw [List.mem_iff_getElem]
  refine ⟨j, by rw [List.length_set]; exact hj, ?_⟩
  rw [List.getElem_set, if_neg (fun h => hne h.symm)]

/-- The invariant maintained while the pass-entry state `st0`'s first `k`
ranges are segregated one by one (`foreach(Ranges.begin(), End, ...)`);
`i` counts the ranges already processed.  The read slot (`Cnt % 2`) is
untouched; the write slot (`(Cnt+1) % 2`) already encodes the refined
partition that the `Copy` step will promote. -/
structure SweepInv (env : Env) (st0 : IcfState) (k i : Nat) (st : IcfState) : Prop where
  secPerm : st.sections.Perm st0.sections
  cntEq : st.cnt = st0.cnt
  rlen : k ≤ st.ranges.length
  rangesWf : ∀ r ∈ st.ranges, r.bgn < r.fin ∧ r.fin ≤ st.sections.length
  disj : st.ranges.Pairwise (fun r r' => r.fin ≤ r'.bgn ∨ r'.fin ≤ r.bgn)
  untouched : ∀ j, i ≤ j → j < k → st.ranges.getD j ⟨0, 0⟩ = st0.ranges.getD j ⟨0, 0⟩
  readFrame : ∀ c t, c % 2 = st0.cnt % 2 → slotGet st.gid c t = slotGet st0.gid c t
  outZero : ∀ s, s ∉ st.sections → st.gid s = (0, 0)
  writeClass : ∀ x ∈ st.sections, ∀ y ∈ st.sections,
    (slotGet st.gid (st0.cnt + 1) x = slotGet st.gid (st0.cnt + 1) y ↔ sameClassIn st x y)
  writeNz : ∀ x ∈ st.sections, slotGet st.gid (st0.cnt + 1) x ≠ 0
  idKinds : ∀ c t, slotGet st.gid c t = 0 ∨
    (2 ^ 31 ≤ slotGet st.gid c t ∧ slotGet st.gid c t < 2 ^ 32) ∨
    (1 ≤ slotGet st.gid c t ∧ slotGet st.gid c t < st.nextId)
  nextIdPos : 1 ≤ st.nextId
  nextIdEq : st.nextId + k = st0.nextId + st.ranges.length
  withinOld : ∀ r ∈ st.ranges, ∃ r0 ∈ st0.ranges,
    ∀ t ∈ slice st.sections r.bgn r.fin, t ∈ slice st0.sections r0.bgn r0.fin
  gidOld : ∀ s, (∀ nr ∈ st.ranges.drop k, s ∉ slice st.sections nr.bgn nr.fin) →
    st.gid s = st0.gid s
  alignSorted : ∀ r ∈ st.ranges, (slice st.sections r.bgn r.fin).Pairwise
    (fun x y => (secOf env y).alignment ≤ (secOf env x).alignment)

theorem mem_set_iff (rs : List Range) (i : Nat) (hi : i < rs.length) (v a : Range) :
    a ∈ rs.set i v ↔
      (a = v ∨ ∃ j, ∃ (hj : j < rs.length), j ≠ i ∧ rs[j] = a) := by
  constructor
  · intro h
    obtain ⟨j, hj, hja⟩ := List.mem_iff_getElem.mp h
    rw [List.length_set] at hj
    rw [List.getElem_set] at hja
    by_cases hij : i = j
    · rw [if_pos hij] at hja
      exact Or.inl hja.symm
    · rw [if_neg hij] at hja
      exact Or.inr ⟨j, hj, fun h' => hij h'.symm, hja⟩
  · rintro (rfl | ⟨j, hj, hne, rfl⟩)
    · exact List.mem_set rs i hi a
    · exact mem_set_of_ne rs i v j hj hne

theorem sameClassIn_symm (st : IcfState) (x y : Nat) (h : sameClassIn st x y) :
    sameClassIn st y x := by
  rcases h with rfl | ⟨rr, h1, h2, h3⟩
  · exact Or.inl rfl
  · exact Or.inr ⟨rr, h1, h3, h2⟩

/-- One `segregate` call preserves the sweep invariant. -/
theorem sweepStep_inv (env : Env) (p : Pred) (st0 : IcfState) (k i : Nat)
    (st : IcfState) (hn31 : st0.sections.length < 2 ^ 31)
    (hnd0 : st0.sections.Nodup) (h0 : st0.nextId ≤ k + 1)
    (hiv : SweepInv env st0 k i st) (hik : i < k) :
    SweepInv env st0 k (i + 1) (sweepStep p (st0.cnt + 1) st i) := by
  have hilen : i < st.ranges.length := Nat.lt_of_lt_of_le hik hiv.rlen
  have hrlen0 := hiv.rlen
  have hnidEq0 := hiv.nextIdEq
  have hnidPos0 := hiv.nextIdPos
  set w := st0.cnt + 1 with hw
  set r := st.ranges.getD i ⟨0, 0⟩ with hr
  have hri : st.ranges[i] = r := by
    rw [hr, List.getD_eq_getElem _ _ hilen]
  have hrmem : r ∈ st.ranges := by
    rw [← hri]
    exact List.getElem_mem hilen
  obtain ⟨hbe, hfinle⟩ := hiv.rangesWf r hrmem
  have hlen0 : st.sections.length = st0.sections.length := hiv.secPerm.length_eq
  have hndsec : st.sections.Nodup := hiv.secPerm.nodup_iff.mpr hnd0
  have hndsl : (slice st.sections r.bgn r.fin).Nodup :=
    (slice_sublist _ _ _).nodup hndsec
  have F := segGo_facts p w (r.fin - r.bgn) st.sections st.gid st.nextId
    r.bgn r.fin (Nat.le_refl _) hbe hfinle hndsl
  set out := segGo p w st.sections st.gid st.nextId r.bgn r.fin with hout_def
  have hstep : sweepStep p w st i =
      ⟨out.sections, out.gid, (st.ranges.set i ⟨r.bgn, out.keptEnd⟩) ++ out.news,
        out.nextId, st.cnt⟩ := rfl
  rw [hstep]
  set rs' := (st.ranges.set i ⟨r.bgn, out.keptEnd⟩) ++ out.news with hrs'
  set stq : IcfState := ⟨out.sections, out.gid, rs', out.nextId, st.cnt⟩ with hstq
  show SweepInv env st0 k (i + 1) stq
  have houtperm : out.sections.Perm st.sections :=
    perm_of_outside_slice st.sections out.sections r.bgn r.fin F.len (by omega)
      hfinle (fun q hq => F.outside q hq) F.permSlice
  have houtlen : out.sections.length = st.sections.length := F.len
  have hndout : out.sections.Nodup := houtperm.nodup_iff.mpr hndsec
  have hkeptle : out.keptEnd ≤ r.fin := F.keptHi
  have hkeptlo : r.bgn < out.keptEnd := F.keptLo
  have hnews_mem : ∀ nr ∈ out.news, out.keptEnd ≤ nr.bgn ∧ nr.bgn < nr.fin ∧ nr.fin ≤ r.fin :=
    coversFrom_mem _ _ _ F.chain
  have hnewsget : ∀ m, (hm : m < out.news.length) → out.news.get ⟨m, hm⟩ ∈ out.news :=
    fun m hm => List.get_mem _ _ hm
  have hrs'len : rs'.length = st.ranges.length + out.news.length := by
    rw [hrs', List.length_append, List.length_set]
  have hdisjpos : ∀ j, (hj : j < st.ranges.length) → j ≠ i →
      ((st.ranges[j]).fin ≤ r.bgn ∨ r.fin ≤ (st.ranges[j]).bgn) := by
    intro j hj hne
    have hd := List.pairwise_iff_getElem.mp hiv.disj
    rcases Nat.lt_or_ge j i with hlt | hge
    · have h := hd j i hj hilen hlt
      rw [hri] at h
      exact h
    · have hji : i < j := by omega
      have h := hd i j hilen hj hji
      rw [hri] at h
      tauto
  have hotherslice : ∀ j, (hj : j < st.ranges.length) → j ≠ i →
      slice out.sections (st.ranges[j]).bgn (st.ranges[j]).fin
        = slice st.sections (st.ranges[j]).bgn (st.ranges[j]).fin := by
    intro j hj hne
    apply slice_eq_of_getD _ _ _ _ houtlen
    intro q hq1 hq2
    apply F.outside
    rcases hdisjpos j hj hne with h | h <;> omega
  have hrndv : st.ranges.Nodup :=
    ranges_nodup st.ranges (fun r' h => (hiv.rangesWf r' h).1) hiv.disj
  have hvalpos : ∀ z ∈ st.ranges, z ≠ r →
      ∃ j, ∃ (hj : j < st.ranges.length), j ≠ i ∧ st.ranges[j] = z := by
    intro z hz hne
    obtain ⟨j, hj, hzj⟩ := List.mem_iff_getElem.mp hz
    refine ⟨j, hj, ?_, hzj⟩
    intro hji
    subst hji
    rw [hri] at hzj
    exact hne hzj.symm
  have hzslice : ∀ z ∈ st.ranges, z ≠ r →
      slice out.sections z.bgn z.fin = slice st.sections z.bgn z.fin := by
    intro z hz hne
    obtain ⟨j, hj, hjne, hjz⟩ := hvalpos z hz hne
    have h := hotherslice j hj hjne
    rw [hjz] at h
    exact h
  have hzdisj : ∀ z ∈ st.ranges, z ≠ r → (z.fin ≤ r.bgn ∨ r.fin ≤ z.bgn) := by
    intro z hz hne
    obtain ⟨j, hj, hjne, hjz⟩ := hvalpos z hz hne
    have h := hdisjpos j hj hjne
    rw [hjz] at h
    exact h
  have htile : ∀ t ∈ slice out.sections r.bgn r.fin,
      t ∈ slice out.sections r.bgn out.keptEnd ∨
      ∃ m, ∃ (hm : m < out.news.length),
        t ∈ slice out.sections (out.news.get ⟨m, hm⟩).bgn (out.news.get ⟨m, hm⟩).fin := by
    intro t ht
    rw [slice_split out.sections r.bgn out.keptEnd r.fin (by omega) hkeptle] at ht
    rcases List.mem_append.mp ht with ht | ht
    · exact Or.inl ht
    · obtain ⟨m, hm, htm⟩ := chain_tiling out.sections out.news r.fin out.keptEnd F.chain t ht
      exact Or.inr ⟨m, hm, htm⟩
  have hnewslen : ∀ m, (hm : m < out.news.length) →
      (out.news.get ⟨m, hm⟩).fin ≤ out.sections.length := by
    intro m hm
    have h := hnews_mem _ (hnewsget m hm)
    omega
  have hexcl_kept_news : ∀ t, t ∈ slice out.sections r.bgn out.keptEnd →
      ∀ m, (hm : m < out.news.length) →
      t ∉ slice out.sections (out.news.get ⟨m, hm⟩).bgn (out.news.get ⟨m, hm⟩).fin := by
    intro t ht m hm htm
    have h1 := hnews_mem _ (hnewsget m hm)
    exact slice_disjoint_value out.sections hndout r.bgn out.keptEnd _ _
      (Or.inl h1.1) (by omega) (hnewslen m hm) t ht htm
  have hexcl_news_news : ∀ t m m', (hm : m < out.news.length) →
      (hm' : m' < out.news.length) →
      t ∈ slice out.sections (out.news.get ⟨m, hm⟩).bgn (out.news.get ⟨m, hm⟩).fin →
      t ∈ slice out.sections (out.news.get ⟨m', hm'⟩).bgn (out.news.get ⟨m', hm'⟩).fin →
      m = m' := by
    intro t m m' hm hm' h1 h2
    by_contra hne
    have hord := List.pairwise_iff_getElem.mp
      (coversFrom_ordered out.news r.fin out.keptEnd F.chain)
    rcases Nat.lt_or_ge m m' with hlt | hge
    · exact slice_disjoint_value out.sections hndout _ _ _ _
        (Or.inl (hord m m' hm hm' hlt)) (hnewslen m hm) (hnewslen m' hm') t h1 h2
    · have hlt : m' < m := by omega
      exact slice_disjoint_value out.sections hndout _ _ _ _
        (Or.inr (hord m' m hm' hm hlt)) (hnewslen m hm) (hnewslen m' hm') t h1 h2
  have hmem_kept_old : ∀ t, t ∈ slice out.sections r.bgn out.keptEnd →
      t ∈ slice st.sections r.bgn r.fin := by
    intro t ht
    exact F.permSlice.mem_iff.mp
      (slice_mem_mono out.sections r.bgn r.bgn out.keptEnd r.fin t (Nat.le_refl _) hkeptle ht)
  have hmem_news_old : ∀ m, (hm : m < out.news.length) → ∀ t,
      t ∈ slice out.sections (out.news.get ⟨m, hm⟩).bgn (out.news.get ⟨m, hm⟩).fin →
      t ∈ slice st.sections r.bgn r.fin := by
    intro m hm t ht
    have h := hnews_mem _ (hnewsget m hm)
    exact F.permSlice.mem_iff.mp
      (slice_mem_mono out.sections r.bgn _ _ r.fin t (by omega) (by omega) ht)
  -- ranges' facts
  have hrs'wf : ∀ r' ∈ rs', r'.bgn < r'.fin ∧ r'.fin ≤ out.sections.length := by
    intro r' hr'
    rw [hrs'] at hr'
    rcases List.mem_append.mp hr' with h | h
    · rcases (mem_set_iff st.ranges i hilen _ r').mp h with rfl | ⟨j, hj, hne, hjr⟩
      · refine ⟨hkeptlo, ?_⟩
        show out.keptEnd ≤ out.sections.length
        omega
      · have h2 := hiv.rangesWf r' (hjr ▸ List.getElem_mem hj)
        omega
    · have h2 := hnews_mem r' h
      omega
  have hrs'disj : rs'.Pairwise (fun a b => a.fin ≤ b.bgn ∨ b.fin ≤ a.bgn) := by
    rw [hrs', List.pairwise_append]
    refine ⟨?_, ?_, ?_⟩
    · apply pairwise_set_weaken st.ranges i _ hiv.disj hilen
      · intro x hx
        rw [List.get_eq_getElem, hri] at hx
        rcases hx with hx | hx
        · exact Or.inl (by
            show out.keptEnd ≤ x.bgn
            omega)
        · exact Or.inr (by
            show x.fin ≤ r.bgn
            omega)
      · intro x hx
        rw [List.get_eq_getElem, hri] at hx
        rcases hx with hx | hx
        · exact Or.inl (by
            show x.fin ≤ r.bgn
            omega)
        · exact Or.inr (by
            show out.keptEnd ≤ x.bgn
            omega)
    · exact (coversFrom_ordered out.news r.fin out.keptEnd F.chain).imp
        (fun h => Or.inl h)
    · intro a ha nb hb
      have hnb := hnews_mem nb hb
      rcases (mem_set_iff st.ranges i hilen _ a).mp ha with rfl | ⟨j, hj, hne, hja⟩
      · exact Or.inl (by
          show out.keptEnd ≤ nb.bgn
          omega)
      · have hd := hdisjpos j hj hne
        rw [hja] at hd
        rcases hd with hd | hd
        · exact Or.inl (by omega)
        · exact Or.inr (by omega)
  have hrsle : rs'.length ≤ st.sections.length := by
    have h := ranges_count_le rs' out.sections.length hrs'wf hrs'disj
    omega
  have hnextIdEq' : out.nextId = st.nextId + out.news.length := F.nextIdEq
  have hfresh_hi : st.nextId + out.news.length ≤ st.sections.length + 1 := by
    have h1 := hiv.nextIdEq
    omega
  have hfresh31 : st.nextId + out.news.length ≤ 2 ^ 31 := by omega
  -- write-slot value classification of each section
  have hclass : ∀ x ∈ st.sections,
      ((x ∉ slice st.sections r.bgn r.fin ∨ x ∈ slice out.sections r.bgn out.keptEnd) ∧
        out.gid x = st.gid x) ∨
      (∃ m, ∃ (hm : m < out.news.length),
        x ∈ slice out.sections (out.news.get ⟨m, hm⟩).bgn (out.news.get ⟨m, hm⟩).fin ∧
        slotGet out.gid w x = st.nextId + m) := by
    intro x hx
    by_cases hxr : x ∈ slice st.sections r.bgn r.fin
    · have hxout : x ∈ slice out.sections r.bgn r.fin := F.permSlice.mem_iff.mpr hxr
      rcases htile x hxout with h | ⟨m, hm, h⟩
      · exact Or.inl ⟨Or.inr h, F.keptGid x h⟩
      · exact Or.inr ⟨m, hm, h, F.newsIds m hm x h⟩
    · exact Or.inl ⟨Or.inl hxr, F.gidFrame x hxr⟩
  -- "x is old" means: in no pushed range
  have hnotnews_of_off : ∀ x, x ∉ slice st.sections r.bgn r.fin →
      ∀ m, (hm : m < out.news.length) →
      x ∉ slice out.sections (out.news.get ⟨m, hm⟩).bgn (out.news.get ⟨m, hm⟩).fin := by
    intro x hxr m hm hxm
    exact hxr (hmem_news_old m hm x hxm)
  -- class equivalence for sections not in any pushed range
  have hsame_old : ∀ x y : Nat,
      (∀ m, (hm : m < out.news.length) →
        x ∉ slice out.sections (out.news.get ⟨m, hm⟩).bgn (out.news.get ⟨m, hm⟩).fin) →
      (∀ m, (hm : m < out.news.length) →
        y ∉ slice out.sections (out.news.get ⟨m, hm⟩).bgn (out.news.get ⟨m, hm⟩).fin) →
      (sameClassIn stq x y ↔ sameClassIn st x y) := by
    intro x y hxn hyn
    constructor
    · rintro (rfl | ⟨rr, hrr, hxs, hys⟩)
      · exact Or.inl rfl
      · have hrr' : rr ∈ rs' := hrr
        rw [hrs'] at hrr'
        rcases List.mem_append.mp hrr' with h | h
        · rcases (mem_set_iff st.ranges i hilen _ rr).mp h with rfl | ⟨j, hj, hne, hjr⟩
          · refine Or.inr ⟨r, hrmem, hmem_kept_old x hxs, hmem_kept_old y hys⟩
          · have hsl := hotherslice j hj hne
            rw [hjr] at hsl
            refine Or.inr ⟨rr, hjr ▸ List.get_mem _ _ hj, ?_, ?_⟩
            · rw [← hsl]; exact hxs
            · rw [← hsl]; exact hys
        · obtain ⟨m, hm, hmr⟩ := List.mem_iff_getElem.mp h
          exact absurd (by rw [← hmr] at hxs; exact hxs) (hxn m hm)
    · rintro (rfl | ⟨z, hz, hxs, hys⟩)
      · exact Or.inl rfl
      · by_cases hzr : z = r
        · subst hzr
          have hxout : x ∈ slice out.sections r.bgn r.fin := F.permSlice.mem_iff.mpr hxs
          have hyout : y ∈ slice out.sections r.bgn r.fin := F.permSlice.mem_iff.mpr hys
          rcases htile x hxout with hxk | ⟨m, hm, hxm⟩
          · rcases htile y hyout with hyk | ⟨m, hm, hym⟩
            · refine Or.inr ⟨⟨r.bgn, out.keptEnd⟩, ?_, hxk, hyk⟩
              show _ ∈ rs'
              rw [hrs']
              exact List.mem_append_left _ (List.mem_set st.ranges i hilen _)
            · exact absurd hym (hyn m hm)
          · exact absurd hxm (hxn m hm)
        · have hsl := hzslice z hz hzr
          refine Or.inr ⟨z, ?_, by rw [hsl]; exact hxs, by rw [hsl]; exact hys⟩
          show z ∈ rs'
          rw [hrs']
          refine List.mem_append_left _ ?_
          obtain ⟨j, hj, hjne, hjz⟩ := hvalpos z hz hzr
          rw [← hjz]
          exact mem_set_of_ne st.ranges i _ j hj hjne
  -- class equivalence for members of a pushed range
  have hsame_news : ∀ x m, (hm : m < out.news.length) →
      x ∈ slice out.sections (out.news.get ⟨m, hm⟩).bgn (out.news.get ⟨m, hm⟩).fin →
      ∀ y, (sameClassIn stq x y ↔
        y ∈ slice out.sections (out.news.get ⟨m, hm⟩).bgn (out.news.get ⟨m, hm⟩).fin) := by
    intro x m hm hxm y
    constructor
    · rintro (rfl | ⟨rr, hrr, hxs, hys⟩)
      · exact hxm
      · have hrr' : rr ∈ rs' := hrr
        rw [hrs'] at hrr'
        rcases List.mem_append.mp hrr' with h | h
        · rcases (mem_set_iff st.ranges i hilen _ rr).mp h with rfl | ⟨j, hj, hne, hjr⟩
          · exact absurd hxm (hexcl_kept_news x hxs m hm)
          · have hd := hdisjpos j hj hne
            rw [hjr] at hd
            have hsl := hotherslice j hj hne
            rw [hjr] at hsl
            have hnm := hnews_mem _ (hnewsget m hm)
            have hwf := hiv.rangesWf rr (hjr ▸ List.getElem_mem hj)
            exfalso
            exact slice_disjoint_value out.sections hndout rr.bgn rr.fin
              (out.news.get ⟨m, hm⟩).bgn (out.news.get ⟨m, hm⟩).fin
              (by rcases hd with hd | hd
                  · exact Or.inl (by omega)
                  · exact Or.inr (by omega))
              (by omega) (hnewslen m hm) x hxs hxm
        · obtain ⟨m', hm', hmr⟩ := List.mem_iff_getElem.mp h
          have hxs' : x ∈ slice out.sections (out.news.get ⟨m', hm'⟩).bgn
              (out.news.get ⟨m', hm'⟩).fin := by
            rw [← hmr] at hxs
            exact hxs
          have hys' : y ∈ slice out.sections (out.news.get ⟨m', hm'⟩).bgn
              (out.news.get ⟨m', hm'⟩).fin := by
            rw [← hmr] at hys
            exact hys
          have := hexcl_news_news x m' m hm' hm hxs' hxm
          subst this
          exact hys'
    · intro hym
      refine Or.inr ⟨out.news.get ⟨m, hm⟩, ?_, hxm, hym⟩
      show _ ∈ rs'
      rw [hrs']
      exact List.mem_append_right _ (hnewsget m hm)
  -- fresh ids differ from surviving write-slot values
  have hfresh_ne : ∀ y ∈ st.sections, ∀ m, m < out.news.length →
      slotGet st.gid w y ≠ st.nextId + m := by
    intro y hy m hm heq
    have h1 := hiv.writeNz y hy
    have h2 := hiv.idKinds w y
    rcases h2 with h2 | h2 | h2
    · exact h1 h2
    · omega
    · omega
  refine {
    secPerm := houtperm.trans hiv.secPerm
    cntEq := hiv.cntEq
    rlen := by
      show k ≤ rs'.length
      rw [hrs'len]
      omega
    rangesWf := hrs'wf
    disj := hrs'disj
    untouched := ?_
    readFrame := ?_
    outZero := ?_
    writeClass := ?_
    writeNz := ?_
    idKinds := ?_
    nextIdPos := by
      show 1 ≤ out.nextId
      rw [hnextIdEq']
      have := hiv.nextIdPos
      omega
    nextIdEq := by
      show out.nextId + k = st0.nextId + rs'.length
      rw [hrs'len, hnextIdEq']
      have := hiv.nextIdEq
      omega
    withinOld := ?_
    gidOld := ?_
    alignSorted := ?_ }
  · -- untouched
    intro j hj1 hj2
    have hjlen : j < st.ranges.length := by
      have := hiv.rlen
      omega
    show rs'.getD j ⟨0, 0⟩ = st0.ranges.getD j ⟨0, 0⟩
    rw [hrs', List.getD_append _ _ _ _ (by rw [List.length_set]; exact hjlen)]
    rw [List.getD_eq_getElem?_getD, List.getElem?_set_ne (by omega),
      ← List.getD_eq_getElem?_getD]
    exact hiv.untouched j (by omega) hj2
  · -- readFrame
    intro c t hc
    show slotGet out.gid c t = slotGet st0.gid c t
    rw [F.gidRead c t (by omega)]
    exact hiv.readFrame c t hc
  · -- outZero
    intro s hs
    have hs' : s ∉ st.sections := fun h => hs (houtperm.mem_iff.mpr h)
    show out.gid s = (0, 0)
    rw [F.gidFrame s (fun h => hs' (mem_of_mem_slice h))]
    exact hiv.outZero s hs'
  · -- writeClass
    intro x hx' y hy'
    have hx : x ∈ st.sections := houtperm.mem_iff.mp hx'
    have hy : y ∈ st.sections := houtperm.mem_iff.mp hy'
    show slotGet out.gid w x = slotGet out.gid w y ↔ sameClassIn stq x y
    rcases hclass x hx with ⟨hxold, hxg⟩ | ⟨m, hm, hxm, hxv⟩
    · have hxnonews : ∀ m, (hm : m < out.news.length) →
          x ∉ slice out.sections (out.news.get ⟨m, hm⟩).bgn (out.news.get ⟨m, hm⟩).fin := by
        rcases hxold with h | h
        · exact hnotnews_of_off x h
        · exact fun m hm => hexcl_kept_news x h m hm
      rcases hclass y hy with ⟨hyold, hyg⟩ | ⟨m', hm', hym, hyv⟩
      · have hynonews : ∀ m, (hm : m < out.news.length) →
            y ∉ slice out.sections (out.news.get ⟨m, hm⟩).bgn (out.news.get ⟨m, hm⟩).fin := by
          rcases hyold with h | h
          · exact hnotnews_of_off y h
          · exact fun m hm => hexcl_kept_news y h m hm
        rw [slotGet_congr x hxg w, slotGet_congr y hyg w,
          hsame_old x y hxnonews hynonews]
        exact hiv.writeClass x hx y hy
      · -- x old, y fresh
        rw [slotGet_congr x hxg w, hyv]
        constructor
        · intro h
          exact absurd h (hfresh_ne x hx m' hm')
        · intro h
          have := (hsame_news y m' hm' hym x).mp (sameClassIn_symm _ _ _ h)
          exact absurd this (hxnonews m' hm')
    · rcases hclass y hy with ⟨hyold, hyg⟩ | ⟨m', hm', hym, hyv⟩
      · have hynonews : ∀ mq, (hmq : mq < out.news.length) →
            y ∉ slice out.sections (out.news.get ⟨mq, hmq⟩).bgn (out.news.get ⟨mq, hmq⟩).fin := by
          rcases hyold with h | h
          · exact hnotnews_of_off y h
          · exact fun mq hmq => hexcl_kept_news y h mq hmq
        rw [slotGet_congr y hyg w, hxv]
        constructor
        · intro h
          exact absurd h.symm (hfresh_ne y hy m hm)
        · intro h
          have := (hsame_news x m hm hxm y).mp h
          exact absurd this (hynonews m hm)
      · -- both fresh
        rw [hxv, hyv, hsame_news x m hm hxm y]
        constructor
        · intro h
          have hmm : m = m' := by omega
          subst hmm
          exact hym
        · intro h
          have := hexcl_news_news y m m' hm hm' h hym
          omega
  · -- writeNz
    intro x hx'
    have hx : x ∈ st.sections := houtperm.mem_iff.mp hx'
    show slotGet out.gid w x ≠ 0
    rcases hclass x hx with ⟨_, hxg⟩ | ⟨m, hm, _, hxv⟩
    · rw [slotGet_congr x hxg w]
      exact hiv.writeNz x hx
    · rw [hxv]
      have := hiv.nextIdPos
      omega
  · -- idKinds
    intro c t
    show slotGet out.gid c t = 0 ∨
      (2 ^ 31 ≤ slotGet out.gid c t ∧ slotGet out.gid c t < 2 ^ 32) ∨
      (1 ≤ slotGet out.gid c t ∧ slotGet out.gid c t < out.nextId)
    by_cases hc : c % 2 = st0.cnt % 2
    · rw [F.gidRead c t (by omega)]
      rcases hiv.idKinds c t with h | h | h
      · exact Or.inl h
      · exact Or.inr (Or.inl h)
      · exact Or.inr (Or.inr ⟨h.1, by omega⟩)
    · have hcw : c % 2 = w % 2 := by omega
      rw [slotGet_parity out.gid c w t hcw]
      by_cases htr : t ∈ slice st.sections r.bgn r.fin
      · have htout : t ∈ slice out.sections r.bgn r.fin := F.permSlice.mem_iff.mpr htr
        rcases htile t htout with h | ⟨m, hm, h⟩
        · rw [slotGet_congr t (F.keptGid t h) w]
          rcases hiv.idKinds w t with h2 | h2 | h2
          · exact Or.inl h2
          · exact Or.inr (Or.inl h2)
          · exact Or.inr (Or.inr ⟨h2.1, by omega⟩)
        · rw [F.newsIds m hm t h]
          refine Or.inr (Or.inr ⟨by have := hiv.nextIdPos; omega, by omega⟩)
      · rw [slotGet_congr t (F.gidFrame t htr) w]
        rcases hiv.idKinds w t with h2 | h2 | h2
        · exact Or.inl h2
        · exact Or.inr (Or.inl h2)
        · exact Or.inr (Or.inr ⟨h2.1, by omega⟩)
  · -- withinOld
    show ∀ r' ∈ rs', ∃ r0 ∈ st0.ranges,
      ∀ t ∈ slice out.sections r'.bgn r'.fin, t ∈ slice st0.sections r0.bgn r0.fin
    intro r' hr'
    have hr'' : r' ∈ rs' := hr'
    rw [hrs'] at hr''
    rcases List.mem_append.mp hr'' with h | h
    · rcases (mem_set_iff st.ranges i hilen _ r').mp h with rfl | ⟨j, hj, hne, hjr⟩
      · obtain ⟨r0, hr0, hsub⟩ := hiv.withinOld r hrmem
        exact ⟨r0, hr0, fun t ht => hsub t (hmem_kept_old t ht)⟩
      · have hsl := hotherslice j hj hne
        rw [hjr] at hsl
        obtain ⟨r0, hr0, hsub⟩ := hiv.withinOld r' (hjr ▸ List.getElem_mem hj)
        refine ⟨r0, hr0, fun t ht => hsub t ?_⟩
        rw [← hsl]
        exact ht
    · obtain ⟨m, hm, hmr⟩ := List.mem_iff_getElem.mp h
      obtain ⟨r0, hr0, hsub⟩ := hiv.withinOld r hrmem
      refine ⟨r0, hr0, fun t ht => hsub t (hmem_news_old m hm t ?_)⟩
      rw [← hmr] at ht
      exact ht
  · -- gidOld
    intro s hs
    show out.gid s = st0.gid s
    have hsetdrop : (st.ranges.set i ⟨r.bgn, out.keptEnd⟩).drop k = st.ranges.drop k := by
      apply List.ext_getElem?
      intro m
      rw [List.getElem?_drop, List.getElem?_drop, List.getElem?_set_ne (by omega)]
    have hdropeq : rs'.drop k = st.ranges.drop k ++ out.news := by
      rw [hrs', List.drop_append_eq_append_drop, hsetdrop]
      have hz : k - (st.ranges.set i ⟨r.bgn, out.keptEnd⟩).length = 0 := by
        rw [List.length_set]
        omega
      rw [hz, List.drop_zero]
    have hs' : ∀ nr ∈ st.ranges.drop k ++ out.news,
        s ∉ slice out.sections nr.bgn nr.fin := by
      intro nr hnr
      apply hs
      show nr ∈ rs'.drop k
      rw [hdropeq]
      exact hnr
    have hsnews : ∀ m, (hm : m < out.news.length) →
        s ∉ slice out.sections (out.news.get ⟨m, hm⟩).bgn (out.news.get ⟨m, hm⟩).fin := by
      intro m hm
      exact hs' _ (List.mem_append_right _ (hnewsget m hm))
    have holdnews : ∀ nr ∈ st.ranges.drop k, s ∉ slice st.sections nr.bgn nr.fin := by
      intro nr hnr hmem
      by_cases hnrr : nr = r
      · subst hnrr
        obtain ⟨j0, hj0, hj0r⟩ := List.mem_iff_getElem.mp hnr
        rw [List.getElem_drop] at hj0r
        have hkj : k + j0 < st.ranges.length := by
          have := List.length_drop k st.ranges
          omega
        have hgj : st.ranges.get ⟨k + j0, hkj⟩ = st.ranges.get ⟨i, hilen⟩ := by
          rw [List.get_eq_getElem, List.get_eq_getElem, hj0r, hri]
        have hfin : (⟨k + j0, hkj⟩ : Fin st.ranges.length) = ⟨i, hilen⟩ :=
          (List.Nodup.get_inj_iff hrndv).mp hgj
        have := Fin.val_eq_of_eq hfin
        simp only [] at this
        omega
      · have hsl := hzslice nr (List.mem_of_mem_drop hnr) hnrr
        apply hs' nr (List.mem_append_left _ hnr)
        rw [hsl]
        exact hmem
    by_cases hsr : s ∈ slice st.sections r.bgn r.fin
    · have hsout : s ∈ slice out.sections r.bgn r.fin := F.permSlice.mem_iff.mpr hsr
      rcases htile s hsout with hsk | ⟨m, hm, hsm⟩
      · rw [F.keptGid s hsk]
        exact hiv.gidOld s holdnews
      · exact absurd hsm (hsnews m hm)
    · rw [F.gidFrame s hsr]
      exact hiv.gidOld s holdnews
  · -- alignSorted
    have hPW := segGo_pieces_pairwise p w
      (fun x y => (secOf env y).alignment ≤ (secOf env x).alignment)
      (r.fin - r.bgn) st.sections st.gid st.nextId r.bgn r.fin (Nat.le_refl _)
      hbe hfinle hndsl (hiv.alignSorted r hrmem)
    rw [← hout_def] at hPW
    show ∀ r' ∈ rs', (slice out.sections r'.bgn r'.fin).Pairwise
      (fun x y => (secOf env y).alignment ≤ (secOf env x).alignment)
    intro r' hr'
    have hr'' : r' ∈ rs' := hr'
    rw [hrs'] at hr''
    rcases List.mem_append.mp hr'' with h | h
    · rcases (mem_set_iff st.ranges i hilen _ r').mp h with rfl | ⟨j, hj, hne, hjr⟩
      · exact hPW.1
      · have hsl := hotherslice j hj hne
        rw [hjr] at hsl
        show (slice out.sections r'.bgn r'.fin).Pairwise _
        rw [hsl]
        exact hiv.alignSorted r' (hjr ▸ List.getElem_mem hj)
    · obtain ⟨m, hm, hmr⟩ := List.mem_iff_getElem.mp h
      have hget : out.news.get ⟨m, hm⟩ = r' := by
        rw [List.get_eq_getElem]
        exact hmr
      have hthis := hPW.2 m hm
      rw [hget] at hthis
      exact hthis

/-- The state invariant between passes of `ICF::run`: the `Sections` vector is
a permutation of the collected eligible sections; ranges are well-formed,
pairwise disjoint intervals; the two group-id slots agree; the (current-slot)
group id of two collected sections is equal exactly when they are in the same
class; untouched sections still hold `(0, 0)`; ids are zero, hash ids (high
bit set) or serials below `NextId`; `NextId` is bounded by the range count;
and every range is sorted by alignment descending. -/
structure Inv (env : Env) (st : IcfState) : Prop where
  perm : st.sections.Perm (eligList env)
  rangesWf : ∀ r ∈ st.ranges, r.bgn < r.fin ∧ r.fin ≤ st.sections.length
  disj : st.ranges.Pairwise (fun r r' => r.fin ≤ r'.bgn ∨ r'.fin ≤ r.bgn)
  synced : ∀ s, (st.gid s).1 = (st.gid s).2
  classIff : ∀ x ∈ st.sections, ∀ y ∈ st.sections,
    (slotGet st.gid st.cnt x = slotGet st.gid st.cnt y ↔ sameClassIn st x y)
  nzero : ∀ x ∈ st.sections, slotGet st.gid st.cnt x ≠ 0
  outZero : ∀ s, s ∉ st.sections → st.gid s = (0, 0)
  idKinds : ∀ c t, slotGet st.gid c t = 0 ∨
    (2 ^ 31 ≤ slotGet st.gid c t ∧ slotGet st.gid c t < 2 ^ 32) ∨
    (1 ≤ slotGet st.gid c t ∧ slotGet st.gid c t < st.nextId)
  nextIdPos : 1 ≤ st.nextId
  nextIdBound : st.nextId ≤ st.ranges.length + 1
  alignSorted : ∀ r ∈ st.ranges, (slice st.sections r.bgn r.fin).Pairwise
    (fun x y => (secOf env y).alignment ≤ (secOf env x).alignment)

theorem slotGet_of_synced {g : GidMap} (h : ∀ s, (g s).1 = (g s).2)
    (c c' t : Nat) : slotGet g c t = slotGet g c' t := by
  unfold slotGet
  rcases Nat.mod_two_eq_zero_or_one c with hc | hc <;>
    rcases Nat.mod_two_eq_zero_or_one c' with hc' | hc' <;>
    simp [hc, hc', h t]

/-- Piecewise pivot equality: for a predicate that only reads the unwritten
slot, every piece `segregate` leaves behind consists of its own pivot (the
section at the piece's begin index) plus sections equal to that pivot under
the predicate, evaluated at the entry group-id store. -/
theorem segGo_pieces_pred (p : Pred) (w : Nat) (hst : PredStable p w) (n : Nat) :
    ∀ (sections : List Nat) (g : GidMap) (nid b e : Nat),
      e - b ≤ n → b < e → e ≤ sections.length → (slice sections b e).Nodup →
      ((∀ x ∈ slice (segGo p w sections g nid b e).sections b
          (segGo p w sections g nid b e).keptEnd,
          x = sections.getD b 0 ∨ p g (sections.getD b 0) x = true) ∧
        ∀ m, (hm : m < (segGo p w sections g nid b e).news.length) →
          ∀ x ∈ slice (segGo p w sections g nid b e).sections
            ((segGo p w sections g nid b e).news.get ⟨m, hm⟩).bgn
            ((segGo p w sections g nid b e).news.get ⟨m, hm⟩).fin,
            x = (segGo p w sections g nid b e).sections.getD
              ((segGo p w sections g nid b e).news.get ⟨m, hm⟩).bgn 0 ∨
              p g ((segGo p w sections g nid b e).sections.getD
                ((segGo p w sections g nid b e).news.get ⟨m, hm⟩).bgn 0) x = true) := by
  induction n with
  | zero => intro sections g nid b e hn hbe; omega
  | succ n ih =>
    intro sections g nid b e hn hbe hlen hnd
    by_cases h1 : e ≤ b + 1
    · rw [segGo_eq_base p w sections g nid b e h1]
      refine ⟨fun x hx => ?_, fun m hm => absurd hm (by simp)⟩
      have he : e = b + 1 := by omega
      subst he
      rw [slice_eq_cons sections b (b + 1) hbe hlen] at hx
      rcases List.mem_cons.mp hx with rfl | hx
      · exact Or.inl rfl
      · rw [slice, Nat.sub_self] at hx
        simp at hx
    · have hbe1 : b + 1 < e := by omega
      have hcons : slice sections b e = sections.getD b 0 :: slice sections (b + 1) e :=
        slice_eq_cons sections b e hbe hlen
      by_cases h2 : segMid p g sections b e = e
      · have hns := segGo_nosplit p w sections g nid b e hbe hlen (by
          rw [segGo_eq_nosplit p w sections g nid b e h1 h2])
        rw [hns.1]
        refine ⟨fun x hx => ?_, fun m hm => absurd hm (by simp)⟩
        rw [hcons] at hx
        rcases List.mem_cons.mp hx with rfl | hx
        · exact Or.inl rfl
        · exact Or.inr (hns.2 x hx)
      · rw [segGo_eq_split p w sections g nid b e h1 h2]
        simp only []
        set mid := segMid p g sections b e with hmid
        set sections' := segPart p g sections b e with hsec'
        set g' := writeIds g w (slice sections' mid e) nid with hg'
        have hmidle : mid ≤ e := segMid_le p g sections b e hbe hlen
        have hmidlo : b + 1 ≤ mid := by
          simp only [hmid, segMid]
          omega
        have hmidlt : mid < e := by omega
        have hpartlen := length_segPart p g sections b e hbe hlen
        rw [← hsec'] at hpartlen
        have hsliceneqs : slice sections' mid e = segNeqs p g sections b e :=
          segPart_slice_neqs p g sections b e hbe hlen
        have hndneqs : (slice sections' mid e).Nodup := by
          rw [hsliceneqs]
          exact ((List.filter_sublist _).nodup
            ((hcons ▸ hnd).sublist (List.sublist_cons_self _ _)))
        have hout := ih sections' g' (nid + 1) mid e (by omega) hmidlt (by omega) hndneqs
        set out := segGo p w sections' g' (nid + 1) mid e with hout_def
        have houtfacts := segGo_facts p w n sections' g' (nid + 1) mid e (by omega)
          hmidlt (by omega) hndneqs
        rw [← hout_def] at houtfacts
        have houtslice_bmid : slice out.sections b mid = slice sections' b mid := by
          apply slice_eq_of_getD _ _ b mid (by rw [houtfacts.len])
          intro q hq1 hq2
          exact houtfacts.outside q (Or.inl hq2)
        have hsec'_bmid : slice sections' b mid =
            sections.getD b 0 :: segEqs p g sections b e := by
          rw [hsec', hmid]
          rw [slice_eq_cons _ b (segMid p g sections b e) (by omega) (by
            rw [length_segPart p g sections b e hbe hlen]
            omega)]
          rw [segPart_slice_eqs p g sections b e hbe hlen,
            segPart_getD_before p g sections b e b (by omega) (by omega)]
        -- the one-layer write conversion for the predicate
        have hpconv : ∀ a x, p g' a x = p g a x := by
          intro a x
          refine hst g' g (fun c t hc => ?_) a x
          rw [hg']
          exact slotGet_writeIds_other_slot g w c _ nid t (Ne.symm hc)
        refine ⟨?_, ?_⟩
        · -- kept piece [b, mid) = pivot :: eqs
          intro x hx
          rw [houtslice_bmid, hsec'_bmid] at hx
          rcases List.mem_cons.mp hx with rfl | hx
          · exact Or.inl rfl
          · exact Or.inr (List.of_mem_filter hx)
        · intro m hm x hx
          cases m with
          | zero =>
            simp only [List.get] at hx ⊢
            have hpiv : out.sections.getD mid 0 = sections'.getD mid 0 :=
              houtfacts.pivotFixed
            rcases hout.1 x hx with h | h
            · exact Or.inl (by rw [hpiv]; exact h)
            · refine Or.inr ?_
              rw [hpiv, ← hpconv]
              exact h
          | succ m =>
            simp only [List.get] at hx ⊢
            have hm' : m < out.news.length := by simpa using hm
            rcases hout.2 m hm' x (by exact hx) with h | h
            · exact Or.inl h
            · refine Or.inr ?_
              rw [← hpconv]
              exact h

theorem relVarEq_true_iff (env : Env) (g : GidMap) (cnt : Nat) (ra rb : Reloc) :
    relVarEq env true cnt (fun s => s) g ra rb = true ↔ relPairOk env g cnt ra rb := by
  unfold relVarEq relPairOk
  by_cases hsym : ra.symIdx = rb.symIdx
  · simp [hsym]
  · rw [if_neg hsym]
    cases hA : symOf env ra.symIdx with
    | other => simp [hsym, hA]
    | definedRegular va sa =>
      cases hB : symOf env rb.symIdx with
      | other => simp [hsym, hA, hB]
      | definedRegular vb sb =>
        by_cases hv : va = vb
        · subst hv
          cases sa with
          | none => simp [hsym, hA, hB]
          | some xa =>
            cases sb with
            | none => simp [hsym, hA, hB]
            | some yb =>
              simp only [hsym, false_or, hA, hB, bne_self_eq_false,
                Bool.false_eq_true, if_false, SymbolBody.definedRegular.injEq,
                Option.some.injEq]
              constructor
              · intro h
                split at h
                next => simp at h
                next hin =>
                  split at h
                  next => simp at h
                  next hz =>
                    simp only [Bool.or_eq_true, Bool.not_eq_true'] at hin
                    push_neg at hin
                    refine ⟨va, xa, yb, ⟨rfl, rfl⟩, ⟨rfl, rfl⟩, ?_, ?_, hz, ?_⟩
                    · cases hx : (secOf env xa).isInput
                      · exact absurd hx hin.1
                      · rfl
                    · cases hy : (secOf env yb).isInput
                      · exact absurd hy hin.2
                      · rfl
                    · simpa using h
              · rintro ⟨v, xa', yb', ⟨hva, hxa⟩, ⟨hvb, hyb⟩, hix, hiy, hz, heq⟩
                subst hva
                subst hxa
                subst hyb
                rw [if_neg (by simp [hix, hiy]), if_neg (by simpa using hz)]
                simpa using heq
        · simp only [hsym, false_or, hA, hB, SymbolBody.definedRegular.injEq]
          rw [if_pos (by simpa [bne_iff_ne] using hv)]
          constructor
          · intro h
            simp at h
          · rintro ⟨v, xa', yb', ⟨hva, _⟩, ⟨hvb, _⟩, _⟩
            omega

/-- `equalsVariable` on equal-length relocation lists, characterized
pairwise by `relPairOk`. -/
theorem equalsVariable_iff_pairs (env : Env) (g : GidMap) (cnt : Nat) (a b : Nat)
    (hlen : (secOf env a).relocs.length = (secOf env b).relocs.length) :
    equalsVariable env true cnt (fun s => s) g a b = true ↔
      ∀ k, k < (secOf env a).relocs.length →
        relPairOk env g cnt ((secOf env a).relocs.getD k default)
          ((secOf env b).relocs.getD k default) := by
  unfold equalsVariable
  rw [all2_iff_getD hlen]
  constructor <;> intro h k hk
  · exact (relVarEq_true_iff env g cnt _ _).mp (h k hk)
  · exact (relVarEq_true_iff env g cnt _ _).mpr (h k hk)

/-! ## The copy step -/

theorem copyFold_other (c c' : Nat) (xs : List Nat) (g : GidMap) (t : Nat)
    (hc : c' % 2 ≠ c % 2) :
    slotGet (xs.foldl (fun g s => slotSet g c s (slotGet g (c + 1) s)) g) c' t =
      slotGet g c' t := by
  induction xs generalizing g with
  | nil => rfl
  | cons x xs ih =>
    rw [List.foldl_cons, ih]
    exact slotGet_slotSet_other_slot g c c' x t _ (fun h => hc h.symm)

theorem copyFold_read (c : Nat) (xs : List Nat) (g : GidMap) (t : Nat) :
    slotGet (xs.foldl (fun g s => slotSet g c s (slotGet g (c + 1) s)) g) c t =
      if t ∈ xs then slotGet g (c + 1) t else slotGet g c t := by
  induction xs generalizing g with
  | nil => simp
  | cons x xs ih =>
    rw [List.foldl_cons, ih]
    have hother : slotGet (slotSet g c x (slotGet g (c + 1) x)) (c + 1) t =
        slotGet g (c + 1) t :=
      slotGet_slotSet_other_slot g c (c + 1) x t _ (by omega)
    by_cases hx : t = x
    · subst hx
      by_cases hmem : t ∈ xs
      · simp [hmem, hother]
      · have hsame : slotGet (slotSet g c t (slotGet g (c + 1) t)) c t =
            slotGet g (c + 1) t :=
          slotGet_slotSet_same g c c t _ rfl
        simp [hmem, hsame]
    · have hkeep : slotGet (slotSet g c x (slotGet g (c + 1) x)) c t =
          slotGet g c t :=
        slotGet_congr t (slotSet_other g c x _ t hx) c
      by_cases hmem : t ∈ xs
      · simp [hmem, hother]
      · have hnc : t ∉ x :: xs := by simp [hx, hmem]
        simp [hmem, hnc, hkeep]

theorem copyFold_off (c : Nat) (xs : List Nat) (g : GidMap) (t : Nat)
    (h : t ∉ xs) :
    xs.foldl (fun g s => slotSet g c s (slotGet g (c + 1) s)) g t = g t := by
  induction xs generalizing g with
  | nil => rfl
  | cons x xs ih =>
    rw [List.foldl_cons, ih _ (fun h2 => h (List.mem_cons_of_mem _ h2))]
    exact slotSet_other g c x _ t (fun h2 => h (h2 ▸ List.mem_cons_self _ _))

theorem copyOne_other (cnt : Nat) (sections : List Nat) (g : GidMap) (r : Range)
    (c' t : Nat) (hc : c' % 2 ≠ cnt % 2) :
    slotGet (copyOne cnt sections g r) c' t = slotGet g c' t :=
  copyFold_other cnt c' _ g t hc

theorem copyOne_read (cnt : Nat) (sections : List Nat) (g : GidMap) (r : Range)
    (t : Nat) :
    slotGet (copyOne cnt sections g r) cnt t =
      if t ∈ slice sections r.bgn r.fin then slotGet g (cnt + 1) t
      else slotGet g cnt t :=
  copyFold_read cnt _ g t

theorem copyOne_off (cnt : Nat) (sections : List Nat) (g : GidMap) (r : Range)
    (t : Nat) (h : t ∉ slice sections r.bgn r.fin) :
    copyOne cnt sections g r t = g t :=
  copyFold_off cnt _ g t h

theorem copyRanges_other (cnt : Nat) (sections : List Nat) (rs : List Range)
    (g : GidMap) (c' t : Nat) (hc : c' % 2 ≠ cnt % 2) :
    slotGet (rs.foldl (copyOne cnt sections) g) c' t = slotGet g c' t := by
  induction rs generalizing g with
  | nil => rfl
  | cons r rs ih =>
    rw [List.foldl_cons, ih, copyOne_other _ _ _ _ _ _ hc]

theorem copyRanges_off (cnt : Nat) (sections : List Nat) (rs : List Range)
    (g : GidMap) (t : Nat)
    (h : ∀ r ∈ rs, t ∉ slice sections r.bgn r.fin) :
    rs.foldl (copyOne cnt sections) g t = g t := by
  induction rs generalizing g with
  | nil => rfl
  | cons r rs ih =>
    rw [List.foldl_cons, ih _ (fun r2 h2 => h r2 (List.mem_cons_of_mem _ h2))]
    exact copyOne_off cnt sections g r t (h r (List.mem_cons_self _ _))

theorem copyRanges_read_notmem (cnt : Nat) (sections : List Nat)
    (rs : List Range) (g : GidMap) (t : Nat)
    (h : ∀ r ∈ rs, t ∉ slice sections r.bgn r.fin) :
    slotGet (rs.foldl (copyOne cnt sections) g) cnt t = slotGet g cnt t :=
  slotGet_congr t (copyRanges_off cnt sections rs g t h) cnt

theorem copyRanges_read_mem (cnt : Nat) (sections : List Nat) (rs : List Range)
    (g : GidMap) (t : Nat)
    (h : ∃ r ∈ rs, t ∈ slice sections r.bgn r.fin) :
    slotGet (rs.foldl (copyOne cnt sections) g) cnt t =
      slotGet g (cnt + 1) t := by
  induction rs generalizing g with
  | nil =>
    obtain ⟨r, hr, _⟩ := h
    cases hr
  | cons r1 rs ih =>
    rw [List.foldl_cons]
    by_cases hmem : ∃ r2 ∈ rs, t ∈ slice sections r2.bgn r2.fin
    · rw [ih _ hmem]
      exact copyOne_other cnt sections g r1 (cnt + 1) t (by omega)
    · obtain ⟨r0, hr0, ht0⟩ := h
      rcases List.mem_cons.mp hr0 with rfl | hr2
      · rw [copyRanges_read_notmem cnt sections rs _ t
          (fun r2 h2 ht2 => hmem ⟨r2, h2, ht2⟩), copyOne_read, if_pos ht0]
      · exact absurd ⟨r0, hr2, ht0⟩ hmem

theorem synced_of_slots {g : GidMap} (c : Nat)
    (h : ∀ s, slotGet g c s = slotGet g (c + 1) s) : ∀ s, (g s).1 = (g s).2 := by
  intro s
  have h0 : slotGet g 0 s = (g s).1 := by simp [slotGet]
  have h1 : slotGet g 1 s = (g s).2 := by simp [slotGet]
  rcases Nat.mod_two_eq_zero_or_one c with hc | hc
  · rw [← h0, ← h1, slotGet_parity g 0 c s (by omega),
      slotGet_parity g 1 (c + 1) s (by omega)]
    exact h s
  · rw [← h0, ← h1, slotGet_parity g 0 (c + 1) s (by omega),
      slotGet_parity g 1 c s (by omega)]
    exact (h s).symm

/-! ## Sweep- and pass-level preservation -/

theorem sweep_inv (env : Env) (p : Pred) (st0 : IcfState) (k : Nat)
    (hk : k = st0.ranges.length) (hn31 : st0.sections.length < 2 ^ 31)
    (hnd0 : st0.sections.Nodup) (h0 : st0.nextId ≤ k + 1)
    (hiv0 : SweepInv env st0 k 0 st0) :
    SweepInv env st0 k k (sweep p (st0.cnt + 1) st0) := by
  have main : ∀ i, i ≤ k →
      SweepInv env st0 k i
        ((List.range i).foldl (sweepStep p (st0.cnt + 1)) st0) := by
    intro i
    induction i with
    | zero => intro _; exact hiv0
    | succ i ih =>
      intro hik
      rw [List.range_succ, List.foldl_append]
      simp only [List.foldl_cons, List.foldl_nil]
      exact sweepStep_inv env p st0 k i _ hn31 hnd0 h0 (ih (by omega)) (by omega)
  have h := main k (Nat.le_refl _)
  show SweepInv env st0 k k
    ((List.range st0.ranges.length).foldl (sweepStep p (st0.cnt + 1)) st0)
  rw [← hk]
  exact h

/-- At the start of a pass, the between-pass invariant gives the sweep
invariant with no range processed yet. -/
theorem inv_to_sweepInv (env : Env) (st0 : IcfState) (hiv : Inv env st0) :
    SweepInv env st0 st0.ranges.length 0 st0 := by
  refine {
    secPerm := List.Perm.refl _
    cntEq := rfl
    rlen := Nat.le_refl _
    rangesWf := hiv.rangesWf
    disj := hiv.disj
    untouched := fun j _ _ => rfl
    readFrame := fun c t _ => rfl
    outZero := hiv.outZero
    writeClass := ?_
    writeNz := ?_
    idKinds := hiv.idKinds
    nextIdPos := hiv.nextIdPos
    nextIdEq := rfl
    withinOld := fun r hr => ⟨r, hr, fun t ht => ht⟩
    gidOld := fun s _ => rfl
    alignSorted := hiv.alignSorted }
  · intro x hx y hy
    rw [slotGet_of_synced hiv.synced (st0.cnt + 1) st0.cnt x,
      slotGet_of_synced hiv.synced (st0.cnt + 1) st0.cnt y]
    exact hiv.classIff x hx y hy
  · intro x hx
    rw [slotGet_of_synced hiv.synced (st0.cnt + 1) st0.cnt x]
    exact hiv.nzero x hx

/-- One pass of the driver preserves the between-pass invariant; moreover the
`Cnt` counter advances by one, the `Sections` vector is only permuted, the
number of ranges does not decrease, and every post-pass range is contained
(element-wise) in some pre-pass range. -/
theorem icfPass_inv (env : Env) (threads constant : Bool) (st0 : IcfState)
    (hn31 : st0.sections.length < 2 ^ 31) (hnd0 : st0.sections.Nodup)
    (hiv : Inv env st0) :
    Inv env (icfPass env threads constant st0) ∧
      (icfPass env threads constant st0).cnt = st0.cnt + 1 ∧
      (icfPass env threads constant st0).sections.Perm st0.sections ∧
      st0.ranges.length ≤ (icfPass env threads constant st0).ranges.length ∧
      ∀ r ∈ (icfPass env threads constant st0).ranges, ∃ r0 ∈ st0.ranges,
        ∀ t ∈ slice (icfPass env threads constant st0).sections r.bgn r.fin,
          t ∈ slice st0.sections r0.bgn r0.fin := by
  set k := st0.ranges.length with hk
  set p := if constant then constPred env else varPred env threads st0.cnt
    with hp
  set st' := sweep p (st0.cnt + 1) st0 with hst'
  have S : SweepInv env st0 k k st' :=
    sweep_inv env p st0 k hk hn31 hnd0 (by have := hiv.nextIdBound; omega)
      (by rw [hk]; exact inv_to_sweepInv env st0 hiv)
  have hpass : icfPass env threads constant st0 =
      ⟨st'.sections,
        (st'.ranges.drop k).foldl (copyOne st'.cnt st'.sections) st'.gid,
        st'.ranges, st'.nextId, st'.cnt + 1⟩ := rfl
  rw [hpass]
  set g2 := (st'.ranges.drop k).foldl (copyOne st'.cnt st'.sections) st'.gid
    with hg2
  have hcnt' : st'.cnt = st0.cnt := S.cntEq
  have hwr : ∀ c t, c % 2 ≠ st0.cnt % 2 → slotGet g2 c t = slotGet st'.gid c t := by
    intro c t hc
    rw [hg2, hcnt']
    exact copyRanges_other st0.cnt st'.sections _ st'.gid c t (by omega)
  have hread_mem : ∀ t,
      (∃ nr ∈ st'.ranges.drop k, t ∈ slice st'.sections nr.bgn nr.fin) →
      slotGet g2 st0.cnt t = slotGet st'.gid (st0.cnt + 1) t := by
    intro t ht
    rw [hg2, hcnt']
    exact copyRanges_read_mem st0.cnt st'.sections _ st'.gid t ht
  have hread_off : ∀ t,
      (∀ nr ∈ st'.ranges.drop k, t ∉ slice st'.sections nr.bgn nr.fin) →
      g2 t = st'.gid t := by
    intro t ht
    rw [hg2]
    exact copyRanges_off st'.cnt st'.sections _ st'.gid t ht
  have hslots : ∀ t, slotGet g2 st0.cnt t = slotGet g2 (st0.cnt + 1) t := by
    intro t
    rw [hwr (st0.cnt + 1) t (by omega)]
    by_cases hm : ∃ nr ∈ st'.ranges.drop k, t ∈ slice st'.sections nr.bgn nr.fin
    · exact hread_mem t hm
    · push_neg at hm
      rw [slotGet_congr t (hread_off t hm) st0.cnt,
        slotGet_congr t (S.gidOld t hm) st0.cnt,
        slotGet_congr t (S.gidOld t hm) (st0.cnt + 1)]
      exact slotGet_of_synced hiv.synced st0.cnt (st0.cnt + 1) t
  refine ⟨⟨?_, ?_, ?_, ?_, ?_, ?_, ?_, ?_, ?_, ?_, ?_⟩, ?_, ?_, ?_, ?_⟩
  · exact S.secPerm.trans hiv.perm
  · exact S.rangesWf
  · exact S.disj
  · exact synced_of_slots st0.cnt hslots
  · intro x hx y hy
    show slotGet g2 (st'.cnt + 1) x = slotGet g2 (st'.cnt + 1) y ↔ _
    rw [hcnt', hwr (st0.cnt + 1) x (by omega), hwr (st0.cnt + 1) y (by omega)]
    exact S.writeClass x hx y hy
  · intro x hx
    show slotGet g2 (st'.cnt + 1) x ≠ 0
    rw [hcnt', hwr (st0.cnt + 1) x (by omega)]
    exact S.writeNz x hx
  · intro s hs
    show g2 s = (0, 0)
    have hoff : ∀ nr ∈ st'.ranges.drop k, s ∉ slice st'.sections nr.bgn nr.fin :=
      fun nr _ hmem => hs (mem_of_mem_slice hmem)
    rw [hread_off s hoff]
    exact S.outZero s hs
  · intro c t
    show slotGet g2 c t = 0 ∨
      (2 ^ 31 ≤ slotGet g2 c t ∧ slotGet g2 c t < 2 ^ 32) ∨
      (1 ≤ slotGet g2 c t ∧ slotGet g2 c t < st'.nextId)
    by_cases hc : c % 2 = st0.cnt % 2
    · rw [slotGet_parity g2 c st0.cnt t (by omega), hslots t,
        hwr (st0.cnt + 1) t (by omega)]
      exact S.idKinds (st0.cnt + 1) t
    · rw [hwr c t (by omega)]
      exact S.idKinds c t
  · exact S.nextIdPos
  · show st'.nextId ≤ st'.ranges.length + 1
    have h1 := S.nextIdEq
    have h2 := hiv.nextIdBound
    omega
  · exact S.alignSorted
  · show st'.cnt + 1 = st0.cnt + 1
    rw [hcnt']
  · exact S.secPerm
  · exact S.rlen
  · exact S.withinOld

/-! ## The range-construction scan -/

theorem usizeMod_pos : 0 < usizeMod := by
  show 0 < 2 ^ 64
  exact Nat.pos_pow_of_pos 64 (by norm_num)

/-- The inner scan always completes (never hits the `none` out-of-bounds
marker) when `I` is in bounds, and it returns the end of the run of sections
whose `GroupId[0]` equals that of `Sections[I]`. -/
theorem scanInner_spec (f : Nat → Nat) (l : List Nat) (i : Nat)
    (hi : i < l.length) :
    ∀ j, ∃ j', scanInner f l i j = some j' ∧ j ≤ j' ∧
      (j ≤ l.length → j' ≤ l.length) ∧
      (∀ q, j ≤ q → q < j' → f (l.getD i 0) = f (l.getD q 0)) ∧
      (j' < l.length → f (l.getD i 0) ≠ f (l.getD j' 0)) := by
  have main : ∀ n j, l.length - j ≤ n → ∃ j', scanInner f l i j = some j' ∧
      j ≤ j' ∧ (j ≤ l.length → j' ≤ l.length) ∧
      (∀ q, j ≤ q → q < j' → f (l.getD i 0) = f (l.getD q 0)) ∧
      (j' < l.length → f (l.getD i 0) ≠ f (l.getD j' 0)) := by
    intro n
    induction n with
    | zero =>
      intro j hj
      refine ⟨j, ?_, Nat.le_refl _, fun h => by omega, fun q h1 h2 => by omega, ?_⟩
      · rw [scanInner, dif_neg (by omega)]
      · intro h
        omega
    | succ n ih =>
      intro j hj
      by_cases hjl : j < l.length
      · by_cases heq : f (l.getD i 0) = f (l.getD j 0)
        · obtain ⟨j', h1, h2, h3, h4, h5⟩ := ih (j + 1) (by omega)
          refine ⟨j', ?_, by omega, fun _ => h3 (by omega), ?_, h5⟩
          · rw [scanInner, dif_pos hjl, dif_pos hi, if_pos heq]
            exact h1
          · intro q hq1 hq2
            rcases Nat.eq_or_lt_of_le hq1 with rfl | hq1
            · exact heq
            · exact h4 q hq1 hq2
        · refine ⟨j, ?_, Nat.le_refl _, fun h => h,
            fun q h1 h2 => by omega, fun _ => heq⟩
          rw [scanInner, dif_pos hjl, dif_pos hi, if_neg heq]
      · refine ⟨j, ?_, Nat.le_refl _, fun h => by omega,
          fun q h1 h2 => by omega, fun h => by omega⟩
        rw [scanInner, dif_neg hjl]
  exact fun j => main (l.length - j) j (Nat.le_refl _)

/-- The outer scan on a non-empty `Sections` vector always completes and
produces exactly the maximal runs (of length at least 2) of equal
`GroupId[0]`: the ranges are ordered and disjoint, each covers only equal-id
sections, and every adjacent equal-id pair of positions lies inside one of
them. -/
theorem scanOuter_sound (f : Nat → Nat) (l : List Nat) (hl : 0 < l.length)
    (hlen : l.length ≤ usizeMod) :
    ∀ n i, l.length - i ≤ n →
    ∃ rs, scanOuter f l i = some rs ∧
      (∀ r ∈ rs, i ≤ r.bgn ∧ r.bgn + 2 ≤ r.fin ∧ r.fin ≤ l.length) ∧
      rs.Pairwise (fun r r' => r.fin ≤ r'.bgn) ∧
      (∀ r ∈ rs, ∀ q, r.bgn ≤ q → q < r.fin →
        f (l.getD r.bgn 0) = f (l.getD q 0)) ∧
      (∀ p, i ≤ p → p + 1 < l.length → f (l.getD p 0) = f (l.getD (p + 1) 0) →
        ∃ r ∈ rs, r.bgn ≤ p ∧ p + 1 < r.fin) := by
  have hbound : (l.length + usizeMod - 1) % usizeMod = l.length - 1 := by
    have h1 : l.length + usizeMod - 1 = (l.length - 1) + usizeMod := by omega
    rw [h1, Nat.add_mod_right]
    exact Nat.mod_eq_of_lt (by have := usizeMod; omega)
  intro n
  induction n with
  | zero =>
    intro i hi
    refine ⟨[], ?_, fun r hr => absurd hr (List.not_mem_nil r),
      List.Pairwise.nil, fun r hr => absurd hr (List.not_mem_nil r), ?_⟩
    · rw [scanOuter, hbound, dif_neg (by omega)]
    · intro p hp hp1 _
      omega
  | succ n ih =>
    intro i hi
    by_cases hil : i < l.length - 1
    · have hiL : i < l.length := by omega
      obtain ⟨j, hsome, hj1, hj2, hrun, hmax⟩ := scanInner_spec f l i hiL (i + 1)
      have hjle : j ≤ l.length := hj2 (by omega)
      obtain ⟨rs', hrs', hwf', hord', hrun', hcov'⟩ := ih j (by omega)
      have hres : scanOuter f l i =
          some (if j - i > 1 then ⟨i, j⟩ :: rs' else rs') := by
        rw [scanOuter, hbound, dif_pos (by omega)]
        split
        next heq =>
          rw [hsome] at heq
          exact Option.noConfusion heq
        next j2 heq =>
          rw [hsome] at heq
          cases heq
          split
          next heq2 =>
            rw [hrs'] at heq2
            exact Option.noConfusion heq2
          next rs2 heq2 =>
            rw [hrs'] at heq2
            cases heq2
            rfl
      by_cases hgt : j - i > 1
      · rw [if_pos hgt] at hres
        refine ⟨⟨i, j⟩ :: rs', hres, ?_, ?_, ?_, ?_⟩
        · intro r hr
          rcases List.mem_cons.mp hr with rfl | hr
          · refine ⟨?_, ?_, ?_⟩
            · show i ≤ i
              exact Nat.le_refl _
            · show i + 2 ≤ j
              omega
            · show j ≤ l.length
              exact hjle
          · have := hwf' r hr
            exact ⟨by omega, this.2.1, this.2.2⟩
        · rw [List.pairwise_cons]
          refine ⟨fun r' hr' => ?_, hord'⟩
          exact (hwf' r' hr').1
        · intro r hr q hq1 hq2
          rcases List.mem_cons.mp hr with rfl | hr
          · rcases Nat.eq_or_lt_of_le hq1 with rfl | hq1
            · rfl
            · exact hrun q hq1 hq2
          · exact hrun' r hr q hq1 hq2
        · intro p hp hp1 heq
          rcases Nat.lt_or_ge (p + 1) j with hpj | hpj
          · exact ⟨⟨i, j⟩, List.mem_cons_self _ _, hp, hpj⟩
          · rcases Nat.eq_or_lt_of_le hpj with hpj | hpj
            · exfalso
              have hpi : f (l.getD i 0) = f (l.getD p 0) := by
                rcases Nat.eq_or_lt_of_le hp with rfl | hp
                · rfl
                · exact hrun p hp (by omega)
              have : f (l.getD i 0) = f (l.getD j 0) := by
                rw [hpi, heq, ← hpj]
              exact hmax (by omega) this
            · obtain ⟨r, hr, h1, h2⟩ := hcov' p (by omega) hp1 heq
              exact ⟨r, List.mem_cons_of_mem _ hr, h1, h2⟩
      · rw [if_neg hgt] at hres
        have hji : j = i + 1 := by omega
        refine ⟨rs', hres, ?_, hord', hrun', ?_⟩
        · intro r hr
          have := hwf' r hr
          exact ⟨by omega, this.2.1, this.2.2⟩
        · intro p hp hp1 heq
          rcases Nat.eq_or_lt_of_le hp with rfl | hp
          · exfalso
            exact hmax (by omega) (by rw [hji]; exact heq)
          · exact hcov' p (by omega) hp1 heq
    · refine ⟨[], ?_, fun r hr => absurd hr (List.not_mem_nil r),
        List.Pairwise.nil, fun r hr => absurd hr (List.not_mem_nil r), ?_⟩
      · rw [scanOuter, hbound, dif_neg (by omega)]
      · intro p hp hp1 _
        omega

/-- On an empty `Sections` vector the wrapped-around outer loop runs through
all of `[0, 2^64 - 1)` without any element access and pushes nothing. -/
theorem scanOuter_nil (f : Nat → Nat) (l : List Nat) (hl : l.length = 0) :
    ∀ n i, usizeMod - 1 - i ≤ n → scanOuter f l i = some [] := by
  have hbound : (l.length + usizeMod - 1) % usizeMod = usizeMod - 1 := by
    have hpos := usizeMod_pos
    rw [hl]
    exact Nat.mod_eq_of_lt (by omega)
  intro n
  induction n with
  | zero =>
    intro i hi
    rw [scanOuter, hbound, dif_neg (by omega)]
  | succ n ih =>
    intro i hi
    by_cases hib : i < usizeMod - 1
    · have hsome : scanInner f l i (i + 1) = some (i + 1) := by
        rw [scanInner, dif_neg (by omega)]
      have hrec : scanOuter f l (i + 1) = some [] := ih (i + 1) (by omega)
      rw [scanOuter, hbound, dif_pos hib]
      split
      next heq =>
        rw [hsome] at heq
        exact Option.noConfusion heq
      next j2 heq =>
        rw [hsome] at heq
        cases heq
        split
        next heq2 =>
          rw [hrec] at heq2
          exact Option.noConfusion heq2
        next rs2 heq2 =>
          rw [hrec] at heq2
          cases heq2
          rw [if_neg (by omega)]
    · rw [scanOuter, hbound, dif_neg hib]

/-- `scanRanges` never fails: every element access the scan performs is in
bounds. -/
theorem scanRanges_total (f : Nat → Nat) (l : List Nat)
    (hlen : l.length ≤ usizeMod) :
    ∃ rs, scanRanges f l = some rs := by
  rcases Nat.eq_zero_or_pos l.length with hl | hl
  · exact ⟨[], scanOuter_nil f l hl (usizeMod - 1) 0 (Nat.le_refl _)⟩
  · obtain ⟨rs, h, _⟩ := scanOuter_sound f l hl hlen l.length 0 (by omega)
    exact ⟨rs, h⟩

/-! ## The initial state of `ICF::run` -/

theorem setAll_fold (h : Nat → Nat) (xs : List Nat) (g : Nat → Nat × Nat)
    (t : Nat) :
    xs.foldl (fun g s => fun u => if u = s then (h s, h s) else g u) g t =
      if t ∈ xs then (h t, h t) else g t := by
  induction xs generalizing g with
  | nil => simp
  | cons x xs ih =>
    rw [List.foldl_cons, ih]
    by_cases hmem : t ∈ xs
    · simp [hmem]
    · by_cases hx : t = x
      · subst hx
        simp [hmem]
      · simp [hmem, hx]

theorem initialGid_eq (env : Env) (elig : List Nat) (t : Nat) :
    initialGid env elig t =
      if t ∈ elig then
        (getHash (secOf env t) ||| 2 ^ 31, getHash (secOf env t) ||| 2 ^ 31)
      else (0, 0) :=
  setAll_fold (fun s => getHash (secOf env s) ||| 2 ^ 31) elig (fun _ => (0, 0)) t

theorem getHash_lt (S : Sec) : getHash S < 2 ^ 32 := by
  show _ % 2 ^ 32 < 2 ^ 32
  exact Nat.mod_lt _ (by norm_num)

theorem hashId_ge (h : Nat) : 2 ^ 31 ≤ h ||| 2 ^ 31 :=
  Nat.testBit_implies_ge
    (by rw [Nat.testBit_or, Nat.testBit_two_pow_self, Bool.or_true])

theorem hashId_lt (h : Nat) (hh : h < 2 ^ 32) : h ||| 2 ^ 31 < 2 ^ 32 :=
  Nat.or_lt_two_pow hh (by norm_num)

theorem eligList_nodup (env : Env) : (eligList env).Nodup :=
  List.Nodup.filter _ (List.nodup_range _)

theorem eligList_length_le (env : Env) :
    (eligList env).length ≤ env.secs.length := by
  have h := List.length_filter_le
    (fun i => (secOf env i).isInput && isEligible (secOf env i))
    (List.range env.secs.length)
  rw [List.length_range] at h
  exact h

theorem slotGet_zero (g : GidMap) (t : Nat) : slotGet g 0 t = (g t).1 := rfl

/-- The strict comparator, spelled out. -/
theorem sortLt_iff (env : Env) (g : GidMap) (a b : Nat) :
    sortLt env g a b = true ↔
      ((g a).1 < (g b).1 ∨
        ((g a).1 = (g b).1 ∧
          (secOf env b).alignment < (secOf env a).alignment)) := by
  unfold sortLt
  by_cases h : (g a).1 = (g b).1
  · simp [h]
  · simp [h, bne_iff_ne]

/-- The negation of the strict comparator: the total preorder `mergeSort`
receives. -/
theorem sortLt_false_iff (env : Env) (g : GidMap) (a b : Nat) :
    sortLt env g a b = false ↔
      ((g b).1 < (g a).1 ∨
        ((g a).1 = (g b).1 ∧
          (secOf env a).alignment ≤ (secOf env b).alignment)) := by
  constructor
  · intro hf
    have hn : ¬ ((g a).1 < (g b).1 ∨
        ((g a).1 = (g b).1 ∧
          (secOf env b).alignment < (secOf env a).alignment)) := by
      intro hx
      rw [(sortLt_iff env g a b).mpr hx] at hf
      exact Bool.noConfusion hf
    have h1 : ¬ (g a).1 < (g b).1 := fun h => hn (Or.inl h)
    by_cases he : (g a).1 = (g b).1
    · have h3 : ¬ (secOf env b).alignment < (secOf env a).alignment :=
        fun hl => hn (Or.inr ⟨he, hl⟩)
      exact Or.inr ⟨he, by omega⟩
    · exact Or.inl (by omega)
  · intro h
    cases hb : sortLt env g a b
    · rfl
    · exfalso
      rcases (sortLt_iff env g a b).mp hb with hx | ⟨he, hl⟩ <;>
        rcases h with hy | ⟨he2, hl2⟩ <;> omega

theorem sortLe_trans (env : Env) (g : GidMap) (a b c : Nat)
    (h1 : (!(sortLt env g b a)) = true) (h2 : (!(sortLt env g c b)) = true) :
    (!(sortLt env g c a)) = true := by
  have f1 : sortLt env g b a = false := by
    cases hx : sortLt env g b a
    · rfl
    · rw [hx] at h1
      exact Bool.noConfusion h1
  have f2 : sortLt env g c b = false := by
    cases hx : sortLt env g c b
    · rfl
    · rw [hx] at h2
      exact Bool.noConfusion h2
  have f3 : sortLt env g c a = false := by
    rw [sortLt_false_iff] at f1 f2 ⊢
    rcases f1 with f1 | ⟨e1, l1⟩ <;> rcases f2 with f2 | ⟨e2, l2⟩
    · exact Or.inl (by omega)
    · exact Or.inl (by omega)
    · exact Or.inl (by omega)
    · exact Or.inr ⟨by omega, by omega⟩
  rw [f3]
  rfl

theorem sortLe_total (env : Env) (g : GidMap) (a b : Nat) :
    ((!(sortLt env g b a)) || (!(sortLt env g a b))) = true := by
  cases h1 : sortLt env g b a
  · rfl
  · cases h2 : sortLt env g a b
    · rfl
    · exfalso
      rw [sortLt_iff] at h1 h2
      rcases h1 with h1 | ⟨e1, l1⟩ <;> rcases h2 with h2 | ⟨e2, l2⟩ <;> omega

/-- Two members of an ordered disjoint range list containing a common
position are the same range. -/
theorem ordered_unique_cover (rs : List Range)
    (hord : rs.Pairwise (fun r r' => r.fin ≤ r'.bgn))
    (r r' : Range) (hr : r ∈ rs) (hr' : r' ∈ rs) (m : Nat)
    (h1 : r.bgn ≤ m) (h2 : m < r.fin) (h3 : r'.bgn ≤ m) (h4 : m < r'.fin) :
    r = r' := by
  obtain ⟨i1, hi1, he1⟩ := List.mem_iff_getElem.mp hr
  obtain ⟨i2, hi2, he2⟩ := List.mem_iff_getElem.mp hr'
  have hp := List.pairwise_iff_getElem.mp hord
  rcases Nat.lt_trichotomy i1 i2 with h | h | h
  · have hd := hp i1 i2 hi1 hi2 h
    rw [he1, he2] at hd
    omega
  · subst h
    rw [← he1, ← he2]
  · have hd := hp i2 i1 hi2 hi1 h
    rw [he1, he2] at hd
    omega

/-- If every adjacent equal-id pair of positions is inside a range, then a
whole run of equal-id positions is inside a single range. -/
theorem covered_of_adj (rs : List Range) (f : Nat → Nat) (l : List Nat)
    (hord : rs.Pairwise (fun r r' => r.fin ≤ r'.bgn))
    (hadj : ∀ p, p + 1 < l.length → f (l.getD p 0) = f (l.getD (p + 1) 0) →
      ∃ r ∈ rs, r.bgn ≤ p ∧ p + 1 < r.fin) :
    ∀ d p, p + 1 + d < l.length →
      (∀ m, p ≤ m → m ≤ p + 1 + d → f (l.getD p 0) = f (l.getD m 0)) →
      ∃ r ∈ rs, r.bgn ≤ p ∧ p + 1 + d < r.fin := by
  intro d
  induction d with
  | zero =>
    intro p hp heq
    exact hadj p hp (heq (p + 1) (by omega) (by omega))
  | succ d ih =>
    intro p hp heq
    obtain ⟨r, hr, hr1, hr2⟩ := ih p (by omega) (fun m h1 h2 => heq m h1 (by omega))
    have hadj2 : f (l.getD (p + 1 + d) 0) = f (l.getD (p + 1 + d + 1) 0) := by
      have e1 := heq (p + 1 + d) (by omega) (by omega)
      have e2 := heq (p + 1 + d + 1) (by omega) (by omega)
      rw [← e1]
      exact e2
    obtain ⟨r', hr', hr1', hr2'⟩ := hadj (p + 1 + d) (by omega) hadj2
    have hre : r = r' := ordered_unique_cover rs hord r r' hr hr' (p + 1 + d)
      (by omega) hr2 hr1' (by omega)
    subst hre
    exact ⟨r, hr, hr1, by omega⟩

/-- The between-pass invariant holds for the state `ICF::run` enters the
pass loop with: collected sections seeded with hash ids, stable-sorted, and
the initial ranges built by the scan. -/
theorem inv0 (env : Env) (hn : env.secs.length < 2 ^ 31)
    (sorted : List Nat) (g0 : GidMap) (ranges0 : List Range)
    (hsorted : sorted = (eligList env).mergeSort
      (fun a b => !(sortLt env (initialGid env (eligList env)) b a)))
    (hg0 : g0 = initialGid env (eligList env))
    (hranges : scanRanges (fun s => (g0 s).1) sorted = some ranges0) :
    Inv env ⟨sorted, g0, ranges0, 1, 0⟩ := by
  have hperm : sorted.Perm (eligList env) := by
    rw [hsorted]
    exact List.mergeSort_perm _ _
  have hlenlt : sorted.length < 2 ^ 31 := by
    have h1 := hperm.length_eq
    have h2 := eligList_length_le env
    omega
  have hlen64 : sorted.length ≤ usizeMod := by
    have h31 : (2 : Nat) ^ 31 ≤ usizeMod := by norm_num [usizeMod]
    omega
  have hranges' : scanOuter (fun s => (g0 s).1) sorted 0 = some ranges0 :=
    hranges
  have hPW : sorted.Pairwise (fun a b => (!(sortLt env g0 b a)) = true) := by
    rw [hsorted, hg0]
    exact List.sorted_mergeSort
      (fun a b c h1 h2 => sortLe_trans env _ a b c h1 h2)
      (fun a b => sortLe_total env _ a b) _
  have hmono : ∀ p q, p < q → q < sorted.length →
      (g0 (sorted.getD p 0)).1 ≤ (g0 (sorted.getD q 0)).1 ∧
      ((g0 (sorted.getD p 0)).1 = (g0 (sorted.getD q 0)).1 →
        (secOf env (sorted.getD q 0)).alignment ≤
          (secOf env (sorted.getD p 0)).alignment) := by
    intro p q hpq hq
    have hp : p < sorted.length := by omega
    have h := List.pairwise_iff_getElem.mp hPW p q hp hq hpq
    have hf : sortLt env g0 (sorted[q]) (sorted[p]) = false := by
      cases hx : sortLt env g0 (sorted[q]) (sorted[p])
      · rfl
      · rw [hx] at h
        exact Bool.noConfusion h
    rw [sortLt_false_iff] at hf
    rw [List.getD_eq_getElem _ _ hp, List.getD_eq_getElem _ _ hq]
    constructor
    · rcases hf with h1 | ⟨h1, h2⟩ <;> omega
    · intro he
      rcases hf with h1 | ⟨h1, h2⟩
      · omega
      · exact h2
  have hP : (∀ r ∈ ranges0, r.bgn + 2 ≤ r.fin ∧ r.fin ≤ sorted.length) ∧
      ranges0.Pairwise (fun r r' => r.fin ≤ r'.bgn) ∧
      (∀ r ∈ ranges0, ∀ q, r.bgn ≤ q → q < r.fin →
        (g0 (sorted.getD r.bgn 0)).1 = (g0 (sorted.getD q 0)).1) ∧
      (∀ p, p + 1 < sorted.length →
        (g0 (sorted.getD p 0)).1 = (g0 (sorted.getD (p + 1) 0)).1 →
        ∃ r ∈ ranges0, r.bgn ≤ p ∧ p + 1 < r.fin) := by
    rcases Nat.eq_zero_or_pos sorted.length with h0 | h0
    · have hnil := scanOuter_nil (fun s => (g0 s).1) sorted h0 (usizeMod - 1) 0
        (by omega)
      rw [hranges'] at hnil
      obtain rfl : ranges0 = [] := Option.some_inj.mp hnil
      exact ⟨fun r hr => absurd hr (List.not_mem_nil r), List.Pairwise.nil,
        fun r hr => absurd hr (List.not_mem_nil r), fun p hp => by omega⟩
    · obtain ⟨rs, hrs, hwf, hord, hrun, hadj⟩ :=
        scanOuter_sound (fun s => (g0 s).1) sorted h0 hlen64 sorted.length 0
          (by omega)
      rw [hranges'] at hrs
      obtain rfl : ranges0 = rs := Option.some_inj.mp hrs
      exact ⟨fun r hr => ⟨(hwf r hr).2.1, (hwf r hr).2.2⟩, hord,
        fun r hr q h1 h2 => hrun r hr q h1 h2,
        fun p h1 h2 => hadj p (by omega) h1 h2⟩
  obtain ⟨Pwf, Pord, Prun, Padj⟩ := hP
  have hcover : ∀ px py, px < py → py < sorted.length →
      (g0 (sorted.getD px 0)).1 = (g0 (sorted.getD py 0)).1 →
      ∃ r ∈ ranges0, r.bgn ≤ px ∧ py < r.fin := by
    intro px py hlt hpy hfeq
    have hcontig : ∀ m, px ≤ m → m ≤ py →
        (g0 (sorted.getD px 0)).1 = (g0 (sorted.getD m 0)).1 := by
      intro m hm1 hm2
      rcases Nat.eq_or_lt_of_le hm1 with rfl | hm1
      · rfl
      · rcases Nat.eq_or_lt_of_le hm2 with rfl | hm2
        · exact hfeq
        · have a1 := (hmono px m hm1 (by omega)).1
          have a2 := (hmono m py hm2 hpy).1
          omega
    obtain ⟨r, hr, h1, h2⟩ := covered_of_adj ranges0 (fun s => (g0 s).1) sorted
      Pord Padj (py - px - 1) px (by omega)
      (fun m hm1 hm2 => hcontig m hm1 (by omega))
    exact ⟨r, hr, h1, by omega⟩
  have hH : ∀ x ∈ sorted, g0 x =
      (getHash (secOf env x) ||| 2 ^ 31, getHash (secOf env x) ||| 2 ^ 31) := by
    intro x hx
    rw [hg0, initialGid_eq, if_pos (hperm.mem_iff.mp hx)]
  refine {
    perm := hperm
    rangesWf := fun r hr => ⟨by have := (Pwf r hr).1; omega, (Pwf r hr).2⟩
    disj := Pord.imp (fun h => Or.inl h)
    synced := ?_
    classIff := ?_
    nzero := ?_
    outZero := ?_
    idKinds := ?_
    nextIdPos := Nat.le_refl _
    nextIdBound := by show 1 ≤ ranges0.length + 1; omega
    alignSorted := ?_ }
  · intro s
    show (g0 s).1 = (g0 s).2
    rw [hg0, initialGid_eq]
    by_cases h : s ∈ eligList env <;> simp [h]
  · intro x hx y hy
    show slotGet g0 0 x = slotGet g0 0 y ↔ sameClassIn _ x y
    rw [slotGet_zero, slotGet_zero]
    constructor
    · intro hfeq
      obtain ⟨px, hpx, hxe⟩ := List.mem_iff_getElem.mp hx
      obtain ⟨py, hpy, hye⟩ := List.mem_iff_getElem.mp hy
      have hxd : sorted.getD px 0 = x := by
        rw [List.getD_eq_getElem _ _ hpx]
        exact hxe
      have hyd : sorted.getD py 0 = y := by
        rw [List.getD_eq_getElem _ _ hpy]
        exact hye
      rcases Nat.lt_trichotomy px py with hlt | heq | hlt
      · obtain ⟨r, hr, h1, h2⟩ := hcover px py hlt hpy
          (by rw [hxd, hyd]; exact hfeq)
        have hfin : r.fin ≤ sorted.length := (Pwf r hr).2
        refine Or.inr ⟨r, hr, ?_, ?_⟩
        · exact (mem_slice_iff hfin).mpr ⟨px, h1, by omega, hxd⟩
        · exact (mem_slice_iff hfin).mpr ⟨py, by omega, h2, hyd⟩
      · left
        subst heq
        rw [← hxe, ← hye]
      · obtain ⟨r, hr, h1, h2⟩ := hcover py px hlt hpx
          (by rw [hxd, hyd]; exact hfeq.symm)
        have hfin : r.fin ≤ sorted.length := (Pwf r hr).2
        refine Or.inr ⟨r, hr, ?_, ?_⟩
        · exact (mem_slice_iff hfin).mpr ⟨px, by omega, h2, hxd⟩
        · exact (mem_slice_iff hfin).mpr ⟨py, h1, by omega, hyd⟩
    · rintro (rfl | ⟨r, hr, hxs, hys⟩)
      · rfl
      · have hfin : r.fin ≤ sorted.length := (Pwf r hr).2
        obtain ⟨p1, ha1, ha2, ha3⟩ := (mem_slice_iff hfin).mp hxs
        obtain ⟨p2, hb1, hb2, hb3⟩ := (mem_slice_iff hfin).mp hys
        have e1 : (g0 (sorted.getD r.bgn 0)).1 = (g0 x).1 := by
          have h := Prun r hr p1 ha1 ha2
          rw [ha3] at h
          exact h
        have e2 : (g0 (sorted.getD r.bgn 0)).1 = (g0 y).1 := by
          have h := Prun r hr p2 hb1 hb2
          rw [hb3] at h
          exact h
        rw [← e1, ← e2]
  · intro x hx
    show slotGet g0 0 x ≠ 0
    rw [slotGet_zero, hH x hx]
    have h1 := hashId_ge (getHash (secOf env x))
    intro h
    have h2 : getHash (secOf env x) ||| 2 ^ 31 = 0 := h
    omega
  · intro s hs
    show g0 s = (0, 0)
    rw [hg0, initialGid_eq, if_neg (fun h => hs (hperm.mem_iff.mpr h))]
  · intro c t
    have hval : slotGet g0 c t = (g0 t).1 ∨ slotGet g0 c t = (g0 t).2 := by
      unfold slotGet
      split
      · exact Or.inl rfl
      · exact Or.inr rfl
    by_cases ht : t ∈ eligList env
    · have hgt : g0 t =
          (getHash (secOf env t) ||| 2 ^ 31, getHash (secOf env t) ||| 2 ^ 31) := by
        rw [hg0, initialGid_eq, if_pos ht]
      have h1 := hashId_ge (getHash (secOf env t))
      have h2 := hashId_lt (getHash (secOf env t)) (getHash_lt _)
      rcases hval with hv | hv <;> rw [hv, hgt] <;>
        exact Or.inr (Or.inl ⟨h1, h2⟩)
    · have hgt : g0 t = (0, 0) := by
        rw [hg0, initialGid_eq, if_neg ht]
      rcases hval with hv | hv <;> rw [hv, hgt] <;> exact Or.inl rfl
  · intro r hr
    show (slice sorted r.bgn r.fin).Pairwise _
    rw [List.pairwise_iff_getElem]
    intro i j hi hj hij
    have hfin : r.fin ≤ sorted.length := (Pwf r hr).2
    have hb2 : r.bgn + 2 ≤ r.fin := (Pwf r hr).1
    have hslen : (slice sorted r.bgn r.fin).length = r.fin - r.bgn :=
      length_slice _ _ _ hfin (by omega)
    have hgi := getElem_slice sorted r.bgn r.fin i hi
    have hgj := getElem_slice sorted r.bgn r.fin j hj
    rw [hgi, hgj]
    have hbi : r.bgn + i < r.fin := by omega
    have hbj : r.bgn + j < r.fin := by omega
    have hm := hmono (r.bgn + i) (r.bgn + j) (by omega) (by omega)
    have e1 := Prun r hr (r.bgn + i) (by omega) hbi
    have e2 := Prun r hr (r.bgn + j) (by omega) hbj
    have halg := hm.2 (by omega)
    rw [List.getD_eq_getElem _ _ (show r.bgn + j < sorted.length by omega),
      List.getD_eq_getElem _ _ (show r.bgn + i < sorted.length by omega)] at halg
    exact halg

/-! ## No-split characterization and loop convergence -/

/-- When every non-pivot member of the range already equals the pivot,
`segregate` does nothing. -/
theorem segGo_all_eq (p : Pred) (w : Nat) (sections : List Nat) (g : GidMap)
    (nid b e : Nat) (he : e ≤ sections.length)
    (hall : ∀ x ∈ slice sections (b + 1) e, p g (sections.getD b 0) x = true) :
    segGo p w sections g nid b e = ⟨sections, g, nid, e, []⟩ := by
  by_cases h1 : e ≤ b + 1
  · exact segGo_eq_base p w sections g nid b e h1
  · have heqs : (slice sections (b + 1) e).filter
        (fun s => p g (sections.getD b 0) s) = slice sections (b + 1) e :=
      List.filter_eq_self.mpr hall
    have hneqs : (slice sections (b + 1) e).filter
        (fun s => !(p g (sections.getD b 0) s)) = [] :=
      List.filter_eq_nil_iff.mpr (by
        intro a ha
        rw [hall a ha]
        simp)
    have hmid : segMid p g sections b e = e := by
      unfold segMid segEqs
      rw [heqs, length_slice _ _ _ he (by omega)]
      omega
    rw [segGo_eq_nosplit p w sections g nid b e h1 hmid]
    unfold segPart segEqs segNeqs
    rw [heqs, hneqs, List.append_nil, setSlice_slice]

theorem sweepStep_len (p : Pred) (w : Nat) (st : IcfState) (i : Nat) :
    (sweepStep p w st i).ranges.length =
      st.ranges.length +
        (segGo p w st.sections st.gid st.nextId
          (st.ranges.getD i ⟨0, 0⟩).bgn
          (st.ranges.getD i ⟨0, 0⟩).fin).news.length := by
  show ((st.ranges.set i _) ++ _).length = _
  rw [List.length_append, List.length_set]

theorem sweepFold_len_mono (p : Pred) (w : Nat) :
    ∀ (l : List Nat) (st : IcfState),
      st.ranges.length ≤ (l.foldl (sweepStep p w) st).ranges.length := by
  intro l
  induction l with
  | nil => intro st; exact Nat.le_refl _
  | cons a l ih =>
    intro st
    rw [List.foldl_cons]
    refine Nat.le_trans ?_ (ih (sweepStep p w st a))
    rw [sweepStep_len]
    omega

/-- If a sweep created no range, it changed nothing at all, and every range
was found fully refined: all members equal the pivot under the predicate. -/
theorem sweep_nosplit (p : Pred) (w : Nat) (st : IcfState)
    (hwf : ∀ r ∈ st.ranges, r.bgn < r.fin ∧ r.fin ≤ st.sections.length)
    (hlen : (sweep p w st).ranges.length = st.ranges.length) :
    sweep p w st = st ∧
      ∀ i, i < st.ranges.length →
        ∀ x ∈ slice st.sections ((st.ranges.getD i ⟨0, 0⟩).bgn + 1)
            (st.ranges.getD i ⟨0, 0⟩).fin,
          p st.gid (st.sections.getD (st.ranges.getD i ⟨0, 0⟩).bgn 0) x
            = true := by
  have key : ∀ i, i ≤ st.ranges.length →
      (List.range i).foldl (sweepStep p w) st = st ∧
      ∀ j, j < i →
        ∀ x ∈ slice st.sections ((st.ranges.getD j ⟨0, 0⟩).bgn + 1)
            (st.ranges.getD j ⟨0, 0⟩).fin,
          p st.gid (st.sections.getD (st.ranges.getD j ⟨0, 0⟩).bgn 0) x
            = true := by
    intro i
    induction i with
    | zero => exact fun _ => ⟨rfl, fun j hj => absurd hj (Nat.not_lt_zero j)⟩
    | succ i ih =>
      intro hik
      obtain ⟨hid, hpieces⟩ := ih (by omega)
      have hstep : (List.range (i + 1)).foldl (sweepStep p w) st =
          sweepStep p w st i := by
        rw [List.range_succ, List.foldl_append, hid]
        rfl
      have hi2 : i < st.ranges.length := by omega
      have hri : st.ranges.getD i ⟨0, 0⟩ ∈ st.ranges := by
        rw [List.getD_eq_getElem _ _ hi2]
        exact List.getElem_mem hi2
      obtain ⟨hbe, hfin⟩ := hwf _ hri
      have hdecomp : (List.range st.ranges.length).foldl (sweepStep p w) st =
          ((List.range (st.ranges.length - (i + 1))).map
            (fun m => (i + 1) + m)).foldl (sweepStep p w)
            (sweepStep p w st i) := by
        conv_lhs =>
          rw [show st.ranges.length = (i + 1) + (st.ranges.length - (i + 1))
            by omega]
        rw [List.range_add, List.foldl_append, hstep]
      have hlen' : ((List.range st.ranges.length).foldl (sweepStep p w)
          st).ranges.length = st.ranges.length := hlen
      rw [hdecomp] at hlen'
      have hge := sweepFold_len_mono p w
        ((List.range (st.ranges.length - (i + 1))).map (fun m => (i + 1) + m))
        (sweepStep p w st i)
      have hsl := sweepStep_len p w st i
      have hnews : (segGo p w st.sections st.gid st.nextId
          (st.ranges.getD i ⟨0, 0⟩).bgn
          (st.ranges.getD i ⟨0, 0⟩).fin).news.length = 0 := by omega
      obtain ⟨hsegeq, hsegp⟩ := segGo_nosplit p w st.sections st.gid st.nextId
        (st.ranges.getD i ⟨0, 0⟩).bgn (st.ranges.getD i ⟨0, 0⟩).fin hbe hfin
        (List.length_eq_zero.mp hnews)
      have hstepeq : sweepStep p w st i = st := by
        simp only [sweepStep, hsegeq]
        rw [List.append_nil]
        have heta : (⟨(st.ranges.getD i ⟨0, 0⟩).bgn,
            (st.ranges.getD i ⟨0, 0⟩).fin⟩ : Range) =
            st.ranges.getD i ⟨0, 0⟩ := rfl
        rw [heta, set_getD_self st.ranges i hi2]
      refine ⟨?_, ?_⟩
      · rw [hstep, hstepeq]
      · intro j hj x hx
        rcases Nat.lt_or_ge j i with hji | hji
        · exact hpieces j hji x hx
        · have hje : j = i := by omega
          subst hje
          exact hsegp x hx
  obtain ⟨h1, h2⟩ := key st.ranges.length (Nat.le_refl _)
  exact ⟨h1, h2⟩

/-- If a whole pass appended no range, the pass only bumped `Cnt`, and every
range's members all equal the range's pivot under the pass predicate. -/
theorem icfPass_nosplit (env : Env) (threads constant : Bool) (st : IcfState)
    (hwf : ∀ r ∈ st.ranges, r.bgn < r.fin ∧ r.fin ≤ st.sections.length)
    (hlen : (icfPass env threads constant st).ranges.length
      = st.ranges.length) :
    icfPass env threads constant st = { st with cnt := st.cnt + 1 } ∧
      ∀ i, i < st.ranges.length →
        ∀ x ∈ slice st.sections ((st.ranges.getD i ⟨0, 0⟩).bgn + 1)
            (st.ranges.getD i ⟨0, 0⟩).fin,
          (if constant then constPred env else varPred env threads st.cnt)
            st.gid (st.sections.getD (st.ranges.getD i ⟨0, 0⟩).bgn 0) x
            = true := by
  set p := if constant then constPred env else varPred env threads st.cnt
    with hp
  have hpass : icfPass env threads constant st =
      { copyNews st.ranges.length (sweep p (st.cnt + 1) st) with
        cnt := (sweep p (st.cnt + 1) st).cnt + 1 } := rfl
  have hreq : (icfPass env threads constant st).ranges =
      (sweep p (st.cnt + 1) st).ranges := by
    rw [hpass]
    rfl
  have hslen : (sweep p (st.cnt + 1) st).ranges.length = st.ranges.length := by
    rw [← hreq]
    exact hlen
  obtain ⟨hseq, hpieces⟩ := sweep_nosplit p (st.cnt + 1) st hwf hslen
  constructor
  · rw [hpass, hseq]
    show ({ st with
      gid := (st.ranges.drop st.ranges.length).foldl
        (copyOne st.cnt st.sections) st.gid,
      cnt := st.cnt + 1 } : IcfState) = _
    rw [List.drop_length]
    rfl
  · exact hpieces

theorem inv_sections_facts (env : Env) (st : IcfState) (hiv : Inv env st)
    (hn : env.secs.length < 2 ^ 31) :
    st.sections.length < 2 ^ 31 ∧ st.sections.Nodup := by
  have h1 := hiv.perm.length_eq
  have h2 := eligList_length_le env
  exact ⟨by omega, hiv.perm.nodup_iff.mpr (eligList_nodup env)⟩

/-- The driver loop with fuel `|Sections| + 1 - |Ranges|` (or more) exits
through its `break`: the result is the pass of some invariant state that
appended no range.  The invariant carries over, the `Sections` vector is only
permuted, and every final range is contained in an entry range. -/
theorem icfLoop_facts (env : Env) (threads : Bool)
    (hn : env.secs.length < 2 ^ 31) :
    ∀ fuel st, Inv env st →
      st.sections.length + 1 ≤ fuel + st.ranges.length →
      ∃ stPrev, Inv env stPrev ∧
        icfLoop env threads fuel st = icfPass env threads false stPrev ∧
        (icfPass env threads false stPrev).ranges.length
          = stPrev.ranges.length ∧
        Inv env (icfLoop env threads fuel st) ∧
        (icfLoop env threads fuel st).sections.Perm st.sections ∧
        ∀ r ∈ (icfLoop env threads fuel st).ranges, ∃ r0 ∈ st.ranges,
          ∀ t ∈ slice (icfLoop env threads fuel st).sections r.bgn r.fin,
            t ∈ slice st.sections r0.bgn r0.fin := by
  intro fuel
  induction fuel with
  | zero =>
    intro st hiv hfuel
    exfalso
    have hcnt := ranges_count_le st.ranges st.sections.length hiv.rangesWf
      hiv.disj
    omega
  | succ fuel ih =>
    intro st hiv hfuel
    obtain ⟨hsec31, hsecnd⟩ := inv_sections_facts env st hiv hn
    obtain ⟨hiv', hcnt', hperm', hlen', hwithin'⟩ :=
      icfPass_inv env threads false st hsec31 hsecnd hiv
    have hloop : icfLoop env threads (fuel + 1) st =
        if (icfPass env threads false st).ranges.length = st.ranges.length
        then icfPass env threads false st
        else icfLoop env threads fuel (icfPass env threads false st) := rfl
    by_cases hfix : (icfPass env threads false st).ranges.length
        = st.ranges.length
    · rw [hloop, if_pos hfix]
      exact ⟨st, hiv, rfl, hfix, hiv', hperm', hwithin'⟩
    · rw [hloop, if_neg hfix]
      have hfuel2 : (icfPass env threads false st).sections.length + 1 ≤
          fuel + (icfPass env threads false st).ranges.length := by
        have := hperm'.length_eq
        omega
      obtain ⟨stPrev, h1, h2, h3, h4, h5, h6⟩ := ih _ hiv' hfuel2
      refine ⟨stPrev, h1, h2, h3, h4, h5.trans hperm', ?_⟩
      intro r hr
      obtain ⟨r1, hr1, hsub1⟩ := h6 r hr
      obtain ⟨r0, hr0, hsub0⟩ := hwithin' r1 hr1
      exact ⟨r0, hr0, fun t ht => hsub0 t (hsub1 t ht)⟩

/-! ## The constant predicate as an equivalence, and constant-pass pieces -/

theorem relConstEq_true_iff (rela : Bool) (ra rb : Reloc) :
    relConstEq rela ra rb = true ↔
      (ra.r_offset = rb.r_offset ∧ ra.r_type = rb.r_type ∧
        getAddend rela ra = getAddend rela rb) := by
  unfold relConstEq
  simp [Bool.and_eq_true, and_assoc]

theorem equalsConstant_true_iff (env : Env) (a b : Nat) :
    equalsConstant env a b = true ↔
      ((secOf env a).relocs.length = (secOf env b).relocs.length ∧
        (secOf env a).flags = (secOf env b).flags ∧
        (secOf env a).size = (secOf env b).size ∧
        (secOf env a).data = (secOf env b).data ∧
        ∀ k, k < (secOf env a).relocs.length →
          relConstEq (secOf env a).areRelocsRela
            ((secOf env a).relocs.getD k default)
            ((secOf env b).relocs.getD k default) = true) := by
  unfold equalsConstant constantEq
  by_cases h1 : (secOf env a).relocs.length = (secOf env b).relocs.length
  · by_cases h2 : (secOf env a).flags = (secOf env b).flags
    · by_cases h3 : (secOf env a).size = (secOf env b).size
      · by_cases h4 : (secOf env a).data = (secOf env b).data
        · rw [if_neg (by simp [h1, h2, h3, h4])]
          simp only [Bool.and_eq_true, beq_iff_eq]
          rw [all2_iff_getD h1]
          constructor
          · rintro ⟨_, h⟩
            exact ⟨h1, h2, h3, h4, h⟩
          · rintro ⟨_, _, _, _, h⟩
            exact ⟨h1, h⟩
        · rw [if_pos (by simp [h4])]
          simp [h4]
      · rw [if_pos (by simp [h3])]
        simp [h3]
    · rw [if_pos (by simp [h2])]
      simp [h2]
  · rw [if_pos (by simp [h1])]
    simp [h1]

theorem equalsConstant_refl (env : Env) (a : Nat) :
    equalsConstant env a a = true := by
  rw [equalsConstant_true_iff]
  refine ⟨rfl, rfl, rfl, rfl, fun k hk => ?_⟩
  rw [relConstEq_true_iff]
  exact ⟨rfl, rfl, rfl⟩

theorem equalsConstant_symm (env : Env) (a b : Nat)
    (hu : (secOf env a).areRelocsRela = (secOf env b).areRelocsRela)
    (h : equalsConstant env a b = true) : equalsConstant env b a = true := by
  rw [equalsConstant_true_iff] at h ⊢
  obtain ⟨h1, h2, h3, h4, h5⟩ := h
  refine ⟨h1.symm, h2.symm, h3.symm, h4.symm, fun k hk => ?_⟩
  have := h5 k (by omega)
  rw [relConstEq_true_iff] at this ⊢
  rw [← hu]
  exact ⟨this.1.symm, this.2.1.symm, this.2.2.symm⟩

theorem equalsConstant_trans (env : Env) (a b c : Nat)
    (hu : (secOf env a).areRelocsRela = (secOf env b).areRelocsRela)
    (h1 : equalsConstant env a b = true) (h2 : equalsConstant env b c = true) :
    equalsConstant env a c = true := by
  rw [equalsConstant_true_iff] at h1 h2 ⊢
  obtain ⟨a1, a2, a3, a4, a5⟩ := h1
  obtain ⟨b1, b2, b3, b4, b5⟩ := h2
  refine ⟨a1.trans b1, a2.trans b2, a3.trans b3, a4.trans b4, fun k hk => ?_⟩
  have x1 := a5 k hk
  have x2 := b5 k (by omega)
  rw [relConstEq_true_iff] at x1 x2 ⊢
  rw [hu] at x1
  rw [← hu] at x1 x2
  exact ⟨x1.1.trans x2.1, x1.2.1.trans x2.2.1, x1.2.2.trans x2.2.2⟩

/-- Every member of every range is `equalsConstant`-equal to every other
member (the guarantee the constant pass creates and refinement preserves). -/
def ConstWithin (env : Env) (st : IcfState) : Prop :=
  ∀ r ∈ st.ranges, ∀ x ∈ slice st.sections r.bgn r.fin,
    ∀ y ∈ slice st.sections r.bgn r.fin, equalsConstant env x y = true

theorem constWithin_mono (env : Env) (st st' : IcfState)
    (hwithin : ∀ r ∈ st'.ranges, ∃ r0 ∈ st.ranges,
      ∀ t ∈ slice st'.sections r.bgn r.fin, t ∈ slice st.sections r0.bgn r0.fin)
    (hcw : ConstWithin env st) : ConstWithin env st' := by
  intro r hr x hx y hy
  obtain ⟨r0, hr0, hsub⟩ := hwithin r hr
  exact hcw r0 hr0 x (hsub x hx) y (hsub y hy)

/-- Pivot-relative constant equality carried through a constant sweep: every
processed and every pushed range consists of its pivot and sections equal to
it under `equalsConstant`. -/
def ConstPieces (env : Env) (k i : Nat) (st : IcfState) : Prop :=
  ∀ j, j < st.ranges.length → (j < i ∨ k ≤ j) →
    ∀ x ∈ slice st.sections (st.ranges.getD j ⟨0, 0⟩).bgn
        (st.ranges.getD j ⟨0, 0⟩).fin,
      x = st.sections.getD (st.ranges.getD j ⟨0, 0⟩).bgn 0 ∨
        equalsConstant env
          (st.sections.getD (st.ranges.getD j ⟨0, 0⟩).bgn 0) x = true

theorem sweepStep_constPieces (env : Env) (st0 : IcfState) (k i : Nat)
    (st : IcfState) (hnd0 : st0.sections.Nodup)
    (hiv : SweepInv env st0 k i st) (hik : i < k)
    (hcp : ConstPieces env k i st) :
    ConstPieces env k (i + 1)
      (sweepStep (constPred env) (st0.cnt + 1) st i) := by
  have hilen : i < st.ranges.length := Nat.lt_of_lt_of_le hik hiv.rlen
  set w := st0.cnt + 1 with hw
  set r := st.ranges.getD i ⟨0, 0⟩ with hr
  have hri : st.ranges[i] = r := by
    rw [hr, List.getD_eq_getElem _ _ hilen]
  have hrmem : r ∈ st.ranges := by
    rw [← hri]
    exact List.getElem_mem hilen
  obtain ⟨hbe, hfinle⟩ := hiv.rangesWf r hrmem
  have hndsec : st.sections.Nodup := hiv.secPerm.nodup_iff.mpr hnd0
  have hndsl : (slice st.sections r.bgn r.fin).Nodup :=
    (slice_sublist _ _ _).nodup hndsec
  have F := segGo_facts (constPred env) w (r.fin - r.bgn) st.sections st.gid
    st.nextId r.bgn r.fin (Nat.le_refl _) hbe hfinle hndsl
  have hstab : PredStable (constPred env) w := fun g g' _ a b => rfl
  have P := segGo_pieces_pred (constPred env) w hstab (r.fin - r.bgn)
    st.sections st.gid st.nextId r.bgn r.fin (Nat.le_refl _) hbe hfinle hndsl
  set out := segGo (constPred env) w st.sections st.gid st.nextId r.bgn r.fin
    with hout
  have hdisjpos : ∀ j2, (hj2 : j2 < st.ranges.length) → j2 ≠ i →
      ((st.ranges[j2]).fin ≤ r.bgn ∨ r.fin ≤ (st.ranges[j2]).bgn) := by
    intro j2 hj2 hne
    have hd := List.pairwise_iff_getElem.mp hiv.disj
    rcases Nat.lt_or_ge j2 i with hlt | hge
    · have h := hd j2 i hj2 hilen hlt
      rw [hri] at h
      exact h
    · have hji : i < j2 := by omega
      have h := hd i j2 hilen hj2 hji
      rw [hri] at h
      tauto
  have hstep : sweepStep (constPred env) w st i =
      ⟨out.sections, out.gid,
        (st.ranges.set i ⟨r.bgn, out.keptEnd⟩) ++ out.news,
        out.nextId, st.cnt⟩ := rfl
  rw [hstep]
  intro j hj hcond x hx
  have hjlen : j < (st.ranges.set i ⟨r.bgn, out.keptEnd⟩).length
      + out.news.length := by
    have h := hj
    rw [List.length_append] at h
    exact h
  rw [List.length_set] at hjlen
  by_cases hjA : j < st.ranges.length
  · have hgetD : ((st.ranges.set i ⟨r.bgn, out.keptEnd⟩) ++ out.news).getD j
        ⟨0, 0⟩ = (st.ranges.set i ⟨r.bgn, out.keptEnd⟩).getD j ⟨0, 0⟩ :=
      List.getD_append _ _ _ _ (by rw [List.length_set]; exact hjA)
    by_cases hji : j = i
    · subst hji
      have hset : (st.ranges.set j ⟨r.bgn, out.keptEnd⟩).getD j ⟨0, 0⟩ =
          ⟨r.bgn, out.keptEnd⟩ := by
        rw [List.getD_eq_getElem _ _ (by rw [List.length_set]; exact hjA),
          List.getElem_set, if_pos rfl]
      rw [hgetD, hset] at hx ⊢
      have hpiv : out.sections.getD r.bgn 0 = st.sections.getD r.bgn 0 :=
        F.pivotFixed
      show x = out.sections.getD r.bgn 0 ∨
        equalsConstant env (out.sections.getD r.bgn 0) x = true
      rw [hpiv]
      exact P.1 x hx
    · have hset : (st.ranges.set i ⟨r.bgn, out.keptEnd⟩).getD j ⟨0, 0⟩ =
          st.ranges.getD j ⟨0, 0⟩ := by
        rw [List.getD_eq_getElem?_getD, List.getElem?_set_ne
          (fun h => hji h.symm), ← List.getD_eq_getElem?_getD]
      have hz : st.ranges.getD j ⟨0, 0⟩ ∈ st.ranges := by
        rw [List.getD_eq_getElem _ _ hjA]
        exact List.getElem_mem hjA
      obtain ⟨hzb, hzf⟩ := hiv.rangesWf _ hz
      have hzj : st.ranges[j] = st.ranges.getD j ⟨0, 0⟩ :=
        (List.getD_eq_getElem _ _ hjA).symm
      have hd := hdisjpos j hjA hji
      rw [hzj] at hd
      have hsl : slice out.sections (st.ranges.getD j ⟨0, 0⟩).bgn
          (st.ranges.getD j ⟨0, 0⟩).fin =
          slice st.sections (st.ranges.getD j ⟨0, 0⟩).bgn
          (st.ranges.getD j ⟨0, 0⟩).fin := by
        apply slice_eq_of_getD _ _ _ _ F.len
        intro q hq1 hq2
        apply F.outside
        rcases hd with hd | hd <;> omega
      have hpivq : out.sections.getD (st.ranges.getD j ⟨0, 0⟩).bgn 0 =
          st.sections.getD (st.ranges.getD j ⟨0, 0⟩).bgn 0 := by
        apply F.outside
        rcases hd with hd | hd <;> omega
      rw [hgetD, hset] at hx ⊢
      show x = out.sections.getD (st.ranges.getD j ⟨0, 0⟩).bgn 0 ∨
        equalsConstant env
          (out.sections.getD (st.ranges.getD j ⟨0, 0⟩).bgn 0) x = true
      rw [hpivq]
      rw [hsl] at hx
      exact hcp j hjA (by omega) x hx
  · have hge : st.ranges.length ≤ j := by omega
    set m := j - st.ranges.length with hm
    have hmlen : m < out.news.length := by omega
    have hgetD : ((st.ranges.set i ⟨r.bgn, out.keptEnd⟩) ++ out.news).getD j
        ⟨0, 0⟩ = out.news.getD m ⟨0, 0⟩ := by
      rw [List.getD_append_right _ _ _ _ (by rw [List.length_set]; omega)]
      rw [List.length_set]
    have hnget : out.news.getD m ⟨0, 0⟩ = out.news.get ⟨m, hmlen⟩ := by
      rw [List.getD_eq_getElem _ _ hmlen, List.get_eq_getElem]
    rw [hgetD, hnget] at hx ⊢
    exact P.2 m hmlen x hx

/-! ## The variable predicate at a synced state -/

theorem slotGet_pair_zero {g : GidMap} {s : Nat} (h : g s = (0, 0)) (c : Nat) :
    slotGet g c s = 0 := by
  unfold slotGet
  rw [h]
  split <;> rfl

/-- At a state whose two slots agree, the single-thread fast path (reading
slot `(Cnt + 1) % 2`) decides exactly the same relation as the threaded
read of slot `Cnt % 2`. -/
theorem relVarEq_synced (env : Env) (threads : Bool) (cnt : Nat)
    (g : GidMap) (hsy : ∀ s, (g s).1 = (g s).2) (ra rb : Reloc) :
    relVarEq env threads cnt (fun s => s) g ra rb =
      relVarEq env true cnt (fun s => s) g ra rb := by
  cases threads
  · unfold relVarEq
    simp [slotGet_of_synced hsy (cnt + 1) cnt]
  · rfl

theorem all2_congr {f f' : Reloc → Reloc → Bool}
    (h : ∀ a b, f a b = f' a b) :
    ∀ (as bs : List Reloc), all2 f as bs = all2 f' as bs := by
  intro as
  induction as with
  | nil => intro bs; rfl
  | cons a as ih =>
    intro bs
    cases bs with
    | nil => rfl
    | cons b bs =>
      show (f a b && all2 f as bs) = (f' a b && all2 f' as bs)
      rw [h a b, ih bs]

theorem equalsVariable_synced (env : Env) (threads : Bool) (cnt : Nat)
    (g : GidMap) (hsy : ∀ s, (g s).1 = (g s).2) (a b : Nat) :
    equalsVariable env threads cnt (fun s => s) g a b =
      equalsVariable env true cnt (fun s => s) g a b := by
  unfold equalsVariable
  exact all2_congr (relVarEq_synced env threads cnt g hsy) _ _

/-- Two relocations both `relVarEq`-related to a common pivot relocation are
related to each other. -/
theorem relPairOk_pair (env : Env) (g : GidMap) (cnt : Nat) (rp ra rb : Reloc)
    (h1 : relPairOk env g cnt rp ra) (h2 : relPairOk env g cnt rp rb) :
    relPairOk env g cnt ra rb := by
  rcases h1 with h1 | ⟨v, xa, yb, hA1, hA2, hA3, hA4, hA5, hA6⟩
  · rcases h2 with h2 | ⟨v, xa, yb, hB1, hB2, hB3, hB4, hB5, hB6⟩
    · exact Or.inl (h1.symm.trans h2)
    · refine Or.inr ⟨v, xa, yb, ?_, hB2, hB3, hB4, hB5, hB6⟩
      rw [← h1]
      exact hB1
  · rcases h2 with h2 | ⟨v2, xa2, yb2, hB1, hB2, hB3, hB4, hB5, hB6⟩
    · refine Or.inr ⟨v, yb, xa, hA2, ?_, hA4, hA3, ?_, hA6.symm⟩
      · rw [← h2]
        exact hA1
      · rw [← hA6]
        exact hA5
    · have hsame : SymbolBody.definedRegular v (some xa) =
          SymbolBody.definedRegular v2 (some xa2) := by
        rw [← hA1, ← hB1]
      have hv : v = v2 := by
        cases hsame
        rfl
      have hxa : xa = xa2 := by
        cases hsame
        rfl
      subst hv
      subst hxa
      refine Or.inr ⟨v, yb, yb2, hA2, hB2, hA4, hB4, ?_, ?_⟩
      · rw [← hA6]
        exact hA5
      · rw [← hA6, ← hB6]

/-! ## Assembling the constant-pass guarantee -/

theorem sweep_constPieces (env : Env) (st0 : IcfState) (k : Nat)
    (hk : k = st0.ranges.length) (hn31 : st0.sections.length < 2 ^ 31)
    (hnd0 : st0.sections.Nodup) (h0 : st0.nextId ≤ k + 1)
    (hiv0 : SweepInv env st0 k 0 st0) :
    ConstPieces env k k (sweep (constPred env) (st0.cnt + 1) st0) := by
  have main : ∀ i, i ≤ k →
      SweepInv env st0 k i
        ((List.range i).foldl (sweepStep (constPred env) (st0.cnt + 1)) st0) ∧
      ConstPieces env k i
        ((List.range i).foldl (sweepStep (constPred env) (st0.cnt + 1)) st0) := by
    intro i
    induction i with
    | zero =>
      intro _
      refine ⟨hiv0, ?_⟩
      intro j hj hcond x hx
      exfalso
      have hj' : j < st0.ranges.length := hj
      omega
    | succ i ih =>
      intro hik
      obtain ⟨hsw, hcp⟩ := ih (by omega)
      rw [List.range_succ, List.foldl_append]
      simp only [List.foldl_cons, List.foldl_nil]
      exact ⟨sweepStep_inv env (constPred env) st0 k i _ hn31 hnd0 h0 hsw
          (by omega),
        sweepStep_constPieces env st0 k i _ hnd0 hsw (by omega) hcp⟩
  have h := (main k (Nat.le_refl _)).2
  show ConstPieces env k k
    ((List.range st0.ranges.length).foldl
      (sweepStep (constPred env) (st0.cnt + 1)) st0)
  rw [← hk]
  exact h

/-- After the constant pass, provided all candidate sections use one
relocation container format, any two members of a common range are
`equalsConstant`-equal. -/
theorem icfPass_constWithin (env : Env) (threads : Bool) (st0 : IcfState)
    (hn31 : st0.sections.length < 2 ^ 31) (hnd0 : st0.sections.Nodup)
    (hiv : Inv env st0)
    (hu : ∀ x ∈ eligList env, ∀ y ∈ eligList env,
      (secOf env x).areRelocsRela = (secOf env y).areRelocsRela) :
    ConstWithin env (icfPass env threads true st0) := by
  have h0 : st0.nextId ≤ st0.ranges.length + 1 := hiv.nextIdBound
  have hCP : ConstPieces env st0.ranges.length st0.ranges.length
      (sweep (constPred env) (st0.cnt + 1) st0) :=
    sweep_constPieces env st0 st0.ranges.length rfl hn31 hnd0 h0
      (inv_to_sweepInv env st0 hiv)
  have S : SweepInv env st0 st0.ranges.length st0.ranges.length
      (sweep (constPred env) (st0.cnt + 1) st0) :=
    sweep_inv env (constPred env) st0 st0.ranges.length rfl hn31 hnd0 h0
      (inv_to_sweepInv env st0 hiv)
  set st' := sweep (constPred env) (st0.cnt + 1) st0 with hst'
  have hsec : (icfPass env threads true st0).sections = st'.sections := rfl
  have hran : (icfPass env threads true st0).ranges = st'.ranges := rfl
  intro r hr x hx y hy
  rw [hran] at hr
  rw [hsec] at hx hy
  obtain ⟨j, hj, hjr⟩ := List.mem_iff_getElem.mp hr
  have hgd : st'.ranges.getD j ⟨0, 0⟩ = r := by
    rw [List.getD_eq_getElem _ _ hj]
    exact hjr
  have facts := hCP j hj (Nat.lt_or_ge j st0.ranges.length)
  rw [hgd] at facts
  have hrmem : r ∈ st'.ranges := hr
  obtain ⟨hbe, hfinle⟩ := S.rangesWf r hrmem
  have hpivslice : st'.sections.getD r.bgn 0 ∈ slice st'.sections r.bgn r.fin :=
    (mem_slice_iff hfinle).mpr ⟨r.bgn, Nat.le_refl _, hbe, rfl⟩
  have helig : ∀ z ∈ slice st'.sections r.bgn r.fin, z ∈ eligList env := by
    intro z hz
    exact hiv.perm.mem_iff.mp (S.secPerm.mem_iff.mp (mem_of_mem_slice hz))
  have hpivel := helig _ hpivslice
  have hxel := helig x hx
  have hyel := helig y hy
  rcases facts x hx with hxe | hxe <;> rcases facts y hy with hye | hye
  · rw [hxe, hye]
    exact equalsConstant_refl env _
  · rw [hxe]
    exact hye
  · rw [hye]
    exact equalsConstant_symm env _ x (hu _ hpivel x hxel) hxe
  · exact equalsConstant_trans env x (st'.sections.getD r.bgn 0) y
      (hu x hxel _ hpivel)
      (equalsConstant_symm env _ x (hu _ hpivel x hxel) hxe) hye

/-! ## `ICF::run` end to end -/

/-- The semantic shape of `ICF::run`'s result: the driver loop exits through
its `break` from some invariant state `stPrev`; the final state is `stPrev`
with `Cnt` bumped once more; every final range was found fully refined under
the variable predicate; under a uniform relocation container format the
constant guarantee holds within every final range; and `Repl` is the merge
loop's output over the final state. -/
theorem run_facts (env : Env) (threads : Bool)
    (hn : env.secs.length < 2 ^ 31) :
    ∃ stPrev : IcfState,
      Inv env stPrev ∧
      (run env threads).state = { stPrev with cnt := stPrev.cnt + 1 } ∧
      (run env threads).state = icfPass env threads false stPrev ∧
      (icfPass env threads false stPrev).ranges.length
        = stPrev.ranges.length ∧
      Inv env (run env threads).state ∧
      (∀ i, i < stPrev.ranges.length →
        ∀ x ∈ slice stPrev.sections
            ((stPrev.ranges.getD i ⟨0, 0⟩).bgn + 1)
            (stPrev.ranges.getD i ⟨0, 0⟩).fin,
          varPred env threads stPrev.cnt stPrev.gid
            (stPrev.sections.getD (stPrev.ranges.getD i ⟨0, 0⟩).bgn 0) x
            = true) ∧
      ((∀ x ∈ eligList env, ∀ y ∈ eligList env,
          (secOf env x).areRelocsRela = (secOf env y).areRelocsRela) →
        ConstWithin env stPrev) ∧
      (run env threads).repl =
        mergeRanges (run env threads).state.sections
          (run env threads).state.ranges (fun s => s) := by
  have hlenelig : (eligList env).length < 2 ^ 31 :=
    lt_of_le_of_lt (eligList_length_le env) hn
  set g0 := initialGid env (eligList env) with hg0
  set sorted := (eligList env).mergeSort (fun a b => !(sortLt env g0 b a))
    with hsorted
  have hslen : sorted.length = (eligList env).length :=
    (List.mergeSort_perm _ _).length_eq
  have hs64 : sorted.length ≤ usizeMod := by
    have h31 : (2 : Nat) ^ 31 ≤ usizeMod := by norm_num [usizeMod]
    omega
  obtain ⟨rs, hrs⟩ := scanRanges_total (fun s => (g0 s).1) sorted hs64
  set st0 : IcfState := ⟨sorted, g0, rs, 1, 0⟩ with hst0
  have hsorted' : sorted = (eligList env).mergeSort
      (fun a b => !(sortLt env (initialGid env (eligList env)) b a)) := by
    rw [hsorted, hg0]
  have hiv0 : Inv env st0 := inv0 env hn sorted g0 rs hsorted' hg0 hrs
  have hscan : (scanRanges (fun s => (g0 s).1) sorted).getD [] = rs := by
    rw [hrs]
    rfl
  have hrun : (run env threads).state =
      icfLoop env threads (sorted.length + 1)
        (icfPass env threads true st0) := by
    show icfLoop env threads (sorted.length + 1)
      (icfPass env threads true
        ⟨sorted, g0, (scanRanges (fun s => (g0 s).1) sorted).getD [], 1, 0⟩)
      = _
    rw [hscan]
  have hrepl : (run env threads).repl =
      mergeRanges (run env threads).state.sections
        (run env threads).state.ranges (fun s => s) := rfl
  obtain ⟨hsec31, hsecnd⟩ := inv_sections_facts env st0 hiv0 hn
  obtain ⟨hiv1, hcnt1, hperm1, hlen1, hwithin1⟩ :=
    icfPass_inv env threads true st0 hsec31 hsecnd hiv0
  have hfuel : (icfPass env threads true st0).sections.length + 1 ≤
      (sorted.length + 1) + (icfPass env threads true st0).ranges.length := by
    have h1 := hperm1.length_eq
    have h2 : st0.sections.length = sorted.length := rfl
    omega
  obtain ⟨stPrev, hivP, heqP, hlenP, hivF, hpermF, hwithinF⟩ :=
    icfLoop_facts env threads hn (sorted.length + 1)
      (icfPass env threads true st0) hiv1 hfuel
  obtain ⟨hfix, hpieces⟩ := icfPass_nosplit env threads false stPrev
    hivP.rangesWf hlenP
  refine ⟨stPrev, hivP, ?_, ?_, hlenP, ?_, ?_, ?_, hrepl⟩
  · rw [hrun, heqP, hfix]
  · rw [hrun, heqP]
  · rw [hrun]
    exact hivF
  · exact hpieces
  · intro hu
    have hc1 : ConstWithin env (icfPass env threads true st0) :=
      icfPass_constWithin env threads st0 hsec31 hsecnd hiv0 hu
    have hcF : ConstWithin env
        (icfLoop env threads (sorted.length + 1)
          (icfPass env threads true st0)) :=
      constWithin_mono env _ _ hwithinF hc1
    intro r hr x hx y hy
    have hre : (icfLoop env threads (sorted.length + 1)
        (icfPass env threads true st0)).ranges = stPrev.ranges := by
      rw [heqP, hfix]
    have hse : (icfLoop env threads (sorted.length + 1)
        (icfPass env threads true st0)).sections = stPrev.sections := by
      rw [heqP, hfix]
    exact hcF r (by rw [hre]; exact hr) x (by rw [hse]; exact hx) y
      (by rw [hse]; exact hy)

/-! ## The merge loop -/

theorem updFold_notmem (rep : Nat) (xs : List Nat) (repl : Nat → Nat) (t : Nat)
    (h : t ∉ xs) :
    xs.foldl (fun repl m => replaceSec repl rep m) repl t = repl t := by
  induction xs generalizing repl with
  | nil => rfl
  | cons x xs ih =>
    rw [List.foldl_cons, ih _ (fun h2 => h (List.mem_cons_of_mem _ h2))]
    unfold replaceSec
    exact Function.update_noteq
      (fun h2 => h (by rw [h2]; exact List.mem_cons_self _ _)) _ _

theorem updFold_mem (rep : Nat) (xs : List Nat) (repl : Nat → Nat) (t : Nat)
    (h : t ∈ xs) :
    xs.foldl (fun repl m => replaceSec repl rep m) repl t = rep := by
  induction xs generalizing repl with
  | nil => cases h
  | cons x xs ih =>
    rw [List.foldl_cons]
    by_cases hx : t ∈ xs
    · exact ih _ hx
    · have ht : t = x := by
        rcases List.mem_cons.mp h with h2 | h2
        · exact h2
        · exact absurd h2 hx
      subst ht
      rw [updFold_notmem _ _ _ _ hx]
      unfold replaceSec
      exact Function.update_same _ _ _

/-- The merge loop leaves `Repl` unchanged at every section that is not a
non-representative member of a size-ge-2 range. -/
theorem mergeRanges_frame (sections : List Nat) (rs : List Range)
    (repl : Nat → Nat) (t : Nat)
    (h : ∀ r ∈ rs, r.fin - r.bgn = 1 ∨ t ∉ slice sections (r.bgn + 1) r.fin) :
    mergeRanges sections rs repl t = repl t := by
  induction rs generalizing repl with
  | nil => rfl
  | cons r rs ih =>
    show mergeRanges sections rs _ t = repl t
    have hstep : (if r.fin - r.bgn = 1 then repl
        else (slice sections (r.bgn + 1) r.fin).foldl
          (fun repl m => replaceSec repl (sections.getD r.bgn 0) m) repl) t
        = repl t := by
      rcases h r (List.mem_cons_self _ _) with h1 | h1
      · rw [if_pos h1]
      · by_cases h2 : r.fin - r.bgn = 1
        · rw [if_pos h2]
        · rw [if_neg h2]
          exact updFold_notmem _ _ _ _ h1
    rw [ih _ (fun r2 h2 => h r2 (List.mem_cons_of_mem _ h2))]
    exact hstep

/-- The merge loop sends every non-representative member of a size-ge-2
range to that range's representative `Sections[R.Begin]`. -/
theorem mergeRanges_member (sections : List Nat) (rs : List Range)
    (hnd : sections.Nodup)
    (hwf : ∀ r ∈ rs, r.bgn < r.fin ∧ r.fin ≤ sections.length)
    (hdisj : rs.Pairwise (fun r r' => r.fin ≤ r'.bgn ∨ r'.fin ≤ r.bgn))
    (repl : Nat → Nat) (r : Range) (hr : r ∈ rs) (hsz : r.fin - r.bgn ≠ 1)
    (t : Nat) (ht : t ∈ slice sections (r.bgn + 1) r.fin) :
    mergeRanges sections rs repl t = sections.getD r.bgn 0 := by
  induction rs generalizing repl with
  | nil => cases hr
  | cons r0 rs ih =>
    rcases List.mem_cons.mp hr with rfl | hr2
    · show mergeRanges sections rs _ t = _
      have hbody : (if r.fin - r.bgn = 1 then repl
          else (slice sections (r.bgn + 1) r.fin).foldl
            (fun repl m => replaceSec repl (sections.getD r.bgn 0) m) repl) t
          = sections.getD r.bgn 0 := by
        rw [if_neg hsz]
        exact updFold_mem _ _ _ _ ht
      have hw := hwf r (List.mem_cons_self _ _)
      have hframe : ∀ r2 ∈ rs, r2.fin - r2.bgn = 1 ∨
          t ∉ slice sections (r2.bgn + 1) r2.fin := by
        intro r2 h2
        right
        intro ht2
        have hd := (List.pairwise_cons.mp hdisj).1 r2 h2
        have hw2 := hwf r2 (List.mem_cons_of_mem _ h2)
        exact slice_disjoint_value sections hnd (r.bgn + 1) r.fin
          (r2.bgn + 1) r2.fin
          (by rcases hd with hd | hd
              · exact Or.inl (by omega)
              · exact Or.inr (by omega)) hw.2 hw2.2 t ht ht2
      rw [mergeRanges_frame sections rs _ t hframe]
      exact hbody
    · show mergeRanges sections rs _ t = _
      exact ih (fun r2 h2 => hwf r2 (List.mem_cons_of_mem _ h2))
        (List.pairwise_cons.mp hdisj).2 _ hr2

/-- The representative itself is never a tail member of any range (the
ranges are disjoint and the `Sections` vector has no duplicates). -/
theorem rep_not_in_tail (sections : List Nat) (rs : List Range)
    (hnd : sections.Nodup)
    (hwf : ∀ r ∈ rs, r.bgn < r.fin ∧ r.fin ≤ sections.length)
    (hdisj : rs.Pairwise (fun r r' => r.fin ≤ r'.bgn ∨ r'.fin ≤ r.bgn))
    (r : Range) (hr : r ∈ rs) :
    ∀ r2 ∈ rs, sections.getD r.bgn 0 ∉ slice sections (r2.bgn + 1) r2.fin := by
  intro r2 hr2 hmem
  have hw := hwf r hr
  have hw2 := hwf r2 hr2
  obtain ⟨q, hq1, hq2, hq3⟩ := (mem_slice_iff hw2.2).mp hmem
  have hqb : q = r.bgn := by
    have h1 : sections[q] = sections[r.bgn] := by
      rw [← List.getD_eq_getElem sections 0 (by omega),
        ← List.getD_eq_getElem sections 0 (by omega), hq3]
    exact (List.Nodup.getElem_inj_iff hnd).mp h1
  subst hqb
  by_cases hrr : r = r2
  · subst hrr
    omega
  · have hd := List.Pairwise.forall
      (by intro a b h; tauto) hdisj hr hr2 hrr
    rcases hd with hd | hd <;> omega

/-! ## Class counting -/

/-- The number of distinct current class ids over the collected sections. -/
def classCount (st : IcfState) : Nat :=
  (st.sections.map (fun s => slotGet st.gid st.cnt s)).toFinset.card

theorem classCount_le (st : IcfState) : classCount st ≤ st.sections.length := by
  unfold classCount
  have h := List.toFinset_card_le
    (st.sections.map (fun s => slotGet st.gid st.cnt s))
  rw [List.length_map] at h
  exact h

/-- A pass never merges classes: two sections with equal class ids after the
pass already had equal class ids before it. -/
theorem icfPass_no_merge (env : Env) (threads constant : Bool) (st : IcfState)
    (hn31 : st.sections.length < 2 ^ 31) (hnd : st.sections.Nodup)
    (hiv : Inv env st) (x y : Nat) (hx : x ∈ st.sections)
    (hy : y ∈ st.sections)
    (heq : slotGet (icfPass env threads constant st).gid
        (icfPass env threads constant st).cnt x =
      slotGet (icfPass env threads constant st).gid
        (icfPass env threads constant st).cnt y) :
    slotGet st.gid st.cnt x = slotGet st.gid st.cnt y := by
  obtain ⟨hiv', hcnt', hperm', hlen', hwithin'⟩ :=
    icfPass_inv env threads constant st hn31 hnd hiv
  have hx' : x ∈ (icfPass env threads constant st).sections :=
    hperm'.mem_iff.mpr hx
  have hy' : y ∈ (icfPass env threads constant st).sections :=
    hperm'.mem_iff.mpr hy
  have hsame' := (hiv'.classIff x hx' y hy').mp heq
  have hsame : sameClassIn st x y := by
    rcases hsame' with heq2 | ⟨r, hr, hxs, hys⟩
    · exact Or.inl heq2
    · obtain ⟨r0, hr0, hsub⟩ := hwithin' r hr
      exact Or.inr ⟨r0, hr0, hsub x hxs, hsub y hys⟩
  exact (hiv.classIff x hx y hy).mpr hsame

/-- The number of distinct class ids never decreases across a pass. -/
theorem classCount_mono (env : Env) (threads constant : Bool) (st : IcfState)
    (hn31 : st.sections.length < 2 ^ 31) (hnd : st.sections.Nodup)
    (hiv : Inv env st) :
    classCount st ≤ classCount (icfPass env threads constant st) := by
  classical
  obtain ⟨hiv', hcnt', hperm', hlen', hwithin'⟩ :=
    icfPass_inv env threads constant st hn31 hnd hiv
  set st' := icfPass env threads constant st with hst'
  set f : Nat → Nat := fun s => slotGet st.gid st.cnt s with hf
  set f' : Nat → Nat := fun s => slotGet st'.gid st'.cnt s with hf'
  have key : ∀ x ∈ st.sections, ∀ y ∈ st.sections, f' x = f' y → f x = f y :=
    fun x hx y hy h =>
      icfPass_no_merge env threads constant st hn31 hnd hiv x y hx hy h
  unfold classCount
  apply Finset.card_le_card_of_surjOn
    (fun v => if h : ∃ x, x ∈ st.sections ∧ f' x = v then f h.choose else 0)
  intro w hw
  simp only [Finset.coe_sort_coe, List.coe_toFinset, Set.mem_setOf_eq,
    List.mem_map] at hw
  obtain ⟨xw, hxw, hfxw⟩ := hw
  have hex : ∃ x, x ∈ st.sections ∧ f' x = f' xw := ⟨xw, hxw, rfl⟩
  refine Set.mem_image_iff_bex.mpr ⟨f' xw, ?_, ?_⟩
  · simp only [Finset.mem_coe, List.mem_toFinset, List.mem_map]
    exact ⟨xw, hperm'.mem_iff.mpr hxw, rfl⟩
  · rw [dif_pos hex]
    have hc := hex.choose_spec
    rw [← hfxw]
    exact key _ hc.1 _ hxw hc.2

/-! ## Concrete evaluation helpers -/

/-- When every range is already fully refined under the pass predicate, the
pass is the identity apart from `++Cnt`. -/
theorem icfPass_identity (env : Env) (threads constant : Bool) (st : IcfState)
    (hwf : ∀ r ∈ st.ranges, r.bgn < r.fin ∧ r.fin ≤ st.sections.length)
    (hall : ∀ i, i < st.ranges.length →
      ∀ x ∈ slice st.sections ((st.ranges.getD i ⟨0, 0⟩).bgn + 1)
          (st.ranges.getD i ⟨0, 0⟩).fin,
        (if constant then constPred env else varPred env threads st.cnt)
          st.gid (st.sections.getD (st.ranges.getD i ⟨0, 0⟩).bgn 0) x
          = true) :
    icfPass env threads constant st = { st with cnt := st.cnt + 1 } := by
  set p := if constant then constPred env else varPred env threads st.cnt
    with hp
  have key : ∀ i, i ≤ st.ranges.length →
      (List.range i).foldl (sweepStep p (st.cnt + 1)) st = st := by
    intro i
    induction i with
    | zero => exact fun _ => rfl
    | succ i ih =>
      intro hik
      rw [List.range_succ, List.foldl_append, ih (by omega)]
      simp only [List.foldl_cons, List.foldl_nil]
      have hi2 : i < st.ranges.length := by omega
      have hri : st.ranges.getD i ⟨0, 0⟩ ∈ st.ranges := by
        rw [List.getD_eq_getElem _ _ hi2]
        exact List.getElem_mem hi2
      obtain ⟨hbe, hfin⟩ := hwf _ hri
      have hsegeq := segGo_all_eq p (st.cnt + 1) st.sections st.gid st.nextId
        (st.ranges.getD i ⟨0, 0⟩).bgn (st.ranges.getD i ⟨0, 0⟩).fin hfin
        (hall i hi2)
      simp only [sweepStep, hsegeq]
      rw [List.append_nil]
      have heta : (⟨(st.ranges.getD i ⟨0, 0⟩).bgn,
          (st.ranges.getD i ⟨0, 0⟩).fin⟩ : Range) =
          st.ranges.getD i ⟨0, 0⟩ := rfl
      rw [heta, set_getD_self st.ranges i hi2]
  have hsweep : sweep p (st.cnt + 1) st = st :=
    key st.ranges.length (Nat.le_refl _)
  show ({ copyNews st.ranges.length (sweep p (st.cnt + 1) st) with
      cnt := (sweep p (st.cnt + 1) st).cnt + 1 } : IcfState) = _
  rw [hsweep]
  show ({ st with
    gid := (st.ranges.drop st.ranges.length).foldl
      (copyOne st.cnt st.sections) st.gid,
    cnt := st.cnt + 1 } : IcfState) = _
  rw [List.drop_length]
  rfl

/-- When all sections carry one common `GroupId[0]`, the scan produces the
single range covering the whole vector. -/
theorem scanRanges_all_equal (f : Nat → Nat) (l : List Nat)
    (hlen : l.length ≤ usizeMod) (h2 : 2 ≤ l.length)
    (heq : ∀ p q, p < l.length → q < l.length →
      f (l.getD p 0) = f (l.getD q 0)) :
    scanRanges f l = some [⟨0, l.length⟩] := by
  obtain ⟨rs, hrs, hwf, hord, hrun, hadj⟩ :=
    scanOuter_sound f l (by omega) hlen l.length 0 (by omega)
  have hadj0 : ∀ p, p + 1 < l.length →
      f (l.getD p 0) = f (l.getD (p + 1) 0) →
      ∃ r ∈ rs, r.bgn ≤ p ∧ p + 1 < r.fin :=
    fun p h1 h3 => hadj p (by omega) h1 h3
  obtain ⟨r, hrmem, hr1, hr2⟩ := covered_of_adj rs f l hord hadj0
    (l.length - 2) 0 (by omega)
    (fun m hm1 hm2 => heq 0 m (by omega) (by omega))
  have hrwf := hwf r hrmem
  have hrval : r = ⟨0, l.length⟩ := by
    cases r with
    | mk b e =>
      have hb : b ≤ 0 := hr1
      have he : 0 + 1 + (l.length - 2) < e := hr2
      have he2 : e ≤ l.length := hrwf.2.2
      have hb0 : b = 0 := by omega
      have heL : e = l.length := by omega
      rw [hb0, heL]
  subst hrval
  have hallr : ∀ r2 ∈ rs, r2 = (⟨0, l.length⟩ : Range) := by
    intro r2 hr2mem
    have hw2 := hwf r2 hr2mem
    have hb2 : r2.bgn + 2 ≤ r2.fin := hw2.2.1
    have he2 : r2.fin ≤ l.length := hw2.2.2
    exact ordered_unique_cover rs hord r2 _ hr2mem hrmem r2.bgn
      (Nat.le_refl _) (by omega) (by omega) (by omega)
  cases rs with
  | nil => exact absurd hrmem (List.not_mem_nil _)
  | cons a tail =>
    have ha := hallr a (List.mem_cons_self _ _)
    cases tail with
    | nil =>
      rw [ha] at hrs
      exact hrs
    | cons b2 tail2 =>
      exfalso
      have hb2 := hallr b2 (List.mem_cons_of_mem _ (List.mem_cons_self _ _))
      have hp := (List.pairwise_cons.mp hord).1 b2 (List.mem_cons_self _ _)
      rw [ha, hb2] at hp
      have hple : l.length ≤ 0 := hp
      omega

/-! ## Two concrete environments, evaluated through `run` -/

/-- Three identical-looking sections with MIXED relocation container
formats: section 0 is `SHT_REL` (implicit addends), sections 1 and 2 are
`SHT_RELA` with different explicit addends (5 and 7).  Flags, sizes, bytes,
relocation counts, offsets, types and targets all agree, so the hash, the
constant predicate (dispatching on the pivot's format) and the variable
predicate see no difference. -/
def envC1 : Env :=
  ⟨[⟨"a", 2, 4, [0], 1, true, true, false, [⟨0, 7, 0, 0⟩]⟩,
    ⟨"b", 2, 4, [0], 1, true, true, true, [⟨0, 7, 5, 0⟩]⟩,
    ⟨"c", 2, 4, [0], 1, true, true, true, [⟨0, 7, 7, 0⟩]⟩],
   [SymbolBody.other]⟩

def gC1 : GidMap := initialGid envC1 (eligList envC1)

theorem eligC1 : eligList envC1 = [0, 1, 2] := by decide

theorem sortedC1 : (eligList envC1).mergeSort
    (fun a b => !(sortLt envC1 gC1 b a)) = [0, 1, 2] := by
  rw [eligC1]
  exact List.mergeSort_of_sorted (by decide)

theorem scanC1 : scanRanges (fun s => (gC1 s).1) [0, 1, 2]
    = some [⟨0, 3⟩] := by
  have hv : ∀ p, p < 3 → (gC1 ([0, 1, 2].getD p 0)).1 = (gC1 0).1 := by decide
  exact scanRanges_all_equal (fun s => (gC1 s).1) [0, 1, 2]
    (by decide) (by decide)
    (fun p q hp hq => (hv p hp).trans (hv q hq).symm)

theorem passC1_const :
    icfPass envC1 true true (⟨[0, 1, 2], gC1, [⟨0, 3⟩], 1, 0⟩ : IcfState)
      = ⟨[0, 1, 2], gC1, [⟨0, 3⟩], 1, 1⟩ :=
  icfPass_identity envC1 true true _ (by decide) (by decide)

theorem passC1_var :
    icfPass envC1 true false (⟨[0, 1, 2], gC1, [⟨0, 3⟩], 1, 1⟩ : IcfState)
      = ⟨[0, 1, 2], gC1, [⟨0, 3⟩], 1, 2⟩ :=
  icfPass_identity envC1 true false _ (by decide) (by decide)

theorem loopC1 :
    icfLoop envC1 true 4 (⟨[0, 1, 2], gC1, [⟨0, 3⟩], 1, 1⟩ : IcfState)
      = ⟨[0, 1, 2], gC1, [⟨0, 3⟩], 1, 2⟩ := by
  have hstep : icfLoop envC1 true 4
      (⟨[0, 1, 2], gC1, [⟨0, 3⟩], 1, 1⟩ : IcfState) =
      if (icfPass envC1 true false
          (⟨[0, 1, 2], gC1, [⟨0, 3⟩], 1, 1⟩ : IcfState)).ranges.length
        = ([⟨0, 3⟩] : List Range).length
      then icfPass envC1 true false
        (⟨[0, 1, 2], gC1, [⟨0, 3⟩], 1, 1⟩ : IcfState)
      else icfLoop envC1 true 3 (icfPass envC1 true false
        (⟨[0, 1, 2], gC1, [⟨0, 3⟩], 1, 1⟩ : IcfState)) := rfl
  rw [hstep, passC1_var]
  rw [if_pos rfl]

theorem runC1_state : (run envC1 true).state
    = ⟨[0, 1, 2], gC1, [⟨0, 3⟩], 1, 2⟩ := by
  have h0 : (run envC1 true).state =
      icfLoop envC1 true
        (((eligList envC1).mergeSort
          (fun a b => !(sortLt envC1 gC1 b a))).length + 1)
        (icfPass envC1 true true
          ⟨(eligList envC1).mergeSort (fun a b => !(sortLt envC1 gC1 b a)),
            gC1,
            (scanRanges (fun s => (gC1 s).1)
              ((eligList envC1).mergeSort
                (fun a b => !(sortLt envC1 gC1 b a)))).getD [],
            1, 0⟩) := rfl
  rw [h0, sortedC1, scanC1, Option.getD_some, passC1_const]
  exact loopC1

/-- The uniform-format variant of `envC1`: all three sections `SHT_RELA`
with equal addends. -/
def envU : Env :=
  ⟨[⟨"a", 2, 4, [0], 1, true, true, true, [⟨0, 7, 5, 0⟩]⟩,
    ⟨"b", 2, 4, [0], 1, true, true, true, [⟨0, 7, 5, 0⟩]⟩,
    ⟨"c", 2, 4, [0], 1, true, true, true, [⟨0, 7, 5, 0⟩]⟩],
   [SymbolBody.other]⟩

def gU : GidMap := initialGid envU (eligList envU)

theorem eligU : eligList envU = [0, 1, 2] := by decide

theorem sortedU : (eligList envU).mergeSort
    (fun a b => !(sortLt envU gU b a)) = [0, 1, 2] := by
  rw [eligU]
  exact List.mergeSort_of_sorted (by decide)

theorem scanU : scanRanges (fun s => (gU s).1) [0, 1, 2] = some [⟨0, 3⟩] := by
  have hv : ∀ p, p < 3 → (gU ([0, 1, 2].getD p 0)).1 = (gU 0).1 := by decide
  exact scanRanges_all_equal (fun s => (gU s).1) [0, 1, 2]
    (by decide) (by decide)
    (fun p q hp hq => (hv p hp).trans (hv q hq).symm)

theorem passU_const :
    icfPass envU true true (⟨[0, 1, 2], gU, [⟨0, 3⟩], 1, 0⟩ : IcfState)
      = ⟨[0, 1, 2], gU, [⟨0, 3⟩], 1, 1⟩ :=
  icfPass_identity envU true true _ (by decide) (by decide)

theorem passU_var :
    icfPass envU true false (⟨[0, 1, 2], gU, [⟨0, 3⟩], 1, 1⟩ : IcfState)
      = ⟨[0, 1, 2], gU, [⟨0, 3⟩], 1, 2⟩ :=
  icfPass_identity envU true false _ (by decide) (by decide)

theorem loopU :
    icfLoop envU true 4 (⟨[0, 1, 2], gU, [⟨0, 3⟩], 1, 1⟩ : IcfState)
      = ⟨[0, 1, 2], gU, [⟨0, 3⟩], 1, 2⟩ := by
  have hstep : icfLoop envU true 4
      (⟨[0, 1, 2], gU, [⟨0, 3⟩], 1, 1⟩ : IcfState) =
      if (icfPass envU true false
          (⟨[0, 1, 2], gU, [⟨0, 3⟩], 1, 1⟩ : IcfState)).ranges.length
        = ([⟨0, 3⟩] : List Range).length
      then icfPass envU true false
        (⟨[0, 1, 2], gU, [⟨0, 3⟩], 1, 1⟩ : IcfState)
      else icfLoop envU true 3 (icfPass envU true false
        (⟨[0, 1, 2], gU, [⟨0, 3⟩], 1, 1⟩ : IcfState)) := rfl
  rw [hstep, passU_var]
  rw [if_pos rfl]

theorem runU_state : (run envU true).state
    = ⟨[0, 1, 2], gU, [⟨0, 3⟩], 1, 2⟩ := by
  have h0 : (run envU true).state =
      icfLoop envU true
        (((eligList envU).mergeSort
          (fun a b => !(sortLt envU gU b a))).length + 1)
        (icfPass envU true true
          ⟨(eligList envU).mergeSort (fun a b => !(sortLt envU gU b a)),
            gU,
            (scanRanges (fun s => (gU s).1)
              ((eligList envU).mergeSort
                (fun a b => !(sortLt envU gU b a)))).getD [],
            1, 0⟩) := rfl
  rw [h0, sortedU, scanU, Option.getD_some, passU_const]
  exact loopU

/-- The empty environment and its (trivial) between-pass state. -/
def envNil : Env := ⟨[], []⟩

def stNil : IcfState := ⟨[], fun _ => (0, 0), [], 1, 0⟩

theorem inv_nil : Inv envNil stNil :=
  { perm := List.Perm.nil
    rangesWf := fun r hr => absurd hr (List.not_mem_nil r)
    disj := List.Pairwise.nil
    synced := fun _ => rfl
    classIff := fun x hx => absurd hx (List.not_mem_nil x)
    nzero := fun x hx => absurd hx (List.not_mem_nil x)
    outZero := fun _ _ => rfl
    idKinds := fun c t => Or.inl (slotGet_pair_zero rfl c)
    nextIdPos := Nat.le_refl 1
    nextIdBound := Nat.le_refl 1
    alignSorted := fun r hr => absurd hr (List.not_mem_nil r) }

/-! ## The claims -/

/-- **C2.** Across sweeps the refinement only splits classes and never
merges them: two sections with distinct class ids keep distinct class ids
through every later pass (every between-pass state satisfies `Inv`, so this
covers all sweeps of a run); the number of distinct class ids is
non-decreasing and bounded by the number of sections; and the driver loop
terminates, exiting exactly when a full sweep appends no range: `run`'s
final state is the pass of a state it did not change. -/
theorem c2_monotone_convergence (env : Env) (threads constant : Bool)
    (st : IcfState) (hn : env.secs.length < 2 ^ 31) (hiv : Inv env st) :
    (∀ x ∈ st.sections, ∀ y ∈ st.sections,
      slotGet st.gid st.cnt x ≠ slotGet st.gid st.cnt y →
      slotGet (icfPass env threads constant st).gid
          (icfPass env threads constant st).cnt x ≠
        slotGet (icfPass env threads constant st).gid
          (icfPass env threads constant st).cnt y) ∧
    classCount st ≤ classCount (icfPass env threads constant st) ∧
    classCount (icfPass env threads constant st) ≤ st.sections.length ∧
    ∃ stPrev, Inv env stPrev ∧
      (run env threads).state = icfPass env threads false stPrev ∧
      (icfPass env threads false stPrev).ranges.length
        = stPrev.ranges.length := by
  obtain ⟨hn31, hnd⟩ := inv_sections_facts env st hiv hn
  obtain ⟨hiv2, hcnt2, hperm2, hlen2, hwithin2⟩ :=
    icfPass_inv env threads constant st hn31 hnd hiv
  refine ⟨?_, classCount_mono env threads constant st hn31 hnd hiv, ?_, ?_⟩
  · intro x hx y hy hne heq
    exact hne
      (icfPass_no_merge env threads constant st hn31 hnd hiv x y hx hy heq)
  · have h1 := classCount_le (icfPass env threads constant st)
    have h2 := hperm2.length_eq
    omega
  · obtain ⟨stPrev, hivP, _, hpass, hlenP, _, _, _, _⟩ :=
      run_facts env threads hn
    exact ⟨stPrev, hivP, hpass, hlenP⟩

theorem c2_witness :
    envNil.secs.length < 2 ^ 31 ∧ Inv envNil stNil ∧
    ((∀ x ∈ stNil.sections, ∀ y ∈ stNil.sections,
      slotGet stNil.gid stNil.cnt x ≠ slotGet stNil.gid stNil.cnt y →
      slotGet (icfPass envNil true true stNil).gid
          (icfPass envNil true true stNil).cnt x ≠
        slotGet (icfPass envNil true true stNil).gid
          (icfPass envNil true true stNil).cnt y) ∧
    classCount stNil ≤ classCount (icfPass envNil true true stNil) ∧
    classCount (icfPass envNil true true stNil) ≤ stNil.sections.length ∧
    ∃ stPrev, Inv envNil stPrev ∧
      (run envNil true).state = icfPass envNil true false stPrev ∧
      (icfPass envNil true false stPrev).ranges.length
        = stPrev.ranges.length) :=
  ⟨by decide, inv_nil,
    c2_monotone_convergence envNil true true stNil (by decide) inv_nil⟩

/-- **C4.** `run` considers exactly the concrete live, allocatable,
non-writable input sections not named `.init`/`.fini`; a section failing
any condition is never folded into another and its `Repl` slot is never
redirected (`(run env threads).repl i = i`). -/
theorem c4_eligibility (env : Env) (threads : Bool)
    (hn : env.secs.length < 2 ^ 31) (i : Nat) :
    (i ∈ eligList env ↔
      i < env.secs.length ∧ (secOf env i).isInput = true ∧
      (secOf env i).live = true ∧
      (secOf env i).flags &&& SHF_ALLOC ≠ 0 ∧
      (secOf env i).flags &&& SHF_WRITE = 0 ∧
      (secOf env i).name ≠ ".init" ∧ (secOf env i).name ≠ ".fini") ∧
    (i ∉ eligList env → (run env threads).repl i = i) := by
  constructor
  · unfold eligList isEligible
    rw [List.mem_filter, List.mem_range]
    simp only [Bool.and_eq_true, bne_iff_ne, beq_iff_eq, ne_eq]
    tauto
  · intro hni
    obtain ⟨stPrev, hivP, hstate, hpass, hlenP, hivF, hvar, hconst, hrepl⟩ :=
      run_facts env threads hn
    rw [hrepl]
    apply mergeRanges_frame
    intro r hr
    right
    intro hmem
    exact hni (hivF.perm.mem_iff.mp (mem_of_mem_slice hmem))

theorem c4_witness :
    envNil.secs.length < 2 ^ 31 ∧
    (((0 : Nat) ∈ eligList envNil ↔
      0 < envNil.secs.length ∧ (secOf envNil 0).isInput = true ∧
      (secOf envNil 0).live = true ∧
      (secOf envNil 0).flags &&& SHF_ALLOC ≠ 0 ∧
      (secOf envNil 0).flags &&& SHF_WRITE = 0 ∧
      (secOf envNil 0).name ≠ ".init" ∧ (secOf envNil 0).name ≠ ".fini") ∧
    ((0 : Nat) ∉ eligList envNil → (run envNil true).repl 0 = 0)) :=
  ⟨by decide, c4_eligibility envNil true (by decide) 0⟩

/-- **C5.** For two sections with equal relocation counts, `equalsVariable`
returns true iff every positionally paired relocation resolves to the
identical symbol object, or to `DefinedRegular` symbols with equal `Value`
whose sections are both concrete input sections sharing the same non-zero
current class id (class id 0 — an ineligible or unfolded target — makes the
sections unequal, even when the raw bytes match). -/
theorem c5_variable_predicate (env : Env) (g : GidMap) (cnt : Nat) (a b : Nat)
    (hlen : (secOf env a).relocs.length = (secOf env b).relocs.length) :
    equalsVariable env true cnt (fun s => s) g a b = true ↔
      ∀ k, k < (secOf env a).relocs.length →
        relPairOk env g cnt ((secOf env a).relocs.getD k default)
          ((secOf env b).relocs.getD k default) :=
  equalsVariable_iff_pairs env g cnt a b hlen

theorem c5_witness :
    (secOf envU 1).relocs.length = (secOf envU 2).relocs.length ∧
    (equalsVariable envU true 0 (fun s => s) gU 1 2 = true ↔
      ∀ k, k < (secOf envU 1).relocs.length →
        relPairOk envU gU 0 ((secOf envU 1).relocs.getD k default)
          ((secOf envU 2).relocs.getD k default)) :=
  ⟨by decide, c5_variable_predicate envU gU 0 1 2 (by decide)⟩

/-- **C6.** The representative of every final class (the section at the
range's begin index) has alignment at least that of every member: the
stable sort places the highest alignment first within a group, and every
split keeps each piece's relative order with the pivot at its begin. -/
theorem c6_representative (env : Env) (threads : Bool)
    (hn : env.secs.length < 2 ^ 31) (r : Range)
    (hr : r ∈ (run env threads).state.ranges) (m : Nat)
    (hm : m ∈ slice (run env threads).state.sections r.bgn r.fin) :
    (secOf env m).alignment ≤
      (secOf env
        ((run env threads).state.sections.getD r.bgn 0)).alignment := by
  obtain ⟨stPrev, hivP, hstate, hpass, hlenP, hivF, hvar, hconst, hrepl⟩ :=
    run_facts env threads hn
  have hwf := hivF.rangesWf r hr
  have hAS := hivF.alignSorted r hr
  rw [slice_eq_cons _ _ _ hwf.1 hwf.2] at hAS hm
  rcases List.mem_cons.mp hm with hm1 | hm2
  · rw [hm1]
  · exact (List.pairwise_cons.mp hAS).1 m hm2

theorem c6_witness :
    envU.secs.length < 2 ^ 31 ∧
    (⟨0, 3⟩ : Range) ∈ (run envU true).state.ranges ∧
    (1 : Nat) ∈ slice (run envU true).state.sections 0 3 ∧
    (secOf envU 1).alignment ≤
      (secOf envU ((run envU true).state.sections.getD 0 0)).alignment := by
  have h1 : (⟨0, 3⟩ : Range) ∈ (run envU true).state.ranges := by
    rw [runU_state]
    decide
  have h2 : (1 : Nat) ∈ slice (run envU true).state.sections 0 3 := by
    rw [runU_state]
    decide
  exact ⟨by decide, h1, h2,
    c6_representative envU true (by decide) ⟨0, 3⟩ h1 1 h2⟩

/-- **C8.** The modelled range-construction scan — every element access it
performs is bounds-checked and would surface as `none` — always completes;
in particular on an empty `Sections` vector the wrapped-around loop bound
`E - 1 = 2^64 - 1` makes the outer loop spin without any element access and
produce no range.  `run` itself is a total function of the environment: ICF
has no failure conditions of its own. -/
theorem c8_scan_safe (f : Nat → Nat) (l : List Nat)
    (hlen : l.length ≤ usizeMod) :
    (∃ rs, scanRanges f l = some rs) ∧
      (l.length = 0 → scanRanges f l = some []) :=
  ⟨scanRanges_total f l hlen,
    fun h0 => scanOuter_nil f l h0 (usizeMod - 1) 0 (Nat.le_refl _)⟩

theorem c8_witness :
    ([] : List Nat).length ≤ usizeMod ∧
    ((∃ rs, scanRanges (fun s => s) ([] : List Nat) = some rs) ∧
      (([] : List Nat).length = 0 →
        scanRanges (fun s => s) ([] : List Nat) = some [])) :=
  ⟨by decide, c8_scan_safe (fun s => s) [] (by decide)⟩

/-- **C9.** After `run` returns: every non-representative member of a
size-ge-2 final range has its `Repl` slot redirected to the range's
representative `Sections[R.Begin]`; the representative's own `Repl` is
unchanged; and every other section's `Repl` is unchanged (the pass mutates
nothing else: in this model `Repl` is the only per-section mutable slot
besides the class ids). -/
theorem c9_replacement (env : Env) (threads : Bool)
    (hn : env.secs.length < 2 ^ 31) :
    (∀ r ∈ (run env threads).state.ranges, 2 ≤ r.fin - r.bgn →
      (∀ m ∈ slice (run env threads).state.sections (r.bgn + 1) r.fin,
        (run env threads).repl m =
          (run env threads).state.sections.getD r.bgn 0) ∧
      (run env threads).repl
          ((run env threads).state.sections.getD r.bgn 0) =
        (run env threads).state.sections.getD r.bgn 0) ∧
    ∀ s, (∀ r ∈ (run env threads).state.ranges,
        2 ≤ r.fin - r.bgn →
        s ∉ slice (run env threads).state.sections (r.bgn + 1) r.fin) →
      (run env threads).repl s = s := by
  obtain ⟨stPrev, hivP, hstate, hpass, hlenP, hivF, hvar, hconst, hrepl⟩ :=
    run_facts env threads hn
  have hnd : (run env threads).state.sections.Nodup :=
    (inv_sections_facts env _ hivF hn).2
  constructor
  · intro r hr hsz
    constructor
    · intro m hm
      rw [hrepl]
      exact mergeRanges_member _ _ hnd hivF.rangesWf hivF.disj _ r hr
        (by omega) m hm
    · rw [hrepl]
      apply mergeRanges_frame
      intro r2 hr2
      by_cases h1 : r2.fin - r2.bgn = 1
      · exact Or.inl h1
      · exact Or.inr
          (rep_not_in_tail _ _ hnd hivF.rangesWf hivF.disj r hr r2 hr2)
  · intro s hs
    rw [hrepl]
    apply mergeRanges_frame
    intro r hr
    by_cases h1 : r.fin - r.bgn = 1
    · exact Or.inl h1
    · have hw := hivF.rangesWf r hr
      exact Or.inr (hs r hr (by omega))

theorem c9_witness :
    envU.secs.length < 2 ^ 31 ∧
    ((∀ r ∈ (run envU true).state.ranges, 2 ≤ r.fin - r.bgn →
      (∀ m ∈ slice (run envU true).state.sections (r.bgn + 1) r.fin,
        (run envU true).repl m =
          (run envU true).state.sections.getD r.bgn 0) ∧
      (run envU true).repl
          ((run envU true).state.sections.getD r.bgn 0) =
        (run envU true).state.sections.getD r.bgn 0) ∧
    ∀ s, (∀ r ∈ (run envU true).state.ranges,
        2 ≤ r.fin - r.bgn →
        s ∉ slice (run envU true).state.sections (r.bgn + 1) r.fin) →
      (run envU true).repl s = s) :=
  ⟨by decide, c9_replacement envU true (by decide)⟩

/-- **C10.** Id-space separation: every collected section is seeded in both
`GroupId` slots with its 32-bit hash with the high bit forced, so it lies
in `[2^31, 2^32)`; in every between-pass state (`Inv` holds for all of
them, including `run`'s final state) every stored id is zero, such a hash
id, or a serial id below `2^31` — so no serial id ever equals a hash id. -/
theorem c10_id_separation (env : Env) (threads : Bool)
    (hn : env.secs.length < 2 ^ 31) :
    (∀ s ∈ eligList env,
      initialGid env (eligList env) s =
        (getHash (secOf env s) ||| 2 ^ 31,
          getHash (secOf env s) ||| 2 ^ 31) ∧
      2 ^ 31 ≤ getHash (secOf env s) ||| 2 ^ 31 ∧
      getHash (secOf env s) ||| 2 ^ 31 < 2 ^ 32) ∧
    (∀ st : IcfState, Inv env st → ∀ c t,
      slotGet st.gid c t = 0 ∨
        (2 ^ 31 ≤ slotGet st.gid c t ∧ slotGet st.gid c t < 2 ^ 32) ∨
        (1 ≤ slotGet st.gid c t ∧ slotGet st.gid c t < 2 ^ 31)) ∧
    Inv env (run env threads).state := by
  refine ⟨?_, ?_, ?_⟩
  · intro s hs
    exact ⟨by rw [initialGid_eq, if_pos hs], hashId_ge _,
      hashId_lt _ (getHash_lt _)⟩
  · intro st hiv c t
    have hcnt := ranges_count_le st.ranges st.sections.length hiv.rangesWf
      hiv.disj
    have hlen := hiv.perm.length_eq
    have hle := eligList_length_le env
    have hnid := hiv.nextIdBound
    rcases hiv.idKinds c t with h | h | h
    · exact Or.inl h
    · exact Or.inr (Or.inl h)
    · exact Or.inr (Or.inr ⟨h.1, by omega⟩)
  · obtain ⟨stPrev, hivP, hstate, hpass, hlenP, hivF, hvar, hconst, hrepl⟩ :=
      run_facts env threads hn
    exact hivF

/-- **C1.** On `envC1` the run converges with sections `1` and `2` in one
final class although their relocations carry unequal explicit addends
(`5 ≠ 7`, both sections `SHT_RELA`): `equalsConstant` compares addends with
the container format of the PIVOT (`RelTy` is chosen from section `A`'s
`AreRelocsRela`, ICF.cpp:201), so an `SHT_REL` pivot (section `0`, whose
`getAddend` reads `0`) accepts `SHT_RELA` members with arbitrary unequal
explicit addends — "for every positionally paired relocation the ...
addends are equal" fails for the final partition. -/
theorem c1_counterexample :
    ∃ r ∈ (run envC1 true).state.ranges,
      1 ∈ slice (run envC1 true).state.sections r.bgn r.fin ∧
      2 ∈ slice (run envC1 true).state.sections r.bgn r.fin ∧
      (secOf envC1 1).relocs.length = (secOf envC1 2).relocs.length ∧
      (secOf envC1 1).areRelocsRela = true ∧
      (secOf envC1 2).areRelocsRela = true ∧
      ((secOf envC1 1).relocs.getD 0 default).r_addend ≠
        ((secOf envC1 2).relocs.getD 0 default).r_addend := by
  refine ⟨⟨0, 3⟩, ?_, ?_, ?_, by decide, by decide, by decide, by decide⟩
  · rw [runC1_state]
    decide
  · rw [runC1_state]
    decide
  · rw [runC1_state]
    decide

/-- **C1.** (amended) Soundness of the final partition under a uniform
relocation container format: if all candidate sections agree on
`AreRelocsRela`, then any two sections of one final class have equal data,
flags, size and relocation counts, and every positionally paired relocation
has equal offset, type and addend, and targets that are the identical
symbol or `DefinedRegular` symbols of equal `Value` whose sections are
concrete input sections lying in the same final class. -/
theorem c1_soundness (env : Env) (threads : Bool)
    (hn : env.secs.length < 2 ^ 31)
    (hu : ∀ a ∈ eligList env, ∀ b ∈ eligList env,
      (secOf env a).areRelocsRela = (secOf env b).areRelocsRela) :
    ∀ r ∈ (run env threads).state.ranges,
      ∀ x ∈ slice (run env threads).state.sections r.bgn r.fin,
      ∀ y ∈ slice (run env threads).state.sections r.bgn r.fin,
        (secOf env x).data = (secOf env y).data ∧
        (secOf env x).flags = (secOf env y).flags ∧
        (secOf env x).size = (secOf env y).size ∧
        (secOf env x).relocs.length = (secOf env y).relocs.length ∧
        ∀ k, k < (secOf env x).relocs.length →
          ((secOf env x).relocs.getD k default).r_offset =
            ((secOf env y).relocs.getD k default).r_offset ∧
          ((secOf env x).relocs.getD k default).r_type =
            ((secOf env y).relocs.getD k default).r_type ∧
          getAddend (secOf env x).areRelocsRela
              ((secOf env x).relocs.getD k default) =
            getAddend (secOf env x).areRelocsRela
              ((secOf env y).relocs.getD k default) ∧
          (((secOf env x).relocs.getD k default).symIdx =
              ((secOf env y).relocs.getD k default).symIdx ∨
            ∃ v xa yb,
              symOf env ((secOf env x).relocs.getD k default).symIdx =
                .definedRegular v (some xa) ∧
              symOf env ((secOf env y).relocs.getD k default).symIdx =
                .definedRegular v (some yb) ∧
              (secOf env xa).isInput = true ∧
              (secOf env yb).isInput = true ∧
              sameClassIn (run env threads).state xa yb) := by
  obtain ⟨stPrev, hivP, hstate, hpass, hlenP, hivF, hvar, hconst, hrepl⟩ :=
    run_facts env threads hn
  have hCW : ConstWithin env stPrev := hconst hu
  have hre : (run env threads).state.ranges = stPrev.ranges := by
    rw [hstate]
  have hse : (run env threads).state.sections = stPrev.sections := by
    rw [hstate]
  intro r hr x hx y hy
  rw [hre] at hr
  rw [hse] at hx hy
  obtain ⟨hbe, hfinle⟩ := hivP.rangesWf r hr
  have hpivmem : stPrev.sections.getD r.bgn 0 ∈
      slice stPrev.sections r.bgn r.fin :=
    (mem_slice_iff hfinle).mpr ⟨r.bgn, Nat.le_refl _, hbe, rfl⟩
  obtain ⟨i, hi, hir⟩ := List.mem_iff_getElem.mp hr
  have hgd : stPrev.ranges.getD i ⟨0, 0⟩ = r := by
    rw [List.getD_eq_getElem _ _ hi]
    exact hir
  have hv := hvar i hi
  rw [hgd] at hv
  have pairsPiv : ∀ z ∈ slice stPrev.sections r.bgn r.fin,
      ∀ k, k < (secOf env (stPrev.sections.getD r.bgn 0)).relocs.length →
        relPairOk env stPrev.gid stPrev.cnt
          ((secOf env (stPrev.sections.getD r.bgn 0)).relocs.getD k default)
          ((secOf env z).relocs.getD k default) := by
    intro z hz k hk
    have hzcons := hz
    rw [slice_eq_cons _ _ _ hbe hfinle] at hzcons
    rcases List.mem_cons.mp hzcons with hz1 | hz2
    · subst hz1
      exact Or.inl rfl
    · have hlenz : (secOf env (stPrev.sections.getD r.bgn 0)).relocs.length =
          (secOf env z).relocs.length :=
        ((equalsConstant_true_iff env _ z).mp
          (hCW r hr _ hpivmem z hz)).1
      have hvz := hv z hz2
      unfold varPred at hvz
      rw [equalsVariable_synced env threads stPrev.cnt stPrev.gid
        hivP.synced] at hvz
      exact (equalsVariable_iff_pairs env stPrev.gid stPrev.cnt _ z
        hlenz).mp hvz k hk
  obtain ⟨hlen1, hflags, hsize, hdata, hrc⟩ :=
    (equalsConstant_true_iff env x y).mp (hCW r hr x hx y hy)
  refine ⟨hdata, hflags, hsize, hlen1, ?_⟩
  intro k hk
  have hrck := (relConstEq_true_iff _ _ _).mp (hrc k hk)
  refine ⟨hrck.1, hrck.2.1, hrck.2.2, ?_⟩
  have hlenpx : (secOf env (stPrev.sections.getD r.bgn 0)).relocs.length =
      (secOf env x).relocs.length :=
    ((equalsConstant_true_iff env _ x).mp (hCW r hr _ hpivmem x hx)).1
  have hpx := pairsPiv x hx k (by omega)
  have hpy := pairsPiv y hy k (by omega)
  have hxy := relPairOk_pair env stPrev.gid stPrev.cnt _ _ _ hpx hpy
  rcases hxy with h | ⟨v, xa, yb, h1, h2, h3, h4, h5, h6⟩
  · exact Or.inl h
  · refine Or.inr ⟨v, xa, yb, h1, h2, h3, h4, ?_⟩
    have hxa : xa ∈ stPrev.sections := by
      by_contra hxa
      exact h5 (slotGet_pair_zero (hivP.outZero xa hxa) stPrev.cnt)
    have hyb : yb ∈ stPrev.sections := by
      by_contra hyb
      rw [h6] at h5
      exact h5 (slotGet_pair_zero (hivP.outZero yb hyb) stPrev.cnt)
    have hsc := (hivP.classIff xa hxa yb hyb).mp h6
    rw [hstate]
    exact hsc

theorem c1_witness :
    (envU.secs.length < 2 ^ 31 ∧
      ∀ a ∈ eligList envU, ∀ b ∈ eligList envU,
        (secOf envU a).areRelocsRela = (secOf envU b).areRelocsRela) ∧
    ∀ r ∈ (run envU true).state.ranges,
      ∀ x ∈ slice (run envU true).state.sections r.bgn r.fin,
      ∀ y ∈ slice (run envU true).state.sections r.bgn r.fin,
        (secOf envU x).data = (secOf envU y).data ∧
        (secOf envU x).flags = (secOf envU y).flags ∧
        (secOf envU x).size = (secOf envU y).size ∧
        (secOf envU x).relocs.length = (secOf envU y).relocs.length ∧
        ∀ k, k < (secOf envU x).relocs.length →
          ((secOf envU x).relocs.getD k default).r_offset =
            ((secOf envU y).relocs.getD k default).r_offset ∧
          ((secOf envU x).relocs.getD k default).r_type =
            ((secOf envU y).relocs.getD k default).r_type ∧
          getAddend (secOf envU x).areRelocsRela
              ((secOf envU x).relocs.getD k default) =
            getAddend (secOf envU x).areRelocsRela
              ((secOf envU y).relocs.getD k default) ∧
          (((secOf envU x).relocs.getD k default).symIdx =
              ((secOf envU y).relocs.getD k default).symIdx ∨
            ∃ v xa yb,
              symOf envU ((secOf envU x).relocs.getD k default).symIdx =
                .definedRegular v (some xa) ∧
              symOf envU ((secOf envU y).relocs.getD k default).symIdx =
                .definedRegular v (some yb) ∧
              (secOf envU xa).isInput = true ∧
              (secOf envU yb).isInput = true ∧
              sameClassIn (run envU true).state xa yb) :=
  ⟨⟨by decide, by decide⟩, c1_soundness envU true (by decide) (by decide)⟩

/-! ## The segregator's continuation policy (C7)

The spec's §4.5 pseudocode ends each splitting round with
`R.end = mid  # continue refining the kept half`: the loop is said to keep
refining the kept left sub-range `[begin, mid)`.  The code (ICF.cpp:180)
instead does `R = NewRange`: it shrinks the current range to `[begin, mid)`
and continues with the newly emitted `[mid, end)`.  `segLeftGo` below is
modelled from the spec's words, to be compared with `segGo` (modelled from
the code); on predicates that are not transitive the two produce different
splits, and even on equality predicates they consume different numbers of
serial ids and push different range lists. -/

/-- Modelled from the spec: the §4.5 segregator pseudocode, which after a
split sets `R.end = mid` and recurses on the kept left half `[b, mid)`
(where `segGo`, the code, recurses on the new `[mid, e)`). -/
def segLeftGo (p : Pred) (w : Nat) (sections : List Nat) (g : GidMap)
    (nid b e : Nat) : SegOut :=
  if h1 : e ≤ b + 1 then ⟨sections, g, nid, e, []⟩
  else
    let pivot := sections.getD b 0
    let rest := slice sections (b + 1) e
    let eqs := rest.filter (fun s => p g pivot s)
    let neqs := rest.filter (fun s => !(p g pivot s))
    let sections' := setSlice sections (b + 1) (eqs ++ neqs)
    let mid := b + 1 + eqs.length
    if h2 : mid = e then ⟨sections', g, nid, e, []⟩
    else
      let g' := writeIds g w (slice sections' mid e) nid
      let out := segLeftGo p w sections' g' (nid + 1) b mid
      ⟨out.sections, out.gid, out.nextId, out.keptEnd, ⟨mid, e⟩ :: out.news⟩
termination_by e - b
decreasing_by
  have h3 := List.length_filter_le (fun s => p g (sections.getD b 0) s)
    (slice sections (b + 1) e)
  have h4 : (slice sections (b + 1) e).length ≤ e - (b + 1) :=
    List.length_take_le _ _
  have h5 : eqs.length =
      (List.filter (fun s => p g (sections.getD b 0) s)
        (slice sections (b + 1) e)).length := rfl
  omega

theorem segLeftGo_eq_base (p : Pred) (w : Nat) (l : List Nat) (g : GidMap)
    (nid b e : Nat) (h : e ≤ b + 1) :
    segLeftGo p w l g nid b e = ⟨l, g, nid, e, []⟩ := by
  rw [segLeftGo, dif_pos h]

theorem segLeftGo_eq_split (p : Pred) (w : Nat) (l : List Nat) (g : GidMap)
    (nid b e : Nat) (h1 : ¬ e ≤ b + 1) (h2 : ¬ segMid p g l b e = e) :
    segLeftGo p w l g nid b e =
      (let out := segLeftGo p w (segPart p g l b e)
        (writeIds g w (slice (segPart p g l b e) (segMid p g l b e) e) nid)
        (nid + 1) b (segMid p g l b e)
      ⟨out.sections, out.gid, out.nextId, out.keptEnd,
        ⟨segMid p g l b e, e⟩ :: out.news⟩) := by
  rw [segLeftGo, dif_neg h1]
  simp only [segMid, segEqs, segNeqs, segPart] at h2 ⊢
  rw [dif_neg h2]

/-- The equality predicate on section indices, ignoring the id store. -/
def pEqC7 : Pred := fun _ a b => a == b

def gBlank : GidMap := fun _ => (0, 0)

def g1C7 : GidMap := writeIds gBlank 1 [20, 30] 5

def g2C7 : GidMap := writeIds g1C7 1 [30] 6

/-- **C7.** On the three pairwise-distinct sections `[10, 20, 30]` the code's
segregator (`segGo`, which continues with the newly emitted range:
`R = NewRange` at ICF.cpp:180) pushes `[{1,2}, {2,3}]` and consumes two
serial ids, while the spec's pseudocode (`segLeftGo`, whose
`R.end = mid` comment says the loop "continues refining the kept half")
pushes only `[{1,3}]` and consumes one id: the spec's continuation policy
does not describe the code. -/
theorem c7_counterexample :
    (segGo pEqC7 1 [10, 20, 30] gBlank 5 0 3).news = [⟨1, 2⟩, ⟨2, 3⟩] ∧
    (segGo pEqC7 1 [10, 20, 30] gBlank 5 0 3).nextId = 7 ∧
    (segLeftGo pEqC7 1 [10, 20, 30] gBlank 5 0 3).news = [⟨1, 3⟩] ∧
    (segLeftGo pEqC7 1 [10, 20, 30] gBlank 5 0 3).nextId = 6 ∧
    segLeftGo pEqC7 1 [10, 20, 30] gBlank 5 0 3 ≠
      segGo pEqC7 1 [10, 20, 30] gBlank 5 0 3 := by
  have hpart1 : segPart pEqC7 gBlank [10, 20, 30] 0 3 = [10, 20, 30] := by
    decide
  have hmid1 : segMid pEqC7 gBlank [10, 20, 30] 0 3 = 1 := by decide
  have hsl1 : slice [10, 20, 30] 1 3 = [20, 30] := by decide
  have hpart2 : segPart pEqC7 g1C7 [10, 20, 30] 1 3 = [10, 20, 30] := by decide
  have hmid2 : segMid pEqC7 g1C7 [10, 20, 30] 1 3 = 2 := by decide
  have hsl2 : slice [10, 20, 30] 2 3 = [30] := by decide
  have e23 : segGo pEqC7 1 [10, 20, 30] g2C7 7 2 3 =
      ⟨[10, 20, 30], g2C7, 7, 3, []⟩ :=
    segGo_eq_base _ _ _ _ _ _ _ (by omega)
  have e13 : segGo pEqC7 1 [10, 20, 30] g1C7 6 1 3 =
      ⟨[10, 20, 30], g2C7, 7, 2, [⟨2, 3⟩]⟩ := by
    rw [segGo_eq_split pEqC7 1 [10, 20, 30] g1C7 6 1 3 (by omega) (by decide)]
    rw [hpart2, hmid2, hsl2,
      show writeIds g1C7 1 [30] 6 = g2C7 from rfl, e23]
  have e03 : segGo pEqC7 1 [10, 20, 30] gBlank 5 0 3 =
      ⟨[10, 20, 30], g2C7, 7, 1, [⟨1, 2⟩, ⟨2, 3⟩]⟩ := by
    rw [segGo_eq_split pEqC7 1 [10, 20, 30] gBlank 5 0 3 (by omega) (by decide)]
    rw [hpart1, hmid1, hsl1,
      show writeIds gBlank 1 [20, 30] 5 = g1C7 from rfl, e13]
  have eL01 : segLeftGo pEqC7 1 [10, 20, 30] g1C7 6 0 1 =
      ⟨[10, 20, 30], g1C7, 6, 1, []⟩ :=
    segLeftGo_eq_base _ _ _ _ _ _ _ (by omega)
  have eL03 : segLeftGo pEqC7 1 [10, 20, 30] gBlank 5 0 3 =
      ⟨[10, 20, 30], g1C7, 6, 1, [⟨1, 3⟩]⟩ := by
    rw [segLeftGo_eq_split pEqC7 1 [10, 20, 30] gBlank 5 0 3 (by omega)
      (by decide)]
    rw [hpart1, hmid1, hsl1,
      show writeIds gBlank 1 [20, 30] 5 = g1C7 from rfl, eL01]
  refine ⟨by rw [e03], by rw [e03], by rw [eL03], by rw [eL03], ?_⟩
  intro h
  rw [eL03, e03] at h
  exact absurd (congrArg SegOut.nextId h) (by decide)

/-- **C7.** (amended) What each `segregate` call actually guarantees: the
pivot `Sections[begin]` stays at `begin`; the kept half `[begin, keptEnd)`
together with the pushed ranges tiles `[begin, end)`; one fresh serial id
per pushed range is consumed and written to that range's members; the kept
half keeps its old group ids and consists of the pivot plus the sections
equal to it; and on a split the loop continues with the NEWLY emitted range
`[mid, end)` (`R = NewRange`), the current range keeping `[begin, mid)`. -/
theorem c7_amended (p : Pred) (w : Nat) (l : List Nat) (g : GidMap)
    (nid b e : Nat) (hst : PredStable p w) (hbe : b < e)
    (hlen : e ≤ l.length) (hnd : (slice l b e).Nodup) :
    (segGo p w l g nid b e).sections.getD b 0 = l.getD b 0 ∧
    b < (segGo p w l g nid b e).keptEnd ∧
    (segGo p w l g nid b e).keptEnd ≤ e ∧
    coversFrom (segGo p w l g nid b e).keptEnd (segGo p w l g nid b e).news e ∧
    (segGo p w l g nid b e).nextId = nid + (segGo p w l g nid b e).news.length ∧
    (∀ m, (hm : m < (segGo p w l g nid b e).news.length) → ∀ t,
      t ∈ slice (segGo p w l g nid b e).sections
        ((segGo p w l g nid b e).news.get ⟨m, hm⟩).bgn
        ((segGo p w l g nid b e).news.get ⟨m, hm⟩).fin →
      slotGet (segGo p w l g nid b e).gid w t = nid + m) ∧
    (∀ t, t ∈ slice (segGo p w l g nid b e).sections b
        (segGo p w l g nid b e).keptEnd →
      (segGo p w l g nid b e).gid t = g t) ∧
    (∀ x ∈ slice (segGo p w l g nid b e).sections b
        (segGo p w l g nid b e).keptEnd,
      x = l.getD b 0 ∨ p g (l.getD b 0) x = true) ∧
    (¬ e ≤ b + 1 → ¬ segMid p g l b e = e →
      segGo p w l g nid b e =
        (let out := segGo p w (segPart p g l b e)
          (writeIds g w (slice (segPart p g l b e) (segMid p g l b e) e) nid)
          (nid + 1) (segMid p g l b e) e
        ⟨out.sections, out.gid, out.nextId, segMid p g l b e,
          ⟨segMid p g l b e, out.keptEnd⟩ :: out.news⟩)) := by
  have hf := segGo_facts p w (e - b) l g nid b e (Nat.le_refl _) hbe hlen hnd
  have hp := segGo_pieces_pred p w hst (e - b) l g nid b e (Nat.le_refl _)
    hbe hlen hnd
  exact ⟨hf.pivotFixed, hf.keptLo, hf.keptHi, hf.chain, hf.nextIdEq,
    hf.newsIds, hf.keptGid, hp.1,
    fun h1 h2 => segGo_eq_split p w l g nid b e h1 h2⟩

theorem c7_amended_witness :
    PredStable pEqC7 1 ∧ (0 : Nat) < 3 ∧ 3 ≤ [10, 20, 30].length ∧
    (slice [10, 20, 30] 0 3).Nodup ∧
    ((segGo pEqC7 1 [10, 20, 30] gBlank 5 0 3).sections.getD 0 0 =
        [10, 20, 30].getD 0 0 ∧
    0 < (segGo pEqC7 1 [10, 20, 30] gBlank 5 0 3).keptEnd ∧
    (segGo pEqC7 1 [10, 20, 30] gBlank 5 0 3).keptEnd ≤ 3 ∧
    coversFrom (segGo pEqC7 1 [10, 20, 30] gBlank 5 0 3).keptEnd
      (segGo pEqC7 1 [10, 20, 30] gBlank 5 0 3).news 3 ∧
    (segGo pEqC7 1 [10, 20, 30] gBlank 5 0 3).nextId =
      5 + (segGo pEqC7 1 [10, 20, 30] gBlank 5 0 3).news.length ∧
    (∀ m, (hm : m < (segGo pEqC7 1 [10, 20, 30] gBlank 5 0 3).news.length) →
      ∀ t, t ∈ slice (segGo pEqC7 1 [10, 20, 30] gBlank 5 0 3).sections
        ((segGo pEqC7 1 [10, 20, 30] gBlank 5 0 3).news.get ⟨m, hm⟩).bgn
        ((segGo pEqC7 1 [10, 20, 30] gBlank 5 0 3).news.get ⟨m, hm⟩).fin →
      slotGet (segGo pEqC7 1 [10, 20, 30] gBlank 5 0 3).gid 1 t = 5 + m) ∧
    (∀ t, t ∈ slice (segGo pEqC7 1 [10, 20, 30] gBlank 5 0 3).sections 0
        (segGo pEqC7 1 [10, 20, 30] gBlank 5 0 3).keptEnd →
      (segGo pEqC7 1 [10, 20, 30] gBlank 5 0 3).gid t = gBlank t) ∧
    (∀ x ∈ slice (segGo pEqC7 1 [10, 20, 30] gBlank 5 0 3).sections 0
        (segGo pEqC7 1 [10, 20, 30] gBlank 5 0 3).keptEnd,
      x = [10, 20, 30].getD 0 0 ∨
        pEqC7 gBlank ([10, 20, 30].getD 0 0) x = true) ∧
    (¬ (3 : Nat) ≤ 0 + 1 → ¬ segMid pEqC7 gBlank [10, 20, 30] 0 3 = 3 →
      segGo pEqC7 1 [10, 20, 30] gBlank 5 0 3 =
        (let out := segGo pEqC7 1 (segPart pEqC7 gBlank [10, 20, 30] 0 3)
          (writeIds gBlank 1
            (slice (segPart pEqC7 gBlank [10, 20, 30] 0 3)
              (segMid pEqC7 gBlank [10, 20, 30] 0 3) 3) 5)
          (5 + 1) (segMid pEqC7 gBlank [10, 20, 30] 0 3) 3
        ⟨out.sections, out.gid, out.nextId,
          segMid pEqC7 gBlank [10, 20, 30] 0 3,
          ⟨segMid pEqC7 gBlank [10, 20, 30] 0 3, out.keptEnd⟩ ::
            out.news⟩))) :=
  ⟨fun _ _ _ _ _ => rfl, by decide, by decide, by decide,
    c7_amended pEqC7 1 [10, 20, 30] gBlank 5 0 3 (fun _ _ _ _ _ => rfl)
      (by decide) (by decide) (by decide)⟩

theorem c10_witness :
    envU.secs.length < 2 ^ 31 ∧
    ((∀ s ∈ eligList envU,
      initialGid envU (eligList envU) s =
        (getHash (secOf envU s) ||| 2 ^ 31,
          getHash (secOf envU s) ||| 2 ^ 31) ∧
      2 ^ 31 ≤ getHash (secOf envU s) ||| 2 ^ 31 ∧
      getHash (secOf envU s) ||| 2 ^ 31 < 2 ^ 32) ∧
    (∀ st : IcfState, Inv envU st → ∀ c t,
      slotGet st.gid c t = 0 ∨
        (2 ^ 31 ≤ slotGet st.gid c t ∧ slotGet st.gid c t < 2 ^ 32) ∨
        (1 ≤ slotGet st.gid c t ∧ slotGet st.gid c t < 2 ^ 31)) ∧
    Inv envU (run envU true).state) :=
  ⟨by decide, c10_id_separation envU true (by decide)⟩

end Icf
